import Mathlib

/-!
# A verification development for `sjtu::list` (src/list.hpp)

The container is a doubly linked list with two sentinel nodes.  The embedding
keeps the pointer structure of the source:

* a node address is a natural number, `0` is `nullptr`;
* the node heap maps an address to the node stored there (`none` when the
  address holds no live node); `new` hands out the address `brk` and bumps it,
  `delete` empties the cell;
* a `list` object is the record of its three members and lives at an address
  of its own (the `this` pointer), so that iterators can carry `lst`;
* an operation returns `Except Error _`: the two exceptions of
  `exceptions.hpp`, `undefined_behaviour` for a dereference of a null or dead
  pointer, and `out_of_fuel` when the fuel given to a `while` loop runs out;
* `operator<` and `operator==` of `T` are the parameters `lt` and `eq`;
* `count` is a `size_t`; the number of live nodes is bounded by the address
  space, so `count++` never wraps and `count--` is only reached behind a
  `count == 0` / `count <= 1` guard: it is kept as a natural number.
-/

namespace sjtu

/-- The failure kinds of an operation. -/
inductive Error
  | container_is_empty
  | invalid_iterator
  | undefined_behaviour
  | out_of_fuel
  deriving DecidableEq

/-- The class `node`: `data` is `none` for a sentinel (`data == nullptr`). -/
structure node (T : Type) where
  data : Option T
  prev : Nat
  next : Nat
  deriving DecidableEq

/-- The node heap with its bump allocator. -/
structure Heap (T : Type) where
  cells : Nat → Option (node T)
  brk : Nat

/-- The members of a `list` object. -/
structure list where
  head : Nat
  tail : Nat
  count : Nat
  deriving DecidableEq

/-- The class `iterator`: the node pointer and the owning list pointer. -/
structure iterator where
  ptr : Nat
  lst : Nat
  deriving DecidableEq

/-- The whole memory: the node heap and the live `list` objects by address. -/
structure State (T : Type) where
  heap : Heap T
  lists : Nat → Option list

variable {T : Type}

/-! ## Memory primitives -/

/-- An empty memory; address `0` is the null pointer and is never handed out. -/
def State.init : State T :=
  { heap := { cells := fun _ => none, brk := 1 }, lists := fun _ => none }

/-- Read the node at `p` (`*p`). -/
def Heap.get (h : Heap T) (p : Nat) : Except Error (node T) :=
  match h.cells p with
  | some n => .ok n
  | none => .error .undefined_behaviour

/-- Overwrite the cell at `p`. -/
def Heap.put (h : Heap T) (p : Nat) (n : node T) : Heap T :=
  { cells := Function.update h.cells p (some n), brk := h.brk }

/-- The assignment `p->prev = q`. -/
def Heap.setPrev (h : Heap T) (p q : Nat) : Except Error (Heap T) :=
  match h.cells p with
  | some n => .ok (h.put p { data := n.data, prev := q, next := n.next })
  | none => .error .undefined_behaviour

/-- The assignment `p->next = q`. -/
def Heap.setNext (h : Heap T) (p q : Nat) : Except Error (Heap T) :=
  match h.cells p with
  | some n => .ok (h.put p { data := n.data, prev := n.prev, next := q })
  | none => .error .undefined_behaviour

/-- The expression `*(p->data)`. -/
def Heap.deref (h : Heap T) (p : Nat) : Except Error T :=
  match h.cells p with
  | some n =>
    match n.data with
    | some v => .ok v
    | none => .error .undefined_behaviour
  | none => .error .undefined_behaviour

/-- The expressions `new node()` and `new node(value)`. -/
def Heap.alloc (h : Heap T) (d : Option T) : Heap T × Nat :=
  ({ cells := Function.update h.cells h.brk (some { data := d, prev := 0, next := 0 }),
     brk := h.brk + 1 }, h.brk)

/-- The statement `delete p`. -/
def Heap.free (h : Heap T) (p : Nat) : Except Error (Heap T) :=
  match h.cells p with
  | some _ => .ok { cells := Function.update h.cells p none, brk := h.brk }
  | none => .error .undefined_behaviour

/-- The members of the list object at `this`. -/
def State.getList (s : State T) (this : Nat) : Except Error list :=
  match s.lists this with
  | some L => .ok L
  | none => .error .undefined_behaviour

/-- Store the members of the list object at `this`. -/
def State.setList (s : State T) (h : Heap T) (this : Nat) (L : list) : State T :=
  { heap := h, lists := Function.update s.lists this (some L) }

/-! ## The node primitives of `list` -/

/-- The protected `node *insert(node *pos, node *cur)`: link `cur` before `pos`. -/
def list.insert_node (h : Heap T) (pos cur : Nat) : Except Error (Heap T × Nat) := do
  let npos ← h.get pos
  let h ← h.setPrev cur npos.prev
  let h ← h.setNext cur pos
  let npos ← h.get pos
  let h ← h.setNext npos.prev cur
  let h ← h.setPrev pos cur
  pure (h, cur)

/-- The protected `node *erase(node *pos)`: unlink `pos`, which stays allocated. -/
def list.erase_node (h : Heap T) (pos : Nat) : Except Error (Heap T × Nat) := do
  let npos ← h.get pos
  let h ← h.setNext npos.prev npos.next
  let npos ← h.get pos
  let h ← h.setPrev npos.next npos.prev
  pure (h, pos)

/-! ## Construction, copy, destruction -/

/-- The default constructor `list()`, building the object at address `this`. -/
def list.ctor (s : State T) (this : Nat) : Except Error (State T) := do
  let (h, head) := s.heap.alloc none
  let (h, tail) := h.alloc none
  let h ← h.setNext head tail
  let h ← h.setPrev tail head
  pure (s.setList h this { head := head, tail := tail, count := 0 })

/-- The method `push_back`. -/
def list.push_back (s : State T) (this : Nat) (value : T) : Except Error (State T) := do
  let L ← s.getList this
  let (h, newNode) := s.heap.alloc (some value)
  let (h, _) ← list.insert_node h L.tail newNode
  pure (s.setList h this { head := L.head, tail := L.tail, count := L.count + 1 })

/-- The method `push_front`. -/
def list.push_front (s : State T) (this : Nat) (value : T) : Except Error (State T) := do
  let L ← s.getList this
  let (h, newNode) := s.heap.alloc (some value)
  let hd ← h.get L.head
  let (h, _) ← list.insert_node h hd.next newNode
  pure (s.setList h this { head := L.head, tail := L.tail, count := L.count + 1 })

/-- The loop `for (p = other.head->next; p != other.tail; p = p->next) push_back(*(p->data))`. -/
def list.copy_loop : Nat → State T → Nat → Nat → Nat → Except Error (State T)
  | 0, _, _, _, _ => .error .out_of_fuel
  | fuel + 1, s, this, otail, p =>
    if p = otail then pure s
    else do
      let v ← s.heap.deref p
      let s ← list.push_back s this v
      let np ← s.heap.get p
      list.copy_loop fuel s this otail np.next

/-- The copy constructor `list(const list &other)`, building the object at `this`. -/
def list.copy_ctor (fuel : Nat) (s : State T) (this other : Nat) : Except Error (State T) := do
  let s ← list.ctor s this
  let O ← s.getList other
  let ohd ← s.heap.get O.head
  list.copy_loop fuel s this O.tail ohd.next

/-- The loop of `clear`: `while (p != tail) { next = p->next; delete p; p = next; }`. -/
def list.clear_loop : Nat → Heap T → Nat → Nat → Except Error (Heap T)
  | 0, _, _, _ => .error .out_of_fuel
  | fuel + 1, h, tail, p =>
    if p = tail then pure h
    else do
      let np ← h.get p
      let h ← h.free p
      list.clear_loop fuel h tail np.next

/-- The method `clear`. -/
def list.clear (fuel : Nat) (s : State T) (this : Nat) : Except Error (State T) := do
  let L ← s.getList this
  let hd ← s.heap.get L.head
  let h ← list.clear_loop fuel s.heap L.tail hd.next
  let h ← h.setNext L.head L.tail
  let h ← h.setPrev L.tail L.head
  pure (s.setList h this { head := L.head, tail := L.tail, count := 0 })

/-- The destructor `~list()`. -/
def list.dtor (fuel : Nat) (s : State T) (this : Nat) : Except Error (State T) := do
  let s ← list.clear fuel s this
  let L ← s.getList this
  let h ← s.heap.free L.head
  let h ← h.free L.tail
  pure { heap := h, lists := Function.update s.lists this none }

/-- The copy assignment `operator=`. -/
def list.assign (fuel : Nat) (s : State T) (this other : Nat) : Except Error (State T) := do
  let _ ← s.getList this
  if this = other then pure s
  else do
    let s ← list.clear fuel s this
    let O ← s.getList other
    let ohd ← s.heap.get O.head
    list.copy_loop fuel s this O.tail ohd.next

/-! ## Element access, iterators, size -/

/-- The method `front`. -/
def list.front (s : State T) (this : Nat) : Except Error T := do
  let L ← s.getList this
  if L.count = 0 then .error .container_is_empty
  else do
    let hd ← s.heap.get L.head
    s.heap.deref hd.next

/-- The method `back`. -/
def list.back (s : State T) (this : Nat) : Except Error T := do
  let L ← s.getList this
  if L.count = 0 then .error .container_is_empty
  else do
    let tl ← s.heap.get L.tail
    s.heap.deref tl.prev

/-- The method `begin`. -/
def list.begin (s : State T) (this : Nat) : Except Error iterator := do
  let L ← s.getList this
  let hd ← s.heap.get L.head
  pure { ptr := hd.next, lst := this }

/-- The method `end`. -/
def list.end_ (s : State T) (this : Nat) : Except Error iterator := do
  let L ← s.getList this
  pure { ptr := L.tail, lst := this }

/-- The method `empty`. -/
def list.empty (s : State T) (this : Nat) : Except Error Bool := do
  let L ← s.getList this
  pure (decide (L.count = 0))

/-- The method `size`. -/
def list.size (s : State T) (this : Nat) : Except Error Nat := do
  let L ← s.getList this
  pure L.count

/-- The prefix `operator++` of `iterator`. -/
def iterator.inc (s : State T) (it : iterator) : Except Error iterator :=
  if it.ptr = 0 then .error .invalid_iterator
  else do
    let n ← s.heap.get it.ptr
    if n.next = 0 then .error .invalid_iterator
    else pure { ptr := n.next, lst := it.lst }

/-- The prefix `operator--` of `iterator`. -/
def iterator.dec (s : State T) (it : iterator) : Except Error iterator :=
  if it.ptr = 0 then .error .invalid_iterator
  else do
    let n ← s.heap.get it.ptr
    if n.prev = 0 then .error .invalid_iterator
    else do
      let np ← s.heap.get n.prev
      match np.data with
      | none => .error .invalid_iterator
      | some _ => pure { ptr := n.prev, lst := it.lst }

/-- The `operator*` of `iterator`. -/
def iterator.star (s : State T) (it : iterator) : Except Error T :=
  if it.ptr = 0 then .error .invalid_iterator
  else do
    let n ← s.heap.get it.ptr
    match n.data with
    | some v => pure v
    | none => .error .invalid_iterator

/-- The client loop `for (it = from; it != stop; ++it)`, recording at every step
the node the iterator references and the value `*it`. -/
def iterator.collect : Nat → State T → iterator → iterator → Except Error (List (Nat × T))
  | 0, _, _, _ => .error .out_of_fuel
  | fuel + 1, s, it, stop =>
    if it = stop then pure []
    else do
      let v ← iterator.star s it
      let it1 ← iterator.inc s it
      let rest ← iterator.collect fuel s it1 stop
      pure ((it.ptr, v) :: rest)

/-- The forward traversal of the list at `this`, from `begin()` to `end()`:
the nodes visited with their values. -/
def list.cells (fuel : Nat) (s : State T) (this : Nat) : Except Error (List (Nat × T)) := do
  let b ← list.begin s this
  let e ← list.end_ s this
  iterator.collect fuel s b e

/-- The values met by the forward traversal from `begin()` to `end()`. -/
def list.to_list (fuel : Nat) (s : State T) (this : Nat) : Except Error (List T) := do
  let c ← list.cells fuel s this
  pure (c.map Prod.snd)

/-! ## Positional mutation -/

/-- The method `insert(iterator pos, const T &value)`. -/
def list.insert (s : State T) (this : Nat) (pos : iterator) (value : T) :
    Except Error (State T × iterator) := do
  let L ← s.getList this
  if pos.lst ≠ this then .error .invalid_iterator
  else do
    let (h, newNode) := s.heap.alloc (some value)
    let (h, _) ← list.insert_node h pos.ptr newNode
    pure (s.setList h this { head := L.head, tail := L.tail, count := L.count + 1 },
      { ptr := newNode, lst := this })

/-- The method `erase(iterator pos)`. -/
def list.erase (s : State T) (this : Nat) (pos : iterator) :
    Except Error (State T × iterator) := do
  let L ← s.getList this
  if L.count = 0 then .error .container_is_empty
  else if pos.lst ≠ this then .error .invalid_iterator
  else if pos.ptr = 0 then .error .invalid_iterator
  else do
    let n ← s.heap.get pos.ptr
    match n.data with
    | none => .error .invalid_iterator
    | some _ => do
      let next := n.next
      let (h, _) ← list.erase_node s.heap pos.ptr
      let h ← h.free pos.ptr
      pure (s.setList h this { head := L.head, tail := L.tail, count := L.count - 1 },
        { ptr := next, lst := this })

/-- The method `pop_back`. -/
def list.pop_back (s : State T) (this : Nat) : Except Error (State T) := do
  let L ← s.getList this
  if L.count = 0 then .error .container_is_empty
  else do
    let tl ← s.heap.get L.tail
    let last := tl.prev
    let (h, _) ← list.erase_node s.heap last
    let h ← h.free last
    pure (s.setList h this { head := L.head, tail := L.tail, count := L.count - 1 })

/-- The method `pop_front`. -/
def list.pop_front (s : State T) (this : Nat) : Except Error (State T) := do
  let L ← s.getList this
  if L.count = 0 then .error .container_is_empty
  else do
    let hd ← s.heap.get L.head
    let first := hd.next
    let (h, _) ← list.erase_node s.heap first
    let h ← h.free first
    pure (s.setList h this { head := L.head, tail := L.tail, count := L.count - 1 })

/-! ## sort -/

/-- The loop `for (p = head->next; p != tail; p = p->next) arr[idx++] = p`. -/
def list.fill_loop : Nat → Heap T → Nat → Nat → Except Error (List Nat)
  | 0, _, _, _ => .error .out_of_fuel
  | fuel + 1, h, tail, p =>
    if p = tail then pure []
    else do
      let np ← h.get p
      let rest ← list.fill_loop fuel h tail np.next
      pure (p :: rest)

/-- The predicate `cmp` of `sort`: `*(a->data) < *(b->data)`. -/
def list.cmp (lt : T → T → Bool) (h : Heap T) (a b : Nat) : Bool :=
  match h.deref a, h.deref b with
  | .ok x, .ok y => lt x y
  | _, _ => false

/-- The array access `arr[i]`. -/
def list.at (arr : List Nat) (i : Nat) : Except Error Nat :=
  match arr[i]? with
  | some a => .ok a
  | none => .error .undefined_behaviour

/-- The loop `for (i = 0; i < count - 1; i++) { arr[i]->next = arr[i+1]; arr[i+1]->prev = arr[i]; }`,
with `n` iterations left. -/
def list.relink_loop (arr : List Nat) : Nat → Nat → Heap T → Except Error (Heap T)
  | 0, _, h => pure h
  | n + 1, i, h => do
    let a ← list.at arr i
    let b ← list.at arr (i + 1)
    let h ← h.setNext a b
    let h ← h.setPrev b a
    list.relink_loop arr n (i + 1) h

/-- The method `sort`.  The primitive `sjtu::sort` of `algorithm.hpp` is the
parameter `srt`: it receives the predicate and the array and returns the array
it leaves behind. -/
def list.sort (lt : T → T → Bool) (srt : (Nat → Nat → Bool) → List Nat → List Nat)
    (fuel : Nat) (s : State T) (this : Nat) : Except Error (State T) := do
  let L ← s.getList this
  if L.count ≤ 1 then pure s
  else do
    let hd ← s.heap.get L.head
    let arr ← list.fill_loop fuel s.heap L.tail hd.next
    if arr.length ≠ L.count then .error .undefined_behaviour
    else do
      let arr := srt (list.cmp lt s.heap) arr
      let a0 ← list.at arr 0
      let h ← s.heap.setNext L.head a0
      let h ← h.setPrev a0 L.head
      let h ← list.relink_loop arr (L.count - 1) 0 h
      let al ← list.at arr (L.count - 1)
      let h ← h.setNext al L.tail
      let h ← h.setPrev L.tail al
      pure { heap := h, lists := s.lists }

/-! ## merge -/

/-- The inner loop of `merge`:
`while (p1 != tail && !(*(p2->data) < *(p1->data))) p1 = p1->next;`. -/
def list.merge_advance (lt : T → T → Bool) : Nat → Heap T → Nat → Nat → Nat → Except Error Nat
  | 0, _, _, _, _ => .error .out_of_fuel
  | fuel + 1, h, tail, p2, p1 =>
    if p1 = tail then pure p1
    else do
      let v2 ← h.deref p2
      let v1 ← h.deref p1
      if !(lt v2 v1) then do
        let n1 ← h.get p1
        list.merge_advance lt fuel h tail p2 n1.next
      else pure p1

/-- The outer loop of `merge`; `ifuel` is the fuel handed to each run of the inner loop. -/
def list.merge_loop (lt : T → T → Bool) (ifuel : Nat) :
    Nat → Heap T → Nat → Nat → Nat → Nat → Except Error (Heap T)
  | 0, _, _, _, _, _ => .error .out_of_fuel
  | fuel + 1, h, tail, otail, p1, p2 =>
    if p2 = otail then pure h
    else do
      let p1 ← list.merge_advance lt ifuel h tail p2 p1
      let n2 ← h.get p2
      let next2 := n2.next
      let (h, _) ← list.erase_node h p2
      let (h, _) ← list.insert_node h p1 p2
      list.merge_loop lt ifuel fuel h tail otail p1 next2

/-- The method `merge(list &other)`. -/
def list.merge (lt : T → T → Bool) (fuel : Nat) (s : State T) (this other : Nat) :
    Except Error (State T) := do
  let L ← s.getList this
  let O ← s.getList other
  if this = other then pure s
  else do
    let hd ← s.heap.get L.head
    let ohd ← s.heap.get O.head
    let h ← list.merge_loop lt fuel fuel s.heap L.tail O.tail hd.next ohd.next
    let s1 := s.setList h this { head := L.head, tail := L.tail, count := L.count + O.count }
    pure (s1.setList h other { head := O.head, tail := O.tail, count := 0 })

/-! ## reverse -/

/-- The loop of `reverse`:
`while (p != tail) { tmp = p->next; p->next = p->prev; p->prev = tmp; p = tmp; }`. -/
def list.reverse_loop : Nat → Heap T → Nat → Nat → Except Error (Heap T)
  | 0, _, _, _ => .error .out_of_fuel
  | fuel + 1, h, tail, p =>
    if p = tail then pure h
    else do
      let np ← h.get p
      let tmp := np.next
      let h ← h.setNext p np.prev
      let h ← h.setPrev p tmp
      list.reverse_loop fuel h tail tmp

/-- The last five statements of `reverse`, after the loop:
`tmp = head->next; head->next = tail->prev; tail->prev = tmp;`
`head->next->prev = head; tail->prev->next = tail;`. -/
def list.reverse_ends (h : Heap T) (head tail : Nat) : Except Error (Heap T) := do
  let hd ← h.get head
  let tmp := hd.next
  let tl ← h.get tail
  let h ← h.setNext head tl.prev
  let h ← h.setPrev tail tmp
  let hd ← h.get head
  let h ← h.setPrev hd.next head
  let tl ← h.get tail
  h.setNext tl.prev tail

/-- The method `reverse`. -/
def list.reverse (fuel : Nat) (s : State T) (this : Nat) : Except Error (State T) := do
  let L ← s.getList this
  if L.count ≤ 1 then pure s
  else do
    let hd ← s.heap.get L.head
    let h ← list.reverse_loop fuel s.heap L.tail hd.next
    let h ← list.reverse_ends h L.head L.tail
    pure { heap := h, lists := s.lists }

/-! ## unique -/

/-- The loop of `unique`; the last component is the running `count`. -/
def list.unique_loop (eq : T → T → Bool) :
    Nat → Heap T → Nat → Nat → Nat → Except Error (Heap T × Nat)
  | 0, _, _, _, _ => .error .out_of_fuel
  | fuel + 1, h, tail, p, count =>
    if p = tail then pure (h, count)
    else do
      let np ← h.get p
      if np.next = tail then pure (h, count)
      else do
        let v ← h.deref p
        let w ← h.deref np.next
        if eq v w then do
          let dup := np.next
          let (h, _) ← list.erase_node h dup
          let h ← h.free dup
          list.unique_loop eq fuel h tail p (count - 1)
        else list.unique_loop eq fuel h tail np.next count

/-- The method `unique`. -/
def list.unique (eq : T → T → Bool) (fuel : Nat) (s : State T) (this : Nat) :
    Except Error (State T) := do
  let L ← s.getList this
  if L.count ≤ 1 then pure s
  else do
    let hd ← s.heap.get L.head
    let (h, c) ← list.unique_loop eq fuel s.heap L.tail hd.next L.count
    pure (s.setList h this { head := L.head, tail := L.tail, count := c })

/-! ## The abstraction: a chain of cells laid out in the heap -/

/-- The address a segment starts at: its first cell, or `n` when it is empty. -/
def nextOf : List (Nat × Option T) → Nat → Nat
  | [], n => n
  | c :: _, _ => c.1

/-- The address a segment ends at: its last cell, or `p` when it is empty. -/
def lastOf : List (Nat × Option T) → Nat → Nat
  | [], p => p
  | c :: cs, _ => lastOf cs c.1

/-- The cells `cs` are laid out in `m` as a doubly linked segment entered from
`p` and left towards `n`: every cell holds its data, points back to the cell
before it (`p` for the first) and forward to the cell after it (`n` for the last). -/
def Seg (m : Nat → Option (node T)) : Nat → List (Nat × Option T) → Nat → Prop
  | _, [], _ => True
  | p, c :: cs, n => m c.1 = some { data := c.2, prev := p, next := nextOf cs n } ∧ Seg m c.1 cs n

/-- The cells of a data sequence: every element holds a value. -/
def dataCells (els : List (Nat × T)) : List (Nat × Option T) :=
  els.map fun e => (e.1, some e.2)

/-- The whole chain of a list: head sentinel, data nodes, tail sentinel. -/
def chainOf (L : list) (els : List (Nat × T)) : List (Nat × Option T) :=
  (L.head, none) :: (dataCells els ++ [(L.tail, none)])

/-- The chain addresses of a list: head, data nodes, tail. -/
def chainAddrs (L : list) (els : List (Nat × T)) : List Nat :=
  L.head :: (els.map Prod.fst ++ [L.tail])

/-- The list object `L` represents the sequence `els` of (node address, value)
pairs in the heap `h`: the chain from `head` to `tail` is exactly `els`, linked
in both directions, over pairwise distinct non-null nodes, and `count` is its
length. -/
def Repr (h : Heap T) (L : list) (els : List (Nat × T)) : Prop :=
  Seg h.cells 0 (chainOf L els) 0 ∧ (chainAddrs L els).Nodup ∧ 0 ∉ chainAddrs L els ∧
    L.count = els.length

/-- The next `new` returns a fresh non-null address. -/
def Heap.Fresh (h : Heap T) : Prop :=
  h.brk ≠ 0 ∧ h.cells h.brk = none

instance Heap.Fresh.instDecidable [DecidableEq T] (h : Heap T) : Decidable h.Fresh := by
  unfold Heap.Fresh; infer_instance

/-- The allocator is sound: no live node at or above `brk`, and none at `nullptr`. -/
def Heap.Ok (h : Heap T) : Prop :=
  0 < h.brk ∧ ∀ a, h.brk ≤ a → h.cells a = none

instance Seg.instDecidable [DecidableEq T] (m : Nat → Option (node T)) :
    ∀ (p : Nat) (cs : List (Nat × Option T)) (n : Nat), Decidable (Seg m p cs n)
  | _, [], _ => isTrue trivial
  | _, c :: cs, n =>
    match Seg.instDecidable m c.1 cs n with
    | isTrue h2 =>
      if h1 : m c.1 = some { data := c.2, prev := _, next := nextOf cs n } then isTrue ⟨h1, h2⟩
      else isFalse fun h => h1 h.1
    | isFalse h2 => isFalse fun h => h2 h.2

instance Repr.instDecidable [DecidableEq T] (h : Heap T) (L : list) (els : List (Nat × T)) :
    Decidable (Repr h L els) := by
  unfold Repr; infer_instance

/-! ## The structural invariant and the reachable memories -/

/-- Walking `next` from `head->next` until `tail`: the nodes met, in order. -/
def list.nodes (fuel : Nat) (s : State T) (this : Nat) : Except Error (List Nat) := do
  let L ← s.getList this
  let hd ← s.heap.get L.head
  list.fill_loop fuel s.heap L.tail hd.next

/-- Walking `prev` from `p` until `head`: the nodes met, in order. -/
def walkPrev : Nat → Heap T → Nat → Nat → Except Error (List Nat)
  | 0, _, _, _ => .error .out_of_fuel
  | fuel + 1, h, head, p =>
    if p = head then pure []
    else do
      let np ← h.get p
      let rest ← walkPrev fuel h head np.prev
      pure (p :: rest)

/-- Walking `prev` from `tail->prev` until `head`: the nodes met, in order. -/
def list.nodes_back (fuel : Nat) (s : State T) (this : Nat) : Except Error (List Nat) := do
  let L ← s.getList this
  let tl ← s.heap.get L.tail
  walkPrev fuel s.heap L.head tl.prev

/-- The memory-wide invariant under the model `M` (the sequence of every list):
the allocator is sound, every live list represents its sequence, and two
different lists share no node. -/
def InvM (s : State T) (M : Nat → List (Nat × T)) : Prop :=
  s.heap.Ok ∧
    (∀ a L, s.lists a = some L → Repr s.heap L (M a)) ∧
    (∀ a b La Lb, a ≠ b → s.lists a = some La → s.lists b = some Lb →
      ∀ x, x ∈ chainAddrs La (M a) → x ∈ chainAddrs Lb (M b) → False)

/-- The memory-wide invariant. -/
def Inv (s : State T) : Prop := ∃ M, InvM s M

/-- The node `p` is currently linked in the chain of the list at `this`: it is
one of its data nodes, or its tail sentinel (the position `end()`). -/
def Linked (s : State T) (this p : Nat) : Prop :=
  ∃ L X, s.lists this = some L ∧ Repr s.heap L X ∧ p ∈ X.map Prod.fst ++ [L.tail]

/-- The memories reached from the empty memory by the public operations of
`list`.  A list is constructed at an address that holds no list; `sort` runs
with a primitive that returns a permutation of the array.  With
`strict = true` every iterator passed to `insert` or `erase` references a node
currently linked in the receiving list; with `strict = false` any iterator
value is accepted. -/
inductive Reach (strict : Bool) : State T → Prop
  | init : Reach strict State.init
  | ctor (s s' : State T) (this : Nat) :
      Reach strict s → s.lists this = none → list.ctor s this = .ok s' → Reach strict s'
  | copy_ctor (fuel : Nat) (s s' : State T) (this other : Nat) :
      Reach strict s → s.lists this = none → list.copy_ctor fuel s this other = .ok s' →
      Reach strict s'
  | assign (fuel : Nat) (s s' : State T) (this other : Nat) :
      Reach strict s → list.assign fuel s this other = .ok s' → Reach strict s'
  | insert (s s' : State T) (this : Nat) (pos it : iterator) (v : T) :
      Reach strict s → (strict = true → Linked s this pos.ptr) →
      list.insert s this pos v = .ok (s', it) → Reach strict s'
  | erase (s s' : State T) (this : Nat) (pos it : iterator) :
      Reach strict s → (strict = true → Linked s this pos.ptr) →
      list.erase s this pos = .ok (s', it) → Reach strict s'
  | push_back (s s' : State T) (this : Nat) (v : T) :
      Reach strict s → list.push_back s this v = .ok s' → Reach strict s'
  | push_front (s s' : State T) (this : Nat) (v : T) :
      Reach strict s → list.push_front s this v = .ok s' → Reach strict s'
  | pop_back (s s' : State T) (this : Nat) :
      Reach strict s → list.pop_back s this = .ok s' → Reach strict s'
  | pop_front (s s' : State T) (this : Nat) :
      Reach strict s → list.pop_front s this = .ok s' → Reach strict s'
  | clear (fuel : Nat) (s s' : State T) (this : Nat) :
      Reach strict s → list.clear fuel s this = .ok s' → Reach strict s'
  | sort (lt : T → T → Bool) (srt : (Nat → Nat → Bool) → List Nat → List Nat) (fuel : Nat)
      (s s' : State T) (this : Nat) :
      Reach strict s →
      (∀ arr, (srt (list.cmp lt s.heap) arr).Perm arr) →
      list.sort lt srt fuel s this = .ok s' → Reach strict s'
  | merge (lt : T → T → Bool) (fuel : Nat) (s s' : State T) (this other : Nat) :
      Reach strict s → list.merge lt fuel s this other = .ok s' → Reach strict s'
  | reverse (fuel : Nat) (s s' : State T) (this : Nat) :
      Reach strict s → list.reverse fuel s this = .ok s' → Reach strict s'
  | unique (eq : T → T → Bool) (fuel : Nat) (s s' : State T) (this : Nat) :
      Reach strict s → list.unique eq fuel s this = .ok s' → Reach strict s'

/-- Linking every two neighbours of a sequence of nodes, front to back:
`a->next = b; b->prev = a;` for each adjacent pair `a`, `b`.  The relinking
phase of `sort` is this function on `head`, the sorted array, `tail`. -/
def linkPairs : Heap T → List Nat → Except Error (Heap T)
  | h, [] => pure h
  | h, [_] => pure h
  | h, a :: b :: rest => do
    let h ← h.setNext a b
    let h ← h.setPrev b a
    linkPairs h (b :: rest)

/-- An insertion sort under the predicate `cmp`, standing for `sjtu::sort`. -/
def exSort (cmp : Nat → Nat → Bool) (arr : List Nat) : List Nat :=
  arr.insertionSort fun a b => cmp b a = false

/-! ## The sequence functions the relinking algorithms compute -/

/-- What `merge` computes on the sequences: every element `y` of `other`, in
order, goes right before the first remaining element `x` of `this` with `y < x`. -/
def mergeSeq {α : Type} (lt : α → α → Bool) : List α → List α → List α
  | xs, [] => xs
  | xs, y :: ys =>
    xs.takeWhile (fun x => !(lt y x)) ++ y :: mergeSeq lt (xs.dropWhile fun x => !(lt y x)) ys

/-- What the loop of `unique` computes started on the kept element `a`: the
elements equal to `a` (as `a == x`) that follow it are dropped. -/
def uniqueFrom {α : Type} (eq : α → α → Bool) : α → List α → List α
  | a, [] => [a]
  | a, b :: l => if eq a b then uniqueFrom eq a l else a :: uniqueFrom eq b l

/-- What `unique` computes on the sequences. -/
def uniqueSeq {α : Type} (eq : α → α → Bool) : List α → List α
  | [] => []
  | a :: l => uniqueFrom eq a l

/-- Put `a` in front of the first run. -/
def pushRun {α : Type} (a : α) : List (List α) → List (List α)
  | [] => [[a]]
  | r :: rs => (a :: r) :: rs

/-- The maximal runs of consecutive equal elements of a sequence: two
neighbours lie in the same run exactly when they are equal. -/
def runs {α : Type} (eq : α → α → Bool) : List α → List (List α)
  | [] => []
  | [a] => [[a]]
  | a :: b :: l => if eq a b then pushRun a (runs eq (b :: l)) else [a] :: runs eq (b :: l)

/-- The reference "collapse adjacent duplicates" function of the spec: the
first element of each maximal run of consecutive equal elements, in order. -/
def collapseRuns {α : Type} (eq : α → α → Bool) (l : List α) : List α :=
  (runs eq l).filterMap List.head?

/-- The relation `==` is an equivalence. -/
def IsEquivalence {α : Type} (eq : α → α → Bool) : Prop :=
  (∀ a, eq a a = true) ∧ (∀ a b, eq a b = true → eq b a = true) ∧
    (∀ a b c, eq a b = true → eq b c = true → eq a c = true)

/-- The comparisons `operator<` induces on (node, value) pairs. -/
def ltVal (lt : T → T → Bool) (a b : Nat × T) : Bool := lt a.2 b.2

/-- The comparisons `operator==` induces on (node, value) pairs. -/
def eqVal (eq : T → T → Bool) (a b : Nat × T) : Bool := eq a.2 b.2

/-- A strict weak order: irreflexive, transitive, and with a transitive
incomparability ("equivalence") relation. -/
def StrictWeakOrder (lt : T → T → Bool) : Prop :=
  (∀ a, lt a a = false) ∧ (∀ a b c, lt a b = true → lt b c = true → lt a c = true) ∧
    (∀ a b c, lt a b = false → lt b a = false → lt b c = false → lt c b = false →
      lt a c = false ∧ lt c a = false)

/-- Ascending order: no element is less than an earlier one. -/
def Ascending (lt : T → T → Bool) (l : List T) : Prop :=
  l.Pairwise fun a b => lt b a = false

instance Ascending.instDecidable (lt : T → T → Bool) (l : List T) :
    Decidable (Ascending lt l) := by
  unfold Ascending; infer_instance

/-! ## Concrete memories used to exercise the theorems -/

/-- The memory a construction script leaves, the empty memory if it fails. -/
def State.run (r : Except Error (State T)) : State T :=
  match r with
  | .ok s => s
  | .error _ => State.init

/-- The `operator<` of the natural numbers. -/
def ltNat (a b : Nat) : Bool := decide (a < b)

/-- The `operator==` of the natural numbers. -/
def eqNat (a b : Nat) : Bool := decide (a = b)

/-- An empty list at address 1 (sentinels 1 and 2). -/
def exA : State Nat := State.run (list.ctor State.init 1)

/-- Two empty lists, at address 1 (sentinels 1, 2) and at address 2 (sentinels 3, 4). -/
def exAB : State Nat := State.run (list.ctor exA 2)

/-- After `A.push_back(7)` on the list at address 1: its only data node is node 5,
so `A.begin()` is the iterator `(5, 1)`. -/
def exB1 : State Nat := State.run (list.push_back exAB 1 7)

/-- After `B.merge(A)`: node 5 now sits in the chain of the list at address 2. -/
def exB2 : State Nat := State.run (list.merge ltNat 3 exB1 2 1)

/-- After `A.insert(it, 9)` with `it` the iterator `(5, 1)` taken from
`A.begin()` before the merge. -/
def exBroken : State Nat := State.run ((list.insert exB2 1 ⟨5, 1⟩ 9).map Prod.fst)

/-- The list `[3,1,2]` at address 1 (nodes 3, 4, 5 between the sentinels 1 and 2). -/
def exSortList : State Nat :=
  State.run (do
    let s ← list.ctor State.init 1
    let s ← list.push_back s 1 3
    let s ← list.push_back s 1 1
    list.push_back s 1 2)

/-- The list `[1,1,2]` at address 1 (nodes 3, 4, 5 between the sentinels 1 and 2). -/
def exUnique : State Nat :=
  State.run (do
    let s ← list.ctor State.init 1
    let s ← list.push_back s 1 1
    let s ← list.push_back s 1 1
    list.push_back s 1 2)

/-- The list `[1,2,1]` at address 1 (nodes 3, 4, 5 between the sentinels 1 and 2). -/
def exUnique2 : State Nat :=
  State.run (do
    let s ← list.ctor State.init 1
    let s ← list.push_back s 1 1
    let s ← list.push_back s 1 2
    list.push_back s 1 1)

/-- Two lists: `[1,3,5]` at address 1 (nodes 5, 6, 7 between the sentinels 1 and 2)
and `[2,3,4]` at address 2 (nodes 8, 9, 10 between the sentinels 3 and 4). -/
def exMerge : State Nat :=
  State.run (do
    let s ← list.ctor State.init 1
    let s ← list.ctor s 2
    let s ← list.push_back s 1 1
    let s ← list.push_back s 1 3
    let s ← list.push_back s 1 5
    let s ← list.push_back s 2 2
    let s ← list.push_back s 2 3
    list.push_back s 2 4)

/-- Two unsorted lists: `[5,1]` at address 1 (nodes 5, 6 between the sentinels 1 and 2)
and `[4,0,7]` at address 2 (nodes 7, 8, 9 between the sentinels 3 and 4). -/
def exUnsorted : State Nat :=
  State.run (do
    let s ← list.ctor State.init 1
    let s ← list.ctor s 2
    let s ← list.push_back s 1 5
    let s ← list.push_back s 1 1
    let s ← list.push_back s 2 4
    let s ← list.push_back s 2 0
    list.push_back s 2 7)

/-- An `operator==` that is neither symmetric nor transitive: `a == b` when `b`
is `a` or `a + 1`. -/
def eqNear (a b : Nat) : Bool := decide (b = a ∨ b = a + 1)

/-- The list `[1,2,3,3,5]` at address 1 (nodes 3, 4, 5, 6, 7 between the sentinels 1 and 2). -/
def exNear : State Nat :=
  State.run (do
    let s ← list.ctor State.init 1
    let s ← list.push_back s 1 1
    let s ← list.push_back s 1 2
    let s ← list.push_back s 1 3
    let s ← list.push_back s 1 3
    list.push_back s 1 5)

/-! ## The operations as runs: the memory when a call returns or throws -/

/-- A run of statements on a mutable object of type `σ`: the object as it is
when the run returns or throws, and the outcome.  A `throw` keeps what the
statements before it wrote. -/
def Run (σ α : Type) : Type := σ → σ × Except Error α

/-- The statement `return a`. -/
def Run.ret {σ α : Type} (a : α) : Run σ α := fun s => (s, .ok a)

/-- Sequencing: a throw in `m` skips `f`. -/
def Run.seq {σ α β : Type} (m : Run σ α) (f : α → Run σ β) : Run σ β := fun s =>
  match m s with
  | (s1, .ok a) => f a s1
  | (s1, .error e) => (s1, .error e)

instance Run.instMonad {σ : Type} : Monad (Run σ) where
  pure := Run.ret
  bind := Run.seq

/-- The statement `throw e`. -/
def Run.throw {σ α : Type} (e : Error) : Run σ α := fun s => (s, .error e)

/-- An expression that only reads the object. -/
def Run.read {σ α : Type} (f : σ → Except Error α) : Run σ α := fun s => (s, f s)

/-- A write to the node heap; a write through a null or dead pointer writes nothing. -/
def Run.heap (f : Heap T → Except Error (Heap T)) : Run (State T) Unit := fun s =>
  match f s.heap with
  | .ok h => ({ heap := h, lists := s.lists }, .ok ())
  | .error e => (s, .error e)

/-- The expressions `new node()` and `new node(value)`. -/
def Run.new (d : Option T) : Run (State T) Nat := fun s =>
  ({ heap := (s.heap.alloc d).1, lists := s.lists }, .ok (s.heap.alloc d).2)

/-- A write to the members of the list object at `this`. -/
def Run.members (this : Nat) (L : list) : Run (State T) Unit := fun s =>
  (s.setList s.heap this L, .ok ())

/-- The protected `node *insert(node *pos, node *cur)`, statement by statement. -/
def list.insert_node_run (pos cur : Nat) : Run (State T) Nat := do
  let npos ← Run.read fun s => s.heap.get pos
  Run.heap fun h => h.setPrev cur npos.prev
  Run.heap fun h => h.setNext cur pos
  let npos ← Run.read fun s => s.heap.get pos
  Run.heap fun h => h.setNext npos.prev cur
  Run.heap fun h => h.setPrev pos cur
  pure cur

/-- The protected `node *erase(node *pos)`, statement by statement. -/
def list.erase_node_run (pos : Nat) : Run (State T) Nat := do
  let npos ← Run.read fun s => s.heap.get pos
  Run.heap fun h => h.setNext npos.prev npos.next
  let npos ← Run.read fun s => s.heap.get pos
  Run.heap fun h => h.setPrev npos.next npos.prev
  pure pos

/-- The method `insert(iterator pos, const T &value)`, statement by statement. -/
def list.insert_run (this : Nat) (pos : iterator) (value : T) : Run (State T) iterator := do
  let L ← Run.read fun s => s.getList this
  if pos.lst ≠ this then Run.throw .invalid_iterator
  else do
    let newNode ← Run.new (some value)
    let _ ← list.insert_node_run pos.ptr newNode
    Run.members this { head := L.head, tail := L.tail, count := L.count + 1 }
    pure { ptr := newNode, lst := this }

/-- The method `erase(iterator pos)`, statement by statement. -/
def list.erase_run (this : Nat) (pos : iterator) : Run (State T) iterator := do
  let L ← Run.read fun s => s.getList this
  if L.count = 0 then Run.throw .container_is_empty
  else if pos.lst ≠ this then Run.throw .invalid_iterator
  else if pos.ptr = 0 then Run.throw .invalid_iterator
  else do
    let n ← Run.read fun s => s.heap.get pos.ptr
    match n.data with
    | none => Run.throw .invalid_iterator
    | some _ => do
      let next := n.next
      let _ ← list.erase_node_run pos.ptr
      Run.heap fun h => h.free pos.ptr
      Run.members this { head := L.head, tail := L.tail, count := L.count - 1 }
      pure { ptr := next, lst := this }

/-- The method `pop_back`, statement by statement. -/
def list.pop_back_run (this : Nat) : Run (State T) Unit := do
  let L ← Run.read fun s => s.getList this
  if L.count = 0 then Run.throw .container_is_empty
  else do
    let tl ← Run.read fun s => s.heap.get L.tail
    let last := tl.prev
    let _ ← list.erase_node_run last
    Run.heap fun h => h.free last
    Run.members this { head := L.head, tail := L.tail, count := L.count - 1 }

/-- The method `pop_front`, statement by statement. -/
def list.pop_front_run (this : Nat) : Run (State T) Unit := do
  let L ← Run.read fun s => s.getList this
  if L.count = 0 then Run.throw .container_is_empty
  else do
    let hd ← Run.read fun s => s.heap.get L.head
    let first := hd.next
    let _ ← list.erase_node_run first
    Run.heap fun h => h.free first
    Run.members this { head := L.head, tail := L.tail, count := L.count - 1 }

/-- The method `front`, statement by statement. -/
def list.front_run (this : Nat) : Run (State T) T := do
  let L ← Run.read fun s => s.getList this
  if L.count = 0 then Run.throw .container_is_empty
  else do
    let hd ← Run.read fun s => s.heap.get L.head
    Run.read fun s => s.heap.deref hd.next

/-- The method `back`, statement by statement. -/
def list.back_run (this : Nat) : Run (State T) T := do
  let L ← Run.read fun s => s.getList this
  if L.count = 0 then Run.throw .container_is_empty
  else do
    let tl ← Run.read fun s => s.heap.get L.tail
    Run.read fun s => s.heap.deref tl.prev

/-! ## The iterator operators as runs on the iterator object -/

/-- The prefix `operator++` of `iterator` run on the iterator object: the
object afterwards and the iterator returned (`*this`). -/
def iterator.pre_inc (s : State T) : Run iterator iterator := fun it =>
  if it.ptr = 0 then (it, .error .invalid_iterator)
  else
    match s.heap.get it.ptr with
    | .error e => (it, .error e)
    | .ok n =>
      if n.next = 0 then (it, .error .invalid_iterator)
      else ({ ptr := n.next, lst := it.lst }, .ok { ptr := n.next, lst := it.lst })

/-- The postfix `operator++(int)` of `iterator`: the iterator returned is the copy `tmp`. -/
def iterator.post_inc (s : State T) : Run iterator iterator := fun it =>
  if it.ptr = 0 then (it, .error .invalid_iterator)
  else
    match s.heap.get it.ptr with
    | .error e => (it, .error e)
    | .ok n =>
      if n.next = 0 then (it, .error .invalid_iterator)
      else ({ ptr := n.next, lst := it.lst }, .ok it)

/-- The prefix `operator--` of `iterator` run on the iterator object. -/
def iterator.pre_dec (s : State T) : Run iterator iterator := fun it =>
  if it.ptr = 0 then (it, .error .invalid_iterator)
  else
    match s.heap.get it.ptr with
    | .error e => (it, .error e)
    | .ok n =>
      if n.prev = 0 then (it, .error .invalid_iterator)
      else
        match s.heap.get n.prev with
        | .error e => (it, .error e)
        | .ok np =>
          match np.data with
          | none => (it, .error .invalid_iterator)
          | some _ => ({ ptr := n.prev, lst := it.lst }, .ok { ptr := n.prev, lst := it.lst })

/-- The postfix `operator--(int)` of `iterator`: the iterator returned is the copy `tmp`. -/
def iterator.post_dec (s : State T) : Run iterator iterator := fun it =>
  if it.ptr = 0 then (it, .error .invalid_iterator)
  else
    match s.heap.get it.ptr with
    | .error e => (it, .error e)
    | .ok n =>
      if n.prev = 0 then (it, .error .invalid_iterator)
      else
        match s.heap.get n.prev with
        | .error e => (it, .error e)
        | .ok np =>
          match np.data with
          | none => (it, .error .invalid_iterator)
          | some _ => ({ ptr := n.prev, lst := it.lst }, .ok it)

/-- The `operator*` of `iterator`, a `const` member, run on the iterator object. -/
def iterator.star_run (s : State T) : Run iterator T := fun it =>
  if it.ptr = 0 then (it, .error .invalid_iterator)
  else
    match s.heap.get it.ptr with
    | .error e => (it, .error e)
    | .ok n =>
      match n.data with
      | some v => (it, .ok v)
      | none => (it, .error .invalid_iterator)

/-- The class `const_iterator`: the node pointer and the owning list pointer. -/
structure const_iterator where
  ptr : Nat
  lst : Nat
  deriving DecidableEq

/-- The converting constructor `const_iterator(const iterator &other)`. -/
def const_iterator.of_iterator (other : iterator) : const_iterator :=
  { ptr := other.ptr, lst := other.lst }

/-- The method `cbegin`. -/
def list.cbegin (s : State T) (this : Nat) : Except Error const_iterator := do
  let L ← s.getList this
  let hd ← s.heap.get L.head
  pure { ptr := hd.next, lst := this }

/-- The method `cend`. -/
def list.cend (s : State T) (this : Nat) : Except Error const_iterator := do
  let L ← s.getList this
  pure { ptr := L.tail, lst := this }

/-- The prefix `operator++` of `const_iterator` run on the iterator object. -/
def const_iterator.pre_inc (s : State T) : Run const_iterator const_iterator := fun it =>
  if it.ptr = 0 then (it, .error .invalid_iterator)
  else
    match s.heap.get it.ptr with
    | .error e => (it, .error e)
    | .ok n =>
      if n.next = 0 then (it, .error .invalid_iterator)
      else ({ ptr := n.next, lst := it.lst }, .ok { ptr := n.next, lst := it.lst })

/-- The postfix `operator++(int)` of `const_iterator`. -/
def const_iterator.post_inc (s : State T) : Run const_iterator const_iterator := fun it =>
  if it.ptr = 0 then (it, .error .invalid_iterator)
  else
    match s.heap.get it.ptr with
    | .error e => (it, .error e)
    | .ok n =>
      if n.next = 0 then (it, .error .invalid_iterator)
      else ({ ptr := n.next, lst := it.lst }, .ok it)

/-- The prefix `operator--` of `const_iterator` run on the iterator object. -/
def const_iterator.pre_dec (s : State T) : Run const_iterator const_iterator := fun it =>
  if it.ptr = 0 then (it, .error .invalid_iterator)
  else
    match s.heap.get it.ptr with
    | .error e => (it, .error e)
    | .ok n =>
      if n.prev = 0 then (it, .error .invalid_iterator)
      else
        match s.heap.get n.prev with
        | .error e => (it, .error e)
        | .ok np =>
          match np.data with
          | none => (it, .error .invalid_iterator)
          | some _ => ({ ptr := n.prev, lst := it.lst }, .ok { ptr := n.prev, lst := it.lst })

/-- The postfix `operator--(int)` of `const_iterator`. -/
def const_iterator.post_dec (s : State T) : Run const_iterator const_iterator := fun it =>
  if it.ptr = 0 then (it, .error .invalid_iterator)
  else
    match s.heap.get it.ptr with
    | .error e => (it, .error e)
    | .ok n =>
      if n.prev = 0 then (it, .error .invalid_iterator)
      else
        match s.heap.get n.prev with
        | .error e => (it, .error e)
        | .ok np =>
          match np.data with
          | none => (it, .error .invalid_iterator)
          | some _ => ({ ptr := n.prev, lst := it.lst }, .ok it)

/-- The `operator*` of `const_iterator` run on the iterator object. -/
def const_iterator.star_run (s : State T) : Run const_iterator T := fun it =>
  if it.ptr = 0 then (it, .error .invalid_iterator)
  else
    match s.heap.get it.ptr with
    | .error e => (it, .error e)
    | .ok n =>
      match n.data with
      | some v => (it, .ok v)
      | none => (it, .error .invalid_iterator)

/-- After `A.push_back(7); it = A.begin(); B.merge(A); A.push_back(1)`: the list
at address 1 is `[1]` (node 6), the list at address 2 is `[7]` (node 5), and
`it` is the iterator `(5, 1)`. -/
def exStale : State Nat := State.run (list.push_back exB2 1 1)

/-- After `A.push_back(7); it = A.begin(); B.merge(A); A = B`: the list at
address 1 is the copy `[7]` (node 6) of the list at address 2, which is `[7]`
(node 5), and `it` is the iterator `(5, 1)`. -/
def exCopy : State Nat := State.run (list.assign 3 exB2 1 2)

/-! ## Operations applied to other lists -/

/-- A run of public operations none of which is applied to the list at `b`: no
operation has `b` as its receiver, `merge` does not take `b` as its argument
either (it empties its argument), and no list is constructed at `b`.  The list
at `b` may be read as the source of a copy.  As in `Reach true`, a list is
constructed at an address that holds no list, the iterators passed to `insert`
and `erase` reference nodes linked in the receiving list, and `sort` runs with
a primitive that returns a permutation of the array. -/
inductive Elsewhere (b : Nat) (s : State T) : State T → Prop
  | refl : Elsewhere b s s
  | ctor (s1 s2 : State T) (a : Nat) :
      Elsewhere b s s1 → a ≠ b → s1.lists a = none → list.ctor s1 a = .ok s2 →
      Elsewhere b s s2
  | copy_ctor (fuel : Nat) (s1 s2 : State T) (a o : Nat) :
      Elsewhere b s s1 → a ≠ b → s1.lists a = none → list.copy_ctor fuel s1 a o = .ok s2 →
      Elsewhere b s s2
  | assign (fuel : Nat) (s1 s2 : State T) (a o : Nat) :
      Elsewhere b s s1 → a ≠ b → list.assign fuel s1 a o = .ok s2 → Elsewhere b s s2
  | insert (s1 s2 : State T) (a : Nat) (pos it : iterator) (v : T) :
      Elsewhere b s s1 → a ≠ b → Linked s1 a pos.ptr → list.insert s1 a pos v = .ok (s2, it) →
      Elsewhere b s s2
  | erase (s1 s2 : State T) (a : Nat) (pos it : iterator) :
      Elsewhere b s s1 → a ≠ b → Linked s1 a pos.ptr → list.erase s1 a pos = .ok (s2, it) →
      Elsewhere b s s2
  | push_back (s1 s2 : State T) (a : Nat) (v : T) :
      Elsewhere b s s1 → a ≠ b → list.push_back s1 a v = .ok s2 → Elsewhere b s s2
  | push_front (s1 s2 : State T) (a : Nat) (v : T) :
      Elsewhere b s s1 → a ≠ b → list.push_front s1 a v = .ok s2 → Elsewhere b s s2
  | pop_back (s1 s2 : State T) (a : Nat) :
      Elsewhere b s s1 → a ≠ b → list.pop_back s1 a = .ok s2 → Elsewhere b s s2
  | pop_front (s1 s2 : State T) (a : Nat) :
      Elsewhere b s s1 → a ≠ b → list.pop_front s1 a = .ok s2 → Elsewhere b s s2
  | clear (fuel : Nat) (s1 s2 : State T) (a : Nat) :
      Elsewhere b s s1 → a ≠ b → list.clear fuel s1 a = .ok s2 → Elsewhere b s s2
  | sort (lt : T → T → Bool) (srt : (Nat → Nat → Bool) → List Nat → List Nat) (fuel : Nat)
      (s1 s2 : State T) (a : Nat) :
      Elsewhere b s s1 → a ≠ b →
      (∀ arr, (srt (list.cmp lt s1.heap) arr).Perm arr) →
      list.sort lt srt fuel s1 a = .ok s2 → Elsewhere b s s2
  | merge (lt : T → T → Bool) (fuel : Nat) (s1 s2 : State T) (a o : Nat) :
      Elsewhere b s s1 → a ≠ b → o ≠ b → list.merge lt fuel s1 a o = .ok s2 →
      Elsewhere b s s2
  | reverse (fuel : Nat) (s1 s2 : State T) (a : Nat) :
      Elsewhere b s s1 → a ≠ b → list.reverse fuel s1 a = .ok s2 → Elsewhere b s s2
  | unique (eq : T → T → Bool) (fuel : Nat) (s1 s2 : State T) (a : Nat) :
      Elsewhere b s s1 → a ≠ b → list.unique eq fuel s1 a = .ok s2 → Elsewhere b s s2

/-! ## Basic facts on the memory primitives -/

@[simp] theorem bind_ok {ε α β : Type} (a : α) (f : α → Except ε β) :
    (Except.ok a >>= f) = f a := rfl

@[simp] theorem bind_error {ε α β : Type} (e : ε) (f : α → Except ε β) :
    (Except.error e >>= f) = Except.error e := rfl

@[simp] theorem pure_eq_ok {ε α : Type} (a : α) : (pure a : Except ε α) = Except.ok a := rfl

@[simp] theorem Heap.put_cells_same (h : Heap T) (p : Nat) (n : node T) :
    (h.put p n).cells p = some n := by
  simp [Heap.put]

theorem Heap.put_cells_ne (h : Heap T) {p a : Nat} (n : node T) (hne : a ≠ p) :
    (h.put p n).cells a = h.cells a := by
  simp [Heap.put, Function.update_noteq hne]

@[simp] theorem Heap.put_brk (h : Heap T) (p : Nat) (n : node T) : (h.put p n).brk = h.brk := rfl

theorem Heap.get_of {h : Heap T} {p : Nat} {n : node T} (hc : h.cells p = some n) :
    h.get p = .ok n := by
  simp [Heap.get, hc]

theorem Heap.setPrev_of {h : Heap T} {p : Nat} {n : node T} (hc : h.cells p = some n) (q : Nat) :
    h.setPrev p q = .ok (h.put p { data := n.data, prev := q, next := n.next }) := by
  simp [Heap.setPrev, hc]

theorem Heap.setNext_of {h : Heap T} {p : Nat} {n : node T} (hc : h.cells p = some n) (q : Nat) :
    h.setNext p q = .ok (h.put p { data := n.data, prev := n.prev, next := q }) := by
  simp [Heap.setNext, hc]

theorem Heap.deref_of {h : Heap T} {p : Nat} {n : node T} {v : T} (hc : h.cells p = some n)
    (hd : n.data = some v) : h.deref p = .ok v := by
  simp [Heap.deref, hc, hd]

/-! ## Segments -/

theorem nextOf_append (xs ys : List (Nat × Option T)) (n : Nat) :
    nextOf (xs ++ ys) n = nextOf xs (nextOf ys n) := by
  cases xs <;> rfl

theorem lastOf_append (xs ys : List (Nat × Option T)) (p : Nat) :
    lastOf (xs ++ ys) p = lastOf ys (lastOf xs p) := by
  induction xs generalizing p with
  | nil => rfl
  | cons c cs ih => simpa [lastOf] using ih c.1

@[simp] theorem nextOf_nil (n : Nat) : nextOf ([] : List (Nat × Option T)) n = n := rfl

@[simp] theorem nextOf_cons (c : Nat × Option T) (cs : List (Nat × Option T)) (n : Nat) :
    nextOf (c :: cs) n = c.1 := rfl

@[simp] theorem lastOf_nil (p : Nat) : lastOf ([] : List (Nat × Option T)) p = p := rfl

@[simp] theorem lastOf_cons (c : Nat × Option T) (cs : List (Nat × Option T)) (p : Nat) :
    lastOf (c :: cs) p = lastOf cs c.1 := rfl

theorem seg_cons {m : Nat → Option (node T)} {p n : Nat} (c : Nat × Option T)
    (cs : List (Nat × Option T)) :
    Seg m p (c :: cs) n ↔
      m c.1 = some { data := c.2, prev := p, next := nextOf cs n } ∧ Seg m c.1 cs n := Iff.rfl

theorem nextOf_concat (xs : List (Nat × Option T)) (c : Nat × Option T) (n : Nat) :
    nextOf (xs ++ [c]) n = nextOf xs c.1 := by
  cases xs <;> rfl

theorem lastOf_concat (xs : List (Nat × Option T)) (c : Nat × Option T) (p : Nat) :
    lastOf (xs ++ [c]) p = c.1 := by
  rw [lastOf_append]; rfl

theorem Seg.frame {m m' : Nat → Option (node T)} {p n : Nat} {cs : List (Nat × Option T)}
    (hs : Seg m p cs n) (hf : ∀ a ∈ cs.map Prod.fst, m' a = m a) : Seg m' p cs n := by
  induction cs generalizing p with
  | nil => trivial
  | cons c cs ih =>
    obtain ⟨h1, h2⟩ := hs
    refine ⟨?_, ih h2 ?_⟩
    · rw [hf c.1 (by simp)]; exact h1
    · intro a ha; exact hf a (by simp at ha ⊢; exact Or.inr ha)

theorem seg_append {m : Nat → Option (node T)} {p n : Nat} (xs ys : List (Nat × Option T)) :
    Seg m p (xs ++ ys) n ↔ Seg m p xs (nextOf ys n) ∧ Seg m (lastOf xs p) ys n := by
  induction xs generalizing p with
  | nil => simp [Seg, lastOf]
  | cons c cs ih =>
    simp only [List.cons_append, Seg, lastOf, List.append_eq, nextOf_append, ih, and_assoc]

theorem Seg.mem_cell {m : Nat → Option (node T)} {p n : Nat} {cs : List (Nat × Option T)}
    (hs : Seg m p cs n) {c : Nat × Option T} (hc : c ∈ cs) :
    ∃ a b, m c.1 = some { data := c.2, prev := a, next := b } := by
  induction cs generalizing p with
  | nil => cases hc
  | cons d ds ih =>
    rcases List.mem_cons.1 hc with rfl | h
    · exact ⟨_, _, hs.1⟩
    · exact ih hs.2 h

theorem insert_node_spec {h : Heap T} {p0 n0 : Nat} (A B : List (Nat × Option T))
    (q pos cur : Nat) (vq vp vc : Option T) (a b : Nat)
    (hs : Seg h.cells p0 (A ++ (q, vq) :: (pos, vp) :: B) n0)
    (hnd : ((A ++ (q, vq) :: (pos, vp) :: B).map Prod.fst).Nodup)
    (hcur : h.cells cur = some { data := vc, prev := a, next := b })
    (hnot : cur ∉ (A ++ (q, vq) :: (pos, vp) :: B).map Prod.fst) :
    ∃ h', list.insert_node h pos cur = .ok (h', cur) ∧
      Seg h'.cells p0 (A ++ (q, vq) :: (cur, vc) :: (pos, vp) :: B) n0 ∧
      h'.brk = h.brk ∧ (∀ x, x ≠ q → x ≠ pos → x ≠ cur → h'.cells x = h.cells x) := by
  rw [seg_append] at hs
  obtain ⟨hA, hq, hpos, hB⟩ := hs
  change Seg h.cells p0 A q at hA
  change h.cells q = some { data := vq, prev := lastOf A p0, next := pos } at hq
  change h.cells pos = some { data := vp, prev := q, next := nextOf B n0 } at hpos
  change Seg h.cells pos B n0 at hB
  simp only [List.map_append, List.map_cons, List.mem_append, List.mem_cons, not_or] at hnot
  obtain ⟨hcA, hcq, hcp, hcB⟩ := hnot
  simp only [List.map_append, List.map_cons, List.nodup_append, List.nodup_cons,
    List.mem_cons, not_or] at hnd
  obtain ⟨hndA, ⟨⟨hqp, hqB⟩, hpB, hndB⟩, hdis⟩ := hnd
  have hqA : q ∉ A.map Prod.fst := fun hm => hdis hm (by simp)
  have hpA : pos ∉ A.map Prod.fst := fun hm => hdis hm (by simp)
  have hpq : pos ≠ q := fun e => hqp e.symm
  have hqc : q ≠ cur := fun e => hcq e.symm
  have hpc : pos ≠ cur := fun e => hcp e.symm
  refine ⟨((h.put cur { data := vc, prev := q, next := pos }).put q
      { data := vq, prev := lastOf A p0, next := cur }).put pos
      { data := vp, prev := cur, next := nextOf B n0 }, ?_, ?_, rfl, ?_⟩
  · simp [list.insert_node, Heap.get, Heap.setPrev, Heap.setNext, Heap.put, Function.update,
      hq, hpos, hcur, hpq, hqc, hpc, hcq, hcp, hqp]
  · rw [seg_append]
    refine ⟨hA.frame ?_, ?_, ?_, ?_, hB.frame ?_⟩
    · intro x hx
      have h1 : x ≠ pos := fun e => hpA (e ▸ hx)
      have h2 : x ≠ q := fun e => hqA (e ▸ hx)
      have h3 : x ≠ cur := fun e => hcA (e ▸ hx)
      simp [Heap.put_cells_ne, h1, h2, h3]
    · simp [Heap.put_cells_ne, hqp, nextOf]
    · simp [Heap.put_cells_ne, hcp, hcq, nextOf]
    · simp [Heap.put_cells_ne, nextOf]
    · intro x hx
      have h1 : x ≠ pos := fun e => hpB (e ▸ hx)
      have h2 : x ≠ q := fun e => hqB (e ▸ hx)
      have h3 : x ≠ cur := fun e => hcB (e ▸ hx)
      simp [Heap.put_cells_ne, h1, h2, h3]
  · intro x h1 h2 h3
    simp [Heap.put_cells_ne, h1, h2, h3]


theorem erase_node_spec {h : Heap T} {p0 n0 : Nat} (A B : List (Nat × Option T))
    (q pos r : Nat) (vq vp vr : Option T)
    (hs : Seg h.cells p0 (A ++ (q, vq) :: (pos, vp) :: (r, vr) :: B) n0)
    (hnd : ((A ++ (q, vq) :: (pos, vp) :: (r, vr) :: B).map Prod.fst).Nodup) :
    ∃ h', list.erase_node h pos = .ok (h', pos) ∧
      Seg h'.cells p0 (A ++ (q, vq) :: (r, vr) :: B) n0 ∧
      h'.brk = h.brk ∧ (∀ x, x ≠ q → x ≠ r → h'.cells x = h.cells x) := by
  rw [seg_append] at hs
  obtain ⟨hA, hq, hpos, hr, hB⟩ := hs
  change Seg h.cells p0 A q at hA
  change h.cells q = some { data := vq, prev := lastOf A p0, next := pos } at hq
  change h.cells pos = some { data := vp, prev := q, next := r } at hpos
  change h.cells r = some { data := vr, prev := pos, next := nextOf B n0 } at hr
  change Seg h.cells r B n0 at hB
  simp only [List.map_append, List.map_cons, List.nodup_append, List.nodup_cons,
    List.mem_cons, not_or] at hnd
  obtain ⟨hndA, ⟨⟨hqp, hqr, hqB⟩, ⟨hpr, hpB⟩, hrB, hndB⟩, hdis⟩ := hnd
  have hqA : q ∉ A.map Prod.fst := fun hm => hdis hm (by simp)
  have hrA : r ∉ A.map Prod.fst := fun hm => hdis hm (by simp)
  have hrq : r ≠ q := fun e => hqr e.symm
  refine ⟨(h.put q { data := vq, prev := lastOf A p0, next := r }).put r
      { data := vr, prev := q, next := nextOf B n0 }, ?_, ?_, rfl, ?_⟩
  · have hpq : pos ≠ q := fun e => hqp e.symm
    simp [list.erase_node, Heap.get, Heap.setPrev, Heap.setNext, Heap.put, Function.update,
      hq, hpos, hr, hpq, hrq, hqp, hqr]
  · rw [seg_append]
    refine ⟨hA.frame ?_, ?_, ?_, hB.frame ?_⟩
    · intro x hx
      have h1 : x ≠ r := fun e => hrA (e ▸ hx)
      have h2 : x ≠ q := fun e => hqA (e ▸ hx)
      simp [Heap.put_cells_ne, h1, h2]
    · simp [Heap.put_cells_ne, hqr, nextOf]
    · simp [Heap.put_cells_ne, nextOf]
    · intro x hx
      have h1 : x ≠ r := fun e => hrB (e ▸ hx)
      have h2 : x ≠ q := fun e => hqB (e ▸ hx)
      simp [Heap.put_cells_ne, h1, h2]
  · intro x h1 h2
    simp [Heap.put_cells_ne, h1, h2]

theorem exists_concat {α : Type} (A : List α) (hA : A ≠ []) : ∃ A0 a, A = A0 ++ [a] := by
  rcases List.eq_nil_or_concat A with h | ⟨A0, a, h⟩
  · exact absurd h hA
  · exact ⟨A0, a, by simpa using h⟩

/-- Linking `cur` before the first cell of `C`, inside the chain `A ++ C`. -/
theorem insert_node_gen {h : Heap T} {p0 n0 : Nat} (A C : List (Nat × Option T))
    (hA : A ≠ []) (hC : C ≠ []) (cur : Nat) (vc : Option T) (a b : Nat)
    (hs : Seg h.cells p0 (A ++ C) n0)
    (hnd : ((A ++ C).map Prod.fst).Nodup)
    (hcur : h.cells cur = some { data := vc, prev := a, next := b })
    (hnot : cur ∉ (A ++ C).map Prod.fst) :
    ∃ h', list.insert_node h (nextOf C n0) cur = .ok (h', cur) ∧
      Seg h'.cells p0 (A ++ (cur, vc) :: C) n0 ∧
      h'.brk = h.brk ∧
      (∀ x, x ∉ (A ++ C).map Prod.fst → x ≠ cur → h'.cells x = h.cells x) := by
  obtain ⟨A0, ⟨q, vq⟩, rfl⟩ := exists_concat A hA
  obtain ⟨⟨pos, vp⟩, B, rfl⟩ := List.exists_cons_of_ne_nil hC
  simp only [List.append_assoc, List.singleton_append] at hs hnd hnot ⊢
  obtain ⟨h', h1, h2, h3, h4⟩ := insert_node_spec A0 B q pos cur vq vp vc a b hs hnd hcur hnot
  refine ⟨h', h1, h2, h3, ?_⟩
  intro x hx hxc
  simp only [List.map_append, List.map_cons, List.mem_append, List.mem_cons, not_or] at hx
  exact h4 x hx.2.1 hx.2.2.1 hxc

/-- Unlinking the cell `(pos, vp)` from the chain `A ++ (pos, vp) :: C`. -/
theorem erase_node_gen {h : Heap T} {p0 n0 : Nat} (A C : List (Nat × Option T))
    (hA : A ≠ []) (hC : C ≠ []) (pos : Nat) (vp : Option T)
    (hs : Seg h.cells p0 (A ++ (pos, vp) :: C) n0)
    (hnd : ((A ++ (pos, vp) :: C).map Prod.fst).Nodup) :
    ∃ h', list.erase_node h pos = .ok (h', pos) ∧
      Seg h'.cells p0 (A ++ C) n0 ∧
      h'.brk = h.brk ∧ h'.cells pos = h.cells pos ∧
      (∀ x, x ∉ (A ++ C).map Prod.fst → h'.cells x = h.cells x) := by
  obtain ⟨A0, ⟨q, vq⟩, rfl⟩ := exists_concat A hA
  obtain ⟨⟨r, vr⟩, B, rfl⟩ := List.exists_cons_of_ne_nil hC
  simp only [List.append_assoc, List.singleton_append] at hs hnd ⊢
  obtain ⟨h', h1, h2, h3, h4⟩ := erase_node_spec A0 B q pos r vq vp vr hs hnd
  have hpn : pos ∉ (A0 ++ (q, vq) :: (r, vr) :: B).map Prod.fst := by
    simp only [List.map_append, List.map_cons, List.nodup_append, List.nodup_cons,
      List.mem_cons, not_or] at hnd
    obtain ⟨-, ⟨⟨hqp, -, -⟩, ⟨hpr, hpB⟩, -, -⟩, hdis⟩ := hnd
    simp only [List.map_append, List.map_cons, List.mem_append, List.mem_cons, not_or]
    exact ⟨fun hm => hdis hm (by simp), fun e => hqp e.symm, hpr, hpB⟩
  have hfr : ∀ x, x ∉ (A0 ++ (q, vq) :: (r, vr) :: B).map Prod.fst → h'.cells x = h.cells x := by
    intro x hx
    simp only [List.map_append, List.map_cons, List.mem_append, List.mem_cons, not_or] at hx
    exact h4 x hx.2.1 hx.2.2.1
  exact ⟨h', h1, h2, h3, hfr pos hpn, hfr⟩

theorem dataCells_append (xs ys : List (Nat × T)) :
    dataCells (xs ++ ys) = dataCells xs ++ dataCells ys := by
  simp [dataCells]

@[simp] theorem dataCells_nil : dataCells ([] : List (Nat × T)) = [] := rfl

@[simp] theorem dataCells_cons (x : Nat × T) (xs : List (Nat × T)) :
    dataCells (x :: xs) = (x.1, some x.2) :: dataCells xs := rfl

@[simp] theorem dataCells_fst (xs : List (Nat × T)) :
    (dataCells xs).map Prod.fst = xs.map Prod.fst := by
  induction xs with
  | nil => rfl
  | cons x xs ih => simp [ih]

theorem merge_advance_spec (lt : T → T → Bool) {h : Heap T} (R : List (Nat × T))
    {p n tl p2 : Nat} {v2 : T} {a b : Nat}
    (hs : Seg h.cells p (dataCells R ++ [(tl, none)]) n)
    (hnd : tl ∉ R.map Prod.fst)
    (hp2 : h.cells p2 = some { data := some v2, prev := a, next := b })
    (fuel : Nat) (hf : R.length < fuel) :
    list.merge_advance lt fuel h tl p2 (nextOf (dataCells R) tl) =
      .ok (nextOf (dataCells (R.dropWhile fun x => !(lt v2 x.2))) tl) := by
  induction R generalizing p fuel with
  | nil =>
    obtain ⟨f, rfl⟩ : ∃ f, fuel = f + 1 := ⟨fuel - 1, by simp at hf; omega⟩
    simp [list.merge_advance, nextOf]
  | cons x R ih =>
    obtain ⟨f, rfl⟩ : ∃ f, fuel = f + 1 := ⟨fuel - 1, by omega⟩
    rw [dataCells_cons, List.cons_append, seg_cons, nextOf_concat] at hs
    obtain ⟨hx, hR⟩ := hs
    have hne : x.1 ≠ tl := fun e => hnd (by simp [e])
    have hnd' : tl ∉ R.map Prod.fst := fun hm => hnd (by simp [hm])
    have hrec := ih hR hnd' f (by simp at hf; omega)
    by_cases hlt : lt v2 x.2 = true
    · simp [list.merge_advance, nextOf, hne, Heap.deref_of hp2, Heap.deref_of hx,
        List.dropWhile_cons, hlt]
    · simp only [Bool.not_eq_true] at hlt
      simp [list.merge_advance, nextOf, hne, Heap.deref_of hp2, Heap.deref_of hx,
        List.dropWhile_cons, hlt, Heap.get_of hx]
      exact hrec

theorem mergeSeq_perm {α : Type} (lt : α → α → Bool) (R Y : List α) :
    (mergeSeq lt R Y).Perm (R ++ Y) := by
  induction Y generalizing R with
  | nil => simp [mergeSeq]
  | cons y Y ih =>
    have h1 := ih (R.dropWhile fun x => !(lt y x))
    have h2 : (R.takeWhile (fun x => !(lt y x)) ++ y :: (R.dropWhile (fun x => !(lt y x)) ++ Y)).Perm
        (R ++ y :: Y) := by
      conv_rhs => rw [← List.takeWhile_append_dropWhile (fun x => !(lt y x)) R]
      classical
      rw [List.perm_iff_count]
      intro a
      simp only [List.count_append, List.count_cons]
      omega
    exact ((List.Perm.cons y h1).append_left _).trans h2

theorem merge_loop_spec (lt : T → T → Bool) (Y : List (Nat × T)) :
    ∀ (h : Heap T) (D R : List (Nat × T)) (hd tl ohd otl fuel ifuel : Nat),
      Seg h.cells 0 ((hd, none) :: (dataCells (D ++ R) ++ [(tl, none)])) 0 →
      Seg h.cells 0 ((ohd, none) :: (dataCells Y ++ [(otl, none)])) 0 →
      ((hd :: ((D ++ R).map Prod.fst ++ [tl])) ++ (ohd :: (Y.map Prod.fst ++ [otl]))).Nodup →
      Y.length < fuel → R.length < ifuel →
      ∃ h', list.merge_loop lt ifuel fuel h tl otl (nextOf (dataCells R) tl)
            (nextOf (dataCells Y) otl) = .ok h' ∧
        Seg h'.cells 0
          ((hd, none) :: (dataCells (D ++ mergeSeq (ltVal lt) R Y) ++ [(tl, none)])) 0 ∧
        Seg h'.cells 0 [(ohd, none), (otl, none)] 0 ∧
        h'.brk = h.brk ∧
        (∀ x, x ∉ (hd :: ((D ++ R).map Prod.fst ++ [tl])) ++ (ohd :: (Y.map Prod.fst ++ [otl])) →
          h'.cells x = h.cells x) := by
  induction Y with
  | nil =>
    intro h D R hd tl ohd otl fuel ifuel h1 h2 hnd hf hif
    obtain ⟨f, rfl⟩ : ∃ f, fuel = f + 1 := ⟨fuel - 1, by simp at hf; omega⟩
    refine ⟨h, ?_, ?_, ?_, rfl, fun _ _ => rfl⟩
    · simp [list.merge_loop, nextOf]
    · simpa [mergeSeq] using h1
    · simpa using h2
  | cons y Y ih =>
    intro h D R hd tl ohd otl fuel ifuel h1 h2 hnd hf hif
    obtain ⟨f, rfl⟩ : ∃ f, fuel = f + 1 := ⟨fuel - 1, by omega⟩
    -- the node of `other` to move
    have h2' := h2
    rw [dataCells_cons, List.cons_append, seg_cons, seg_cons, nextOf_concat] at h2'
    obtain ⟨-, hy, -⟩ := h2'
    obtain ⟨hN1, hN2, hdisj⟩ := List.nodup_append.1 hnd
    have hyne : y.1 ≠ otl := by
      intro e; simp [List.nodup_append, e] at hN2
    have htl : tl ∉ R.map Prod.fst := by
      intro hm; simp [List.nodup_append, -List.mem_map, hm] at hN1
    -- the inner loop
    have hR : R.takeWhile (fun x => !(lt y.2 x.2)) ++ R.dropWhile (fun x => !(lt y.2 x.2)) = R :=
      List.takeWhile_append_dropWhile _ R
    have hms : mergeSeq (ltVal lt) R (y :: Y) =
        R.takeWhile (fun x => !(lt y.2 x.2)) ++
          y :: mergeSeq (ltVal lt) (R.dropWhile fun x => !(lt y.2 x.2)) Y := rfl
    have h1a : Seg h.cells 0 (((hd, none) :: dataCells D) ++ (dataCells R ++ [(tl, none)])) 0 := by
      simpa [dataCells_append] using h1
    have hadv := merge_advance_spec lt R ((seg_append _ _).1 h1a).2 htl hy ifuel hif
    generalize R.takeWhile (fun x => !(lt y.2 x.2)) = R1 at hR hms
    generalize R.dropWhile (fun x => !(lt y.2 x.2)) = R2 at hR hadv hms
    subst hR
    -- unlink the node from `other`
    obtain ⟨g1, e1, s1, b1, c1, f1⟩ := erase_node_gen [(ohd, none)] (dataCells Y ++ [(otl, none)])
      (by simp) (by simp) y.1 (some y.2) (by simpa using h2) (by simpa using hN2)
    have hy' : h.cells y.1 = some ⟨some y.2, ohd, nextOf (dataCells Y) otl⟩ := hy
    have hmem1 : ∀ a ∈ hd :: ((D ++ (R1 ++ R2)).map Prod.fst ++ [tl]),
        a ∉ ohd :: ((y :: Y).map Prod.fst ++ [otl]) := fun a ha hb => hdisj ha hb
    have hfr1 : ∀ a ∈ hd :: ((D ++ (R1 ++ R2)).map Prod.fst ++ [tl]), g1.cells a = h.cells a := by
      intro a ha
      apply f1
      intro hb
      exact hmem1 a ha (by clear * - hb; simp at hb ⊢; tauto)
    -- link it into `this`
    have hs1 : Seg g1.cells 0
        (((hd, none) :: dataCells (D ++ R1)) ++ (dataCells R2 ++ [(tl, none)])) 0 := by
      have hfrm : Seg g1.cells 0 ((hd, none) :: (dataCells (D ++ (R1 ++ R2)) ++ [(tl, none)])) 0 :=
        h1.frame (by simpa using hfr1)
      simpa [dataCells_append] using hfrm
    have hynot : y.1 ∉ hd :: ((D ++ (R1 ++ R2)).map Prod.fst ++ [tl]) :=
      fun ha => hmem1 _ ha (by simp)
    obtain ⟨g2, e2, s2, b2, f2⟩ := insert_node_gen ((hd, none) :: dataCells (D ++ R1))
      (dataCells R2 ++ [(tl, none)]) (by simp) (by simp) y.1 (some y.2) ohd
      (nextOf (dataCells Y) otl) hs1 (by simpa using hN1) (c1.trans hy')
      (by simpa using hynot)
    have hs2 : Seg g2.cells 0 ((ohd, none) :: (dataCells Y ++ [(otl, none)])) 0 := by
      refine Seg.frame (by simpa using s1) ?_
      intro a ha
      apply f2
      · intro hb
        exact hmem1 a (by simpa using hb) (by clear * - ha; simp at ha ⊢; tauto)
      · rintro rfl
        clear * - hN2 ha
        simp [List.nodup_append] at hN2 ha
        tauto
    have hnd' : ((hd :: ((D ++ R1 ++ [y] ++ R2).map Prod.fst ++ [tl])) ++
        (ohd :: (Y.map Prod.fst ++ [otl]))).Nodup := by
      refine (List.Perm.nodup_iff ?_).2 hnd
      rw [List.perm_iff_count]
      intro a
      simp only [List.map_append, List.map_cons, List.map_nil, List.count_append,
        List.count_cons, List.count_nil]
      omega
    obtain ⟨g3, e3, s3, t3, b3, f3⟩ := ih g2 (D ++ R1 ++ [y]) R2 hd tl ohd otl f ifuel
      (by simpa [dataCells_append] using s2) hs2 hnd' (by simp at hf; omega)
      (by simp at hif; omega)
    refine ⟨g3, ?_, ?_, t3, by rw [b3, b2, b1], ?_⟩
    · have hp2 : nextOf (dataCells (y :: Y)) otl = y.1 := rfl
      rw [hp2, list.merge_loop]
      simp only [hyne, if_false, hadv, bind_ok, Heap.get_of hy', e1]
      rw [nextOf_concat] at e2
      simp only [e2, bind_ok]
      exact e3
    · rw [hms]
      simpa [List.append_assoc] using s3
    · intro x hx
      rw [f3 x, f2 x, f1 x]
      · intro hb; apply hx; clear * - hb; simp at hb ⊢; tauto
      · intro hb; apply hx; clear * - hb; simp at hb ⊢; tauto
      · rintro rfl; apply hx; simp
      · intro hb; apply hx; clear * - hb; simp at hb ⊢; tauto

/-! ## Reading a represented list -/

theorem chainOf_fst (L : list) (els : List (Nat × T)) :
    (chainOf L els).map Prod.fst = chainAddrs L els := by
  simp [chainOf, chainAddrs]

theorem Repr.head_cell {h : Heap T} {L : list} {els : List (Nat × T)} (hR : Repr h L els) :
    h.cells L.head = some ⟨none, 0, nextOf (dataCells els) L.tail⟩ := by
  have := hR.1
  rw [chainOf, seg_cons, nextOf_concat] at this
  exact this.1

theorem Repr.tail_cell {h : Heap T} {L : list} {els : List (Nat × T)} (hR : Repr h L els) :
    h.cells L.tail = some ⟨none, lastOf (dataCells els) L.head, 0⟩ := by
  have := hR.1
  rw [chainOf, ← List.cons_append, seg_append, seg_cons] at this
  exact this.2.1

theorem Repr.data_seg {h : Heap T} {L : list} {els : List (Nat × T)} (hR : Repr h L els) :
    Seg h.cells L.head (dataCells els ++ [(L.tail, none)]) 0 := by
  have := hR.1
  rw [chainOf, seg_cons] at this
  exact this.2

theorem Repr.tail_not_mem {h : Heap T} {L : list} {els : List (Nat × T)} (hR : Repr h L els) :
    L.tail ∉ els.map Prod.fst := by
  have := hR.2.1
  intro hm
  simp [chainAddrs, List.nodup_append, -List.mem_map, hm] at this

theorem Repr.zero_not_mem {h : Heap T} {L : list} {els : List (Nat × T)} (hR : Repr h L els) :
    0 ∉ els.map Prod.fst := by
  have := hR.2.2.1
  intro hm
  simp [chainAddrs, -List.mem_map, hm] at this

theorem Repr.tail_ne_zero {h : Heap T} {L : list} {els : List (Nat × T)} (hR : Repr h L els) :
    L.tail ≠ 0 := by
  have := hR.2.2.1
  intro hm
  simp [chainAddrs, hm] at this

theorem collect_spec {s : State T} (R : List (Nat × T)) {p n tl this : Nat}
    (hs : Seg s.heap.cells p (dataCells R ++ [(tl, none)]) n)
    (htl : tl ∉ R.map Prod.fst) (hz : 0 ∉ R.map Prod.fst) (htz : tl ≠ 0)
    (fuel : Nat) (hf : R.length < fuel) :
    iterator.collect fuel s ⟨nextOf (dataCells R) tl, this⟩ ⟨tl, this⟩ = .ok R := by
  induction R generalizing p fuel with
  | nil =>
    obtain ⟨f, rfl⟩ : ∃ f, fuel = f + 1 := ⟨fuel - 1, by simp at hf; omega⟩
    simp [iterator.collect]
  | cons x R ih =>
    obtain ⟨f, rfl⟩ : ∃ f, fuel = f + 1 := ⟨fuel - 1, by omega⟩
    rw [dataCells_cons, List.cons_append, seg_cons, nextOf_concat] at hs
    obtain ⟨hx, hR⟩ := hs
    have hne : x.1 ≠ tl := fun e => htl (by simp [e])
    have hnz : x.1 ≠ 0 := fun e => hz (by simp [← e])
    have htl' : tl ∉ R.map Prod.fst := fun hm => htl (by simp [hm])
    have hz' : 0 ∉ R.map Prod.fst := fun hm => hz (by simp [hm])
    have hnn : nextOf (dataCells R) tl ≠ 0 := by
      cases R with
      | nil => exact htz
      | cons r R => intro e; exact hz (by simp at e; simp [← e])
    have hrec := ih hR htl' hz' f (by simp at hf; omega)
    simp [iterator.collect, hne, hnz, iterator.star, iterator.inc, Heap.get_of hx, hnn,
      hrec]

theorem Repr.cells {s : State T} {this : Nat} {L : list} {els : List (Nat × T)}
    (hL : s.lists this = some L) (hR : Repr s.heap L els) (fuel : Nat) (hf : els.length < fuel) :
    list.cells fuel s this = .ok els := by
  simp [list.cells, list.begin, list.end_, State.getList, hL, Heap.get_of hR.head_cell,
    collect_spec els hR.data_seg hR.tail_not_mem hR.zero_not_mem hR.tail_ne_zero fuel hf]

theorem Repr.to_list {s : State T} {this : Nat} {L : list} {els : List (Nat × T)}
    (hL : s.lists this = some L) (hR : Repr s.heap L els) (fuel : Nat) (hf : els.length < fuel) :
    list.to_list fuel s this = .ok (els.map Prod.snd) := by
  simp [list.to_list, hR.cells hL fuel hf]

theorem Repr.size {s : State T} {this : Nat} {L : list} {els : List (Nat × T)}
    (hL : s.lists this = some L) (hR : Repr s.heap L els) :
    list.size s this = .ok els.length := by
  simp [list.size, State.getList, hL, hR.2.2.2]

theorem Repr.empty_of_seg {h : Heap T} {hd tl : Nat}
    (hs : Seg h.cells 0 [(hd, none), (tl, none)] 0) (hne : hd ≠ tl) (hz1 : hd ≠ 0) (hz2 : tl ≠ 0) :
    Repr h ⟨hd, tl, 0⟩ [] := by
  refine ⟨by simpa [chainOf] using hs, by simp [chainAddrs, hne], ?_, rfl⟩
  simp [chainAddrs, Ne.symm hz1, Ne.symm hz2]

/-- The effect of `merge` on two disjoint represented lists. -/
theorem merge_state_spec (lt : T → T → Bool) {s : State T} {this other : Nat} {L O : list}
    {X Y : List (Nat × T)} (hne : this ≠ other)
    (hL : s.lists this = some L) (hO : s.lists other = some O)
    (hX : Repr s.heap L X) (hY : Repr s.heap O Y)
    (hnd : (chainAddrs L X ++ chainAddrs O Y).Nodup)
    (fuel : Nat) (hf : X.length + Y.length < fuel) :
    ∃ s', list.merge lt fuel s this other = .ok s' ∧
      s'.lists = Function.update (Function.update s.lists this
        (some ⟨L.head, L.tail, L.count + O.count⟩)) other (some ⟨O.head, O.tail, 0⟩) ∧
      Repr s'.heap ⟨L.head, L.tail, L.count + O.count⟩ (mergeSeq (ltVal lt) X Y) ∧
      Repr s'.heap ⟨O.head, O.tail, 0⟩ [] ∧
      (chainAddrs ⟨L.head, L.tail, L.count + O.count⟩ (mergeSeq (ltVal lt) X Y) ++
        [O.head, O.tail]).Perm (chainAddrs L X ++ chainAddrs O Y) ∧
      s'.heap.brk = s.heap.brk ∧
      (∀ x, x ∉ chainAddrs L X ++ chainAddrs O Y → s'.heap.cells x = s.heap.cells x) := by
  obtain ⟨h', e, s1, s2, b, f⟩ := merge_loop_spec lt Y s.heap [] X L.head L.tail O.head O.tail
    fuel fuel (by simpa [chainOf] using hX.1) (by simpa [chainOf] using hY.1)
    (by simpa [chainAddrs] using hnd) (by omega) (by omega)
  have hpa : (chainAddrs ⟨L.head, L.tail, L.count + O.count⟩ (mergeSeq (ltVal lt) X Y) ++
      [O.head, O.tail]).Perm (chainAddrs L X ++ chainAddrs O Y) := by
    rw [List.perm_iff_count]
    intro a
    have h1 := ((mergeSeq_perm (ltVal lt) X Y).map Prod.fst).count_eq a
    simp only [chainAddrs, List.map_append, List.count_append, List.count_cons,
      List.count_nil] at h1 ⊢
    omega
  have hnd' := (List.Perm.nodup_iff hpa).2 hnd
  have hz : (0 : Nat) ∉ chainAddrs L X ++ chainAddrs O Y := by
    intro hm
    rcases List.mem_append.1 hm with h0 | h0
    · exact hX.2.2.1 h0
    · exact hY.2.2.1 h0
  have hz' : (0 : Nat) ∉ chainAddrs ⟨L.head, L.tail, L.count + O.count⟩
      (mergeSeq (ltVal lt) X Y) ++ [O.head, O.tail] := fun hm => hz (hpa.mem_iff.1 hm)
  refine ⟨(s.setList h' this ⟨L.head, L.tail, L.count + O.count⟩).setList h' other
    ⟨O.head, O.tail, 0⟩, ?_, rfl, ?_, ?_, hpa, b, f⟩
  · simp only [list.merge, State.getList, hL, hO, bind_ok, hne, if_false,
      Heap.get_of hX.head_cell, Heap.get_of hY.head_cell, e, pure_eq_ok]
  · refine ⟨by simpa [chainOf] using s1, hnd'.of_append_left, fun hm => hz' (by simp [hm]), ?_⟩
    have hl := (mergeSeq_perm (ltVal lt) X Y).length_eq
    simp only [List.length_append] at hl
    show L.count + O.count = _
    rw [hl, hX.2.2.2, hY.2.2.2]
  · have hn2 := hnd'.of_append_right
    apply Repr.empty_of_seg s2
    · intro e; simp [e] at hn2
    · intro e; exact hz' (by simp [e])
    · intro e; exact hz' (by simp [e])

/-! ## The sequence computed by `merge` -/

theorem StrictWeakOrder.asymm {lt : T → T → Bool} (h : StrictWeakOrder lt) {a b : T}
    (hab : lt a b = true) : lt b a = false := by
  cases hba : lt b a with
  | false => rfl
  | true => have := h.2.1 a b a hab hba; rw [h.1 a] at this; cases this

theorem StrictWeakOrder.negtrans {lt : T → T → Bool} (h : StrictWeakOrder lt) {a b c : T}
    (hab : lt a b = false) (hbc : lt b c = false) : lt a c = false := by
  cases hac : lt a c with
  | false => rfl
  | true =>
    have hba : lt b a = false := by
      cases hba : lt b a with
      | false => rfl
      | true => rw [h.2.1 b a c hba hac] at hbc; cases hbc
    have hcb : lt c b = false := by
      cases hcb : lt c b with
      | false => rfl
      | true => rw [h.2.1 a c b hac hcb] at hab; cases hab
    have := (h.2.2 a b c hab hba hbc hcb).1
    rw [hac] at this; cases this

theorem StrictWeakOrder.ltVal {lt : T → T → Bool} (h : StrictWeakOrder lt) :
    StrictWeakOrder (ltVal lt) :=
  ⟨fun a => h.1 a.2, fun a b c => h.2.1 a.2 b.2 c.2, fun a b c => h.2.2 a.2 b.2 c.2⟩

theorem mem_mergeSeq {α : Type} (lt : α → α → Bool) (X Y : List α) (a : α) :
    a ∈ mergeSeq lt X Y ↔ a ∈ X ∨ a ∈ Y := by
  rw [(mergeSeq_perm lt X Y).mem_iff, List.mem_append]

theorem lt_of_mem_dropWhile {lt : T → T → Bool} (h : StrictWeakOrder lt) (y : T) (X : List T)
    (hX : Ascending lt X) : ∀ b ∈ X.dropWhile (fun x => !(lt y x)), lt y b = true := by
  induction X with
  | nil => intro b hb; simp at hb
  | cons x X ih =>
    intro b hb
    rw [Ascending, List.pairwise_cons] at hX
    rw [List.dropWhile_cons] at hb
    by_cases hyx : lt y x = true
    · simp only [hyx, Bool.not_true, Bool.false_eq_true, if_false] at hb
      rcases List.mem_cons.1 hb with rfl | hb
      · exact hyx
      · have hbx := hX.1 b hb
        cases hyb : lt y b with
        | true => rfl
        | false => rw [h.negtrans hyb hbx] at hyx; cases hyx
    · simp only [Bool.not_eq_true] at hyx
      simp only [hyx, Bool.not_false, if_true] at hb
      exact ih hX.2 b hb

theorem mergeSeq_ascending {lt : T → T → Bool} (h : StrictWeakOrder lt) (X Y : List T)
    (hX : Ascending lt X) (hY : Ascending lt Y) : Ascending lt (mergeSeq lt X Y) := by
  induction Y generalizing X with
  | nil => simpa [mergeSeq] using hX
  | cons y Y ih =>
    have hX2 : Ascending lt (X.dropWhile fun x => !(lt y x)) :=
      List.Pairwise.sublist (List.dropWhile_sublist _) hX
    have hX1 : Ascending lt (X.takeWhile fun x => !(lt y x)) :=
      List.Pairwise.sublist (List.takeWhile_sublist _) hX
    have hsplit := hX
    rw [← List.takeWhile_append_dropWhile (fun x => !(lt y x)) X, Ascending,
      List.pairwise_append] at hsplit
    rw [Ascending, List.pairwise_cons] at hY
    have hM := ih _ hX2 hY.2
    rw [mergeSeq, Ascending, List.pairwise_append, List.pairwise_cons]
    refine ⟨hX1, ⟨?_, hM⟩, ?_⟩
    · intro b hb
      rcases (mem_mergeSeq lt _ _ b).1 hb with hb | hb
      · exact h.asymm (lt_of_mem_dropWhile h y X hX b hb)
      · exact hY.1 b hb
    · intro a ha b hb
      have hya : lt y a = false := by
        have := List.mem_takeWhile_imp ha
        simpa using this
      rcases List.mem_cons.1 hb with rfl | hb
      · exact hya
      · rcases (mem_mergeSeq lt _ _ b).1 hb with hb | hb
        · exact hsplit.2.2 a ha b hb
        · exact h.negtrans (hY.1 b hb) hya

theorem sublist_mergeSeq_left {α : Type} (lt : α → α → Bool) (X Y : List α) :
    List.Sublist X (mergeSeq lt X Y) := by
  induction Y generalizing X with
  | nil => simp [mergeSeq]
  | cons y Y ih =>
    rw [mergeSeq]
    conv_lhs => rw [← List.takeWhile_append_dropWhile (fun x => !(lt y x)) X]
    exact List.Sublist.append_left (List.Sublist.cons y (ih _)) _

theorem sublist_mergeSeq_right {α : Type} (lt : α → α → Bool) (X Y : List α) :
    List.Sublist Y (mergeSeq lt X Y) := by
  induction Y generalizing X with
  | nil => simp
  | cons y Y ih =>
    rw [mergeSeq]
    exact List.Sublist.trans (List.Sublist.cons₂ y (ih _)) (List.sublist_append_right _ _)

theorem mergeSeq_precedes {lt : T → T → Bool} (h : StrictWeakOrder lt) (X Y : List T)
    (hX : Ascending lt X) :
    ∀ x ∈ X, ∀ y ∈ Y, lt y x = false →
      ∃ Z1 Z2 Z3, mergeSeq lt X Y = Z1 ++ x :: Z2 ++ y :: Z3 := by
  induction Y generalizing X with
  | nil => intro x _ y hy; simp at hy
  | cons y0 Y ih =>
    intro x hx y hy hyx
    have hX2 : Ascending lt (X.dropWhile fun x => !(lt y0 x)) :=
      List.Pairwise.sublist (List.dropWhile_sublist _) hX
    rw [← List.takeWhile_append_dropWhile (fun x => !(lt y0 x)) X, List.mem_append] at hx
    rw [mergeSeq]
    rcases hx with hx | hx
    · obtain ⟨a, b, hab⟩ := List.append_of_mem hx
      rcases List.mem_cons.1 hy with rfl | hy
      · exact ⟨a, b, _, by rw [hab]⟩
      · obtain ⟨c, d, hcd⟩ := List.append_of_mem ((mem_mergeSeq lt _ _ y).2 (Or.inr hy))
        exact ⟨a, b ++ y0 :: c, d, by rw [hab, hcd]; simp⟩
    · rcases List.mem_cons.1 hy with rfl | hy
      · have := lt_of_mem_dropWhile h y X hX x hx
        rw [hyx] at this; cases this
      · obtain ⟨Z1, Z2, Z3, hZ⟩ := ih _ hX2 x hx y hy hyx
        exact ⟨X.takeWhile (fun x => !(lt y0 x)) ++ y0 :: Z1, Z2, Z3, by rw [hZ]; simp⟩

theorem ltNat_swo : StrictWeakOrder ltNat := by
  refine ⟨fun a => by simp [ltNat], fun a b c => ?_, fun a b c => ?_⟩
  · simp only [ltNat, decide_eq_true_eq]; omega
  · simp only [ltNat, decide_eq_false_iff_not]; omega

theorem ascending_ltVal (lt : T → T → Bool) (Z : List (Nat × T)) :
    Ascending (ltVal lt) Z ↔ Ascending lt (Z.map Prod.snd) := by
  simp [Ascending, List.pairwise_map, ltVal]

/-- C1: merging two distinct ascending lists leaves `this` ascending, a
permutation of the old `this` followed by the old `other`, of size the sum of
the two prior sizes, and leaves `other` a valid empty list. -/
theorem merge_sorted (lt : T → T → Bool) (s : State T) (this other : Nat) (L O : list)
    (X Y : List (Nat × T)) (fuel : Nat) (hne : this ≠ other)
    (hL : s.lists this = some L) (hO : s.lists other = some O)
    (hX : Repr s.heap L X) (hY : Repr s.heap O Y)
    (hnd : (chainAddrs L X ++ chainAddrs O Y).Nodup)
    (hlt : StrictWeakOrder lt)
    (hXa : Ascending lt (X.map Prod.snd)) (hYa : Ascending lt (Y.map Prod.snd))
    (hf : X.length + Y.length < fuel) :
    ∃ s' Z, list.merge lt fuel s this other = .ok s' ∧
      list.cells fuel s' this = .ok Z ∧
      list.to_list fuel s' this = .ok (Z.map Prod.snd) ∧
      Ascending lt (Z.map Prod.snd) ∧ Z.Perm (X ++ Y) ∧
      list.size s this = .ok X.length ∧ list.size s other = .ok Y.length ∧
      list.size s' this = .ok (X.length + Y.length) ∧
      list.size s' other = .ok 0 ∧ list.begin s' other = list.end_ s' other ∧
      list.cells fuel s' other = .ok [] ∧
      ∃ L' O', s'.lists this = some L' ∧ s'.lists other = some O' ∧
        Repr s'.heap L' Z ∧ Repr s'.heap O' [] := by
  obtain ⟨s', e, hl, r1, r2, -, -, -⟩ := merge_state_spec lt hne hL hO hX hY hnd fuel hf
  have hp := mergeSeq_perm (ltVal lt) X Y
  have hlen : (mergeSeq (ltVal lt) X Y).length = X.length + Y.length := by
    simpa using hp.length_eq
  have hL' : s'.lists this = some ⟨L.head, L.tail, L.count + O.count⟩ := by
    rw [hl, Function.update_noteq hne, Function.update_same]
  have hO' : s'.lists other = some ⟨O.head, O.tail, 0⟩ := by
    rw [hl, Function.update_same]
  refine ⟨s', mergeSeq (ltVal lt) X Y, e, r1.cells hL' fuel (by omega),
    r1.to_list hL' fuel (by omega), ?_, hp, hX.size hL, hY.size hO, ?_, r2.size hO', ?_,
    r2.cells hO' fuel (by simp; omega), _, _, hL', hO', r1, r2⟩
  · exact (ascending_ltVal lt _).1 (mergeSeq_ascending hlt.ltVal X Y
      ((ascending_ltVal lt _).2 hXa) ((ascending_ltVal lt _).2 hYa))
  · rw [r1.size hL', hlen]
  · simp [list.begin, list.end_, State.getList, hO', Heap.get_of r2.head_cell]

theorem merge_sorted_witness :
    ∃ s' Z, list.merge ltNat 7 exMerge 1 2 = .ok s' ∧
      list.cells 7 s' 1 = .ok Z ∧
      list.to_list 7 s' 1 = .ok (Z.map Prod.snd) ∧
      Ascending ltNat (Z.map Prod.snd) ∧
      Z.Perm ([(5, 1), (6, 3), (7, 5)] ++ [(8, 2), (9, 3), (10, 4)]) ∧
      list.size exMerge 1 = .ok 3 ∧ list.size exMerge 2 = .ok 3 ∧
      list.size s' 1 = .ok (3 + 3) ∧
      list.size s' 2 = .ok 0 ∧ list.begin s' 2 = list.end_ s' 2 ∧
      list.cells 7 s' 2 = .ok [] ∧
      ∃ L' O', s'.lists 1 = some L' ∧ s'.lists 2 = some O' ∧
        Repr s'.heap L' Z ∧ Repr s'.heap O' [] :=
  merge_sorted ltNat exMerge 1 2 ⟨1, 2, 3⟩ ⟨3, 4, 3⟩ [(5, 1), (6, 3), (7, 5)]
    [(8, 2), (9, 3), (10, 4)] 7 (by decide) (by decide!) (by decide!) (by decide!) (by decide!)
    (by decide) ltNat_swo (by decide) (by decide) (by decide)

/-- C2: in the result of merging two distinct ascending lists, the elements that
came from `this` keep their relative order, the elements that came from `other`
keep theirs, and every element of `this` precedes every element of `other`
that is equivalent to it (neither is less than the other). -/
theorem merge_stable (lt : T → T → Bool) (s : State T) (this other : Nat) (L O : list)
    (X Y : List (Nat × T)) (fuel : Nat) (hne : this ≠ other)
    (hL : s.lists this = some L) (hO : s.lists other = some O)
    (hX : Repr s.heap L X) (hY : Repr s.heap O Y)
    (hnd : (chainAddrs L X ++ chainAddrs O Y).Nodup)
    (hlt : StrictWeakOrder lt) (hXa : Ascending lt (X.map Prod.snd))
    (hf : X.length + Y.length < fuel) :
    ∃ s' Z, list.merge lt fuel s this other = .ok s' ∧
      list.cells fuel s' this = .ok Z ∧ (Z.map Prod.fst).Nodup ∧
      List.Sublist X Z ∧ List.Sublist Y Z ∧
      ∀ x ∈ X, ∀ y ∈ Y, lt x.2 y.2 = false → lt y.2 x.2 = false →
        ∃ Z1 Z2 Z3, Z = Z1 ++ x :: Z2 ++ y :: Z3 := by
  obtain ⟨s', e, hl, r1, -, -, -, -⟩ := merge_state_spec lt hne hL hO hX hY hnd fuel hf
  have hp := mergeSeq_perm (ltVal lt) X Y
  have hlen : (mergeSeq (ltVal lt) X Y).length = X.length + Y.length := by
    simpa using hp.length_eq
  have hL' : s'.lists this = some ⟨L.head, L.tail, L.count + O.count⟩ := by
    rw [hl, Function.update_noteq hne, Function.update_same]
  have hn : ((mergeSeq (ltVal lt) X Y).map Prod.fst).Nodup := by
    have := r1.2.1
    simp only [chainAddrs, List.nodup_cons, List.nodup_append] at this
    exact this.2.1
  refine ⟨s', mergeSeq (ltVal lt) X Y, e, r1.cells hL' fuel (by omega), hn,
    sublist_mergeSeq_left _ X Y, sublist_mergeSeq_right _ X Y, ?_⟩
  intro x hx y hy _ hyx
  exact mergeSeq_precedes hlt.ltVal X Y ((ascending_ltVal lt _).2 hXa) x hx y hy hyx

theorem merge_stable_witness :
    ∃ s' Z, list.merge ltNat 7 exMerge 1 2 = .ok s' ∧
      list.cells 7 s' 1 = .ok Z ∧ (Z.map Prod.fst).Nodup ∧
      List.Sublist [(5, 1), (6, 3), (7, 5)] Z ∧ List.Sublist [(8, 2), (9, 3), (10, 4)] Z ∧
      ∀ x ∈ [(5, 1), (6, 3), (7, 5)], ∀ y ∈ [(8, 2), (9, 3), (10, 4)],
        ltNat x.2 y.2 = false → ltNat y.2 x.2 = false →
        ∃ Z1 Z2 Z3, Z = Z1 ++ x :: Z2 ++ y :: Z3 :=
  merge_stable ltNat exMerge 1 2 ⟨1, 2, 3⟩ ⟨3, 4, 3⟩ [(5, 1), (6, 3), (7, 5)]
    [(8, 2), (9, 3), (10, 4)] 7 (by decide) (by decide!) (by decide!) (by decide!) (by decide!)
    (by decide) ltNat_swo (by decide) (by decide)

/-- C3, as stated, fails: `exMerge` holds `this = [1,3,5]` and `other = [2,3,4]`,
and merging them yields the six elements `[1,2,3,3,4,5]`, not the seven
elements `[1,2,3,3,3,4,5]` of the worked example. -/
theorem merge_example_refuted :
    (list.to_list 7 exMerge 1).toOption = some [1, 3, 5] ∧
    (list.to_list 7 exMerge 2).toOption = some [2, 3, 4] ∧
    (list.merge ltNat 7 exMerge 1 2 >>= fun s' => list.to_list 7 s' 1).toOption
      = some [1, 2, 3, 3, 4, 5] ∧
    (list.merge ltNat 7 exMerge 1 2 >>= fun s' => list.to_list 7 s' 1).toOption
      ≠ some [1, 2, 3, 3, 3, 4, 5] := by
  decide!

/-- C3, amended: merging `this = [1,3,5]` (nodes 5, 6, 7) with `other = [2,3,4]`
(nodes 8, 9, 10) yields `this = [1,2,3,3,4,5]` and leaves `other` empty, and the
`3` of `this` (node 6) precedes the `3` of `other` (node 9). -/
theorem merge_worked_example :
    (list.cells 7 exMerge 1).toOption = some [(5, 1), (6, 3), (7, 5)] ∧
    (list.cells 7 exMerge 2).toOption = some [(8, 2), (9, 3), (10, 4)] ∧
    (list.merge ltNat 7 exMerge 1 2 >>= fun s' => list.to_list 7 s' 1).toOption
      = some [1, 2, 3, 3, 4, 5] ∧
    (list.merge ltNat 7 exMerge 1 2 >>= fun s' => list.cells 7 s' 1).toOption
      = some [(5, 1), (8, 2), (6, 3), (9, 3), (10, 4), (7, 5)] ∧
    (list.merge ltNat 7 exMerge 1 2 >>= fun s' => list.to_list 7 s' 2).toOption = some [] ∧
    (list.merge ltNat 7 exMerge 1 2 >>= fun s' => list.size s' 2).toOption = some 0 ∧
    (list.merge ltNat 7 exMerge 1 2 >>= fun s' => list.size s' 1).toOption = some 6 := by
  decide!

/-! ## sort -/

theorem fill_loop_spec {h : Heap T} (R : List (Nat × T)) {p n tl : Nat}
    (hs : Seg h.cells p (dataCells R ++ [(tl, none)]) n)
    (htl : tl ∉ R.map Prod.fst) (fuel : Nat) (hf : R.length < fuel) :
    list.fill_loop fuel h tl (nextOf (dataCells R) tl) = .ok (R.map Prod.fst) := by
  induction R generalizing p fuel with
  | nil =>
    obtain ⟨f, rfl⟩ : ∃ f, fuel = f + 1 := ⟨fuel - 1, by simp at hf; omega⟩
    simp [list.fill_loop]
  | cons x R ih =>
    obtain ⟨f, rfl⟩ : ∃ f, fuel = f + 1 := ⟨fuel - 1, by omega⟩
    rw [dataCells_cons, List.cons_append, seg_cons, nextOf_concat] at hs
    obtain ⟨hx, hR⟩ := hs
    have hne : x.1 ≠ tl := fun e => htl (by simp [e])
    have htl' : tl ∉ R.map Prod.fst := fun hm => htl (by simp [hm])
    have hrec := ih hR htl' f (by simp at hf; omega)
    simp [list.fill_loop, hne, Heap.get_of hx, hrec]

theorem linkPairs_spec (cs : List (Nat × Option T)) :
    ∀ (c : Nat × Option T) (h : Heap T) (p0 n0 : Nat),
      ((c :: cs).map Prod.fst).Nodup →
      (∀ d ∈ c :: cs, ∃ a b, h.cells d.1 = some ⟨d.2, a, b⟩) →
      (h.cells c.1).map node.prev = some p0 →
      (h.cells (lastOf cs c.1)).map node.next = some n0 →
      ∃ h', linkPairs h ((c :: cs).map Prod.fst) = .ok h' ∧ Seg h'.cells p0 (c :: cs) n0 ∧
        h'.brk = h.brk ∧ ∀ x, x ∉ (c :: cs).map Prod.fst → h'.cells x = h.cells x := by
  induction cs with
  | nil =>
    intro c h p0 n0 _ hall hp hn
    obtain ⟨a, b, hc⟩ := hall c (by simp)
    refine ⟨h, rfl, ?_, rfl, fun _ _ => rfl⟩
    simp only [lastOf_nil, hc, Option.map_some', Option.some.injEq] at hp hn
    subst hp; subst hn
    exact ⟨hc, trivial⟩
  | cons d cs ih =>
    intro c h p0 n0 hnd hall hp hn
    obtain ⟨a, b, hc⟩ := hall c (by simp)
    obtain ⟨a', b', hd⟩ := hall d (by simp)
    simp only [hc, Option.map_some', Option.some.injEq] at hp
    subst hp
    have hcd : c.1 ≠ d.1 := by
      intro e; simp [e] at hnd
    have hcn : c.1 ∉ (d :: cs).map Prod.fst := (List.nodup_cons.1 hnd).1
    have hnd' : ((d :: cs).map Prod.fst).Nodup := (List.nodup_cons.1 hnd).2
    let h1 := h.put c.1 ⟨c.2, a, d.1⟩
    have hd1 : h1.cells d.1 = some ⟨d.2, a', b'⟩ := by
      rw [Heap.put_cells_ne _ _ (Ne.symm hcd)]; exact hd
    let h2 := h1.put d.1 ⟨d.2, c.1, b'⟩
    have hall2 : ∀ e ∈ d :: cs, ∃ a b, h2.cells e.1 = some ⟨e.2, a, b⟩ := by
      intro e he
      rcases List.mem_cons.1 he with rfl | he'
      · exact ⟨_, _, Heap.put_cells_same _ _ _⟩
      · by_cases hed : e.1 = d.1
        · have hmem : e.1 ∈ cs.map Prod.fst := List.mem_map_of_mem _ he'
          rw [hed] at hmem
          exact absurd hmem (List.nodup_cons.1 hnd').1
        · have hec : e.1 ≠ c.1 := fun e1 => hcn (e1 ▸ List.mem_map_of_mem _ he)
          obtain ⟨a1, b1, h0⟩ := hall e (List.mem_cons_of_mem _ he)
          exact ⟨a1, b1, by rw [Heap.put_cells_ne _ _ hed, Heap.put_cells_ne _ _ hec]; exact h0⟩
    have hp2 : (h2.cells d.1).map node.prev = some c.1 := by
      simp [h2]
    have hn2 : (h2.cells (lastOf cs d.1)).map node.next = some n0 := by
      rw [lastOf_cons] at hn
      by_cases hl : lastOf cs d.1 = d.1
      · rw [hl] at hn ⊢
        simp only [hd, Option.map_some', Option.some.injEq] at hn
        simp [h2, hn]
      · have hl' : lastOf cs d.1 ≠ c.1 := by
          intro e
          apply hcn
          rw [← e]
          clear * -
          induction cs generalizing d with
          | nil => simp
          | cons x cs ih => 
            have := ih x
            simp only [lastOf_cons, List.map_cons, List.mem_cons] at this ⊢
            tauto
        rw [Heap.put_cells_ne _ _ hl, Heap.put_cells_ne _ _ hl']; exact hn
    obtain ⟨h', e, s1, b1, f1⟩ := ih d h2 c.1 n0 hnd' hall2 hp2 hn2
    refine ⟨h', ?_, ⟨?_, s1⟩, by rw [b1]; rfl, ?_⟩
    · simp only [List.map_cons, linkPairs, Heap.setNext_of hc, bind_ok, Heap.setPrev_of hd1]
      exact e
    · rw [f1 c.1 hcn, Heap.put_cells_ne _ _ hcd, Heap.put_cells_same]
      rfl
    · intro x hx
      have hx1 : x ≠ c.1 := fun e1 => hx (by simp [e1])
      have hx2 : x ∉ (d :: cs).map Prod.fst := fun hm => hx (List.mem_cons_of_mem _ hm)
      have hx3 : x ≠ d.1 := fun e1 => hx2 (by simp [e1])
      rw [f1 x hx2, Heap.put_cells_ne _ _ hx3, Heap.put_cells_ne _ _ hx1]

theorem at_append_length (pre : List Nat) (a : Nat) (mid : List Nat) :
    list.at (pre ++ a :: mid) pre.length = .ok a := by
  have : (pre ++ a :: mid)[pre.length]? = some a := by
    rw [List.getElem?_append_right (le_refl _)]; simp
  simp only [list.at, this]

theorem relink_loop_eq (n : Nat) :
    ∀ (i : Nat) (pre mid : List Nat) (h : Heap T), pre.length = i → mid.length = n + 1 →
      list.relink_loop (pre ++ mid) n i h = linkPairs h mid := by
  induction n with
  | zero =>
    intro i pre mid h _ hm
    match mid, hm with
    | [m], _ => rfl
  | succ n ih =>
    intro i pre mid h hi hm
    match mid, hm with
    | a :: b :: rest, hm =>
      subst hi
      have e1 := at_append_length pre a (b :: rest)
      have e2 : list.at (pre ++ a :: b :: rest) (pre.length + 1) = .ok b := by
        have := at_append_length (pre ++ [a]) b rest
        simpa using this
      have e3 := fun h2 => ih (pre.length + 1) (pre ++ [a]) (b :: rest) h2 (by simp)
        (by simpa using hm)
      simp only [List.append_assoc, List.singleton_append] at e3
      simp only [list.relink_loop, e1, e2, bind_ok, linkPairs, e3]

theorem linkPairs_concat (l : List Nat) :
    ∀ (al t : Nat) (h : Heap T), l.getLast? = some al →
      linkPairs h (l ++ [t]) =
        (linkPairs h l >>= fun h1 => h1.setNext al t >>= fun h2 => h2.setPrev t al) := by
  induction l with
  | nil => intro al t h hl; simp at hl
  | cons a l ih =>
    intro al t h hl
    cases l with
    | nil =>
      simp only [List.getLast?_singleton, Option.some.injEq] at hl
      subst hl
      simp only [List.singleton_append, linkPairs, pure_eq_ok, bind_ok]
      cases h.setNext a t with
      | error e => rfl
      | ok h1 =>
        simp only [bind_ok]
        cases h1.setPrev t a <;> rfl
    | cons b rest =>
      have hl' : (b :: rest).getLast? = some al := by
        simpa [List.getLast?_cons_cons] using hl
      have := fun h2 => ih al t h2 hl'
      simp only [List.cons_append] at this
      simp only [List.cons_append, linkPairs, List.append_eq, this, bind_assoc]

theorem exists_perm_map {α β : Type} (f : α → β) {l m : List β} (hp : l.Perm m) :
    ∀ X : List α, m = X.map f → ∃ Z : List α, Z.Perm X ∧ Z.map f = l := by
  induction hp with
  | nil =>
    intro X hX
    exact ⟨[], by rw [List.eq_nil_of_map_eq_nil hX.symm], rfl⟩
  | cons b _ ih =>
    intro X hX
    match X, hX with
    | x :: X', hX =>
      simp only [List.map_cons, List.cons.injEq] at hX
      obtain ⟨Z, hZ, hm⟩ := ih X' hX.2
      exact ⟨x :: Z, hZ.cons x, by simp [hm, hX.1]⟩
  | swap a b l =>
    intro X hX
    match X, hX with
    | x :: y :: X', hX =>
      simp only [List.map_cons, List.cons.injEq] at hX
      exact ⟨y :: x :: X', List.Perm.swap _ _ _, by simp [hX.1, hX.2.1, hX.2.2]⟩
  | trans _ _ ih1 ih2 =>
    intro X hX
    obtain ⟨Z2, hZ2, hm2⟩ := ih2 X hX
    obtain ⟨Z, hZ, hm⟩ := ih1 Z2 hm2.symm
    exact ⟨Z, hZ.trans hZ2, hm⟩

theorem Repr.data_cell {h : Heap T} {L : list} {els : List (Nat × T)} (hR : Repr h L els)
    {x : Nat × T} (hx : x ∈ els) : ∃ a b, h.cells x.1 = some ⟨some x.2, a, b⟩ := by
  have hm : (x.1, some x.2) ∈ chainOf L els := by
    simp only [chainOf, dataCells, List.mem_cons, List.mem_append, List.mem_map]
    exact Or.inr (Or.inl ⟨x, hx, rfl⟩)
  exact hR.1.mem_cell hm

theorem cmp_of_mem (lt : T → T → Bool) {h : Heap T} {L : list} {X : List (Nat × T)}
    (hR : Repr h L X) {x y : Nat × T} (hx : x ∈ X) (hy : y ∈ X) :
    list.cmp lt h x.1 y.1 = lt x.2 y.2 := by
  obtain ⟨a, b, h1⟩ := hR.data_cell hx
  obtain ⟨c, d, h2⟩ := hR.data_cell hy
  simp [list.cmp, Heap.deref_of h1, Heap.deref_of h2]

/-- The effect of `sort` on a represented list, given that the sort primitive
returns a permutation of the array. -/
theorem sort_state_spec (lt : T → T → Bool) (srt : (Nat → Nat → Bool) → List Nat → List Nat)
    {s : State T} {this : Nat} {L : list} {X : List (Nat × T)}
    (hL : s.lists this = some L) (hX : Repr s.heap L X)
    (hperm : (srt (list.cmp lt s.heap) (X.map Prod.fst)).Perm (X.map Prod.fst))
    (fuel : Nat) (hf : X.length < fuel) :
    ∃ s' Z, list.sort lt srt fuel s this = .ok s' ∧ s'.lists = s.lists ∧ Z.Perm X ∧
      (2 ≤ X.length → Z.map Prod.fst = srt (list.cmp lt s.heap) (X.map Prod.fst)) ∧
      (X.length ≤ 1 → Z = X ∧ s' = s) ∧
      Repr s'.heap L Z ∧ s'.heap.brk = s.heap.brk ∧
      (∀ x, x ∉ chainAddrs L X → s'.heap.cells x = s.heap.cells x) := by
  by_cases hc : X.length ≤ 1
  · refine ⟨s, X, ?_, rfl, List.Perm.refl _, fun h2 => by omega, fun _ => ⟨rfl, rfl⟩, hX, rfl,
      fun _ _ => rfl⟩
    simp [list.sort, State.getList, hL, hX.2.2.2, hc]
  · obtain ⟨Z, hZ, hm⟩ := exists_perm_map Prod.fst hperm X rfl
    have hlen : Z.length = X.length := hZ.length_eq
    obtain ⟨z0, Z', rfl⟩ : ∃ z0 Z', Z = z0 :: Z' := by
      cases Z with
      | nil => simp at hlen; omega
      | cons z0 Z' => exact ⟨z0, Z', rfl⟩
    have haddr : (chainAddrs L (z0 :: Z')).Perm (chainAddrs L X) := by
      simp only [chainAddrs]
      exact ((hZ.map Prod.fst).append_right _).cons _
    have hnd : (((L.head, none) :: (dataCells (z0 :: Z') ++ [(L.tail, none)])).map
        Prod.fst).Nodup := by
      have := (List.Perm.nodup_iff haddr).2 hX.2.1
      simpa [chainAddrs] using this
    have hall : ∀ d ∈ (L.head, none) :: (dataCells (z0 :: Z') ++ [(L.tail, (none : Option T))]),
        ∃ a b, s.heap.cells d.1 = some ⟨d.2, a, b⟩ := by
      intro d hd
      rcases List.mem_cons.1 hd with rfl | hd
      · exact ⟨_, _, hX.head_cell⟩
      · rcases List.mem_append.1 hd with hd | hd
        · simp only [dataCells, List.mem_map] at hd
          obtain ⟨z, hz, rfl⟩ := hd
          exact hX.data_cell (hZ.mem_iff.1 hz)
        · simp only [List.mem_singleton] at hd
          subst hd
          exact ⟨_, _, hX.tail_cell⟩
    obtain ⟨h', e, s1, b1, f1⟩ := linkPairs_spec _ (L.head, none) s.heap 0 0 hnd hall
      (by simp [hX.head_cell]) (by rw [lastOf_concat]; simp [hX.tail_cell])
    refine ⟨{ heap := h', lists := s.lists }, z0 :: Z', ?_, rfl, hZ, fun _ => hm,
      fun h1 => absurd h1 hc, ⟨s1, (List.Perm.nodup_iff haddr).2 hX.2.1,
        fun h0 => hX.2.2.1 (haddr.mem_iff.1 h0), by rw [hX.2.2.2, hlen]⟩, b1, ?_⟩
    · have hfill := fill_loop_spec X hX.data_seg hX.tail_not_mem fuel hf
      have hcnt : L.count = Z'.length + 1 := by rw [hX.2.2.2, ← hlen]; rfl
      have hc1 : ¬ (Z'.length + 1 ≤ 1) := by
        simp only [List.length_cons] at hlen; omega
      obtain ⟨al, hal⟩ : ∃ al, (z0.1 :: Z'.map Prod.fst).getLast? = some al :=
        ⟨_, List.getLast?_eq_getLast _ (by simp)⟩
      have hat : list.at (z0.1 :: Z'.map Prod.fst) Z'.length = .ok al := by
        rw [List.getLast?_eq_getElem?] at hal
        simp only [List.length_cons, List.length_map, Nat.add_sub_cancel] at hal
        simp only [list.at, hal]
      have hat0 : list.at (z0.1 :: Z'.map Prod.fst) 0 = .ok z0.1 := by simp [list.at]
      have hrl := fun h0 : Heap T =>
        relink_loop_eq Z'.length 0 [] (z0.1 :: Z'.map Prod.fst) h0 rfl (by simp)
      have hcc := fun h0 : Heap T => linkPairs_concat (z0.1 :: Z'.map Prod.fst) al L.tail h0 hal
      simp only [List.map_cons, List.map_append, dataCells_fst, List.map_nil,
        List.cons_append] at e
      simp only [List.nil_append] at hrl
      simp only [List.cons_append] at hcc
      rw [linkPairs] at e
      simp only [hcc] at e
      have hlx : (X.map Prod.fst).length = Z'.length + 1 := by
        rw [List.length_map, ← hlen]; rfl
      simp only [list.sort, State.getList, hL, bind_ok, hcnt, hc1, if_false,
        Heap.get_of hX.head_cell, hfill, hlx, ne_eq, not_true_eq_false, ← hm, List.map_cons,
        hat0, hat, Nat.add_sub_cancel, hrl, pure_eq_ok]
      revert e
      cases s.heap.setNext L.head z0.1 with
      | error _ => intro e; cases e
      | ok h1 =>
        simp only [bind_ok]
        cases h1.setPrev z0.1 L.head with
        | error _ => intro e; cases e
        | ok h2 =>
          simp only [bind_ok]
          cases linkPairs h2 (z0.1 :: List.map Prod.fst Z') with
          | error _ => intro e; cases e
          | ok h3 =>
            simp only [bind_ok]
            cases h3.setNext al L.tail with
            | error _ => intro e; cases e
            | ok h4 =>
              simp only [bind_ok]
              intro e
              rw [e]
              rfl
    · intro x hx
      apply f1
      intro hm'
      apply hx
      rw [← haddr.mem_iff]
      simpa [chainAddrs] using hm'

/-- C4: given that the sort primitive returns an ascending permutation of the
node array under the value-comparing predicate, `sort` leaves the list
ascending under `<`, a permutation of the original elements (the same nodes
with the same values), with `size()` unchanged; a list of size 0 or 1 is left
as it is. -/
theorem sort_sorted (lt : T → T → Bool) (srt : (Nat → Nat → Bool) → List Nat → List Nat)
    (s : State T) (this : Nat) (L : list) (X : List (Nat × T)) (fuel : Nat)
    (hL : s.lists this = some L) (hX : Repr s.heap L X)
    (hperm : (srt (list.cmp lt s.heap) (X.map Prod.fst)).Perm (X.map Prod.fst))
    (hasc : (srt (list.cmp lt s.heap) (X.map Prod.fst)).Pairwise
      fun a b => list.cmp lt s.heap b a = false)
    (hf : X.length < fuel) :
    ∃ s' Z, list.sort lt srt fuel s this = .ok s' ∧
      list.cells fuel s' this = .ok Z ∧
      list.to_list fuel s' this = .ok (Z.map Prod.snd) ∧
      Ascending lt (Z.map Prod.snd) ∧ Z.Perm X ∧
      list.size s this = .ok X.length ∧ list.size s' this = .ok X.length ∧
      (X.length ≤ 1 → Z = X ∧ s' = s) ∧
      s'.lists this = some L ∧ Repr s'.heap L Z := by
  obtain ⟨s', Z, e, hl, hZ, hm, h1, r, -, -⟩ := sort_state_spec lt srt hL hX hperm fuel hf
  have hL' : s'.lists this = some L := by rw [hl]; exact hL
  have hlen : Z.length = X.length := hZ.length_eq
  refine ⟨s', Z, e, r.cells hL' fuel (by omega), r.to_list hL' fuel (by omega), ?_, hZ,
    hX.size hL, by rw [r.size hL', hlen], h1, hL', r⟩
  by_cases hc : X.length ≤ 1
  · rw [Ascending]
    match Z, hlen with
    | [], _ => exact List.Pairwise.nil
    | [z], _ => simp
    | _ :: _ :: _, hlen => simp at hlen; omega
  · rw [← hm (by omega), List.pairwise_map] at hasc
    rw [Ascending, List.pairwise_map]
    refine List.Pairwise.imp_of_mem ?_ hasc
    intro a b ha hb hab
    rw [cmp_of_mem lt hX (hZ.mem_iff.1 hb) (hZ.mem_iff.1 ha)] at hab
    exact hab

theorem sort_sorted_witness :
    (∃ s' Z, list.sort ltNat exSort 4 exSortList 1 = .ok s' ∧
      list.cells 4 s' 1 = .ok Z ∧
      list.to_list 4 s' 1 = .ok (Z.map Prod.snd) ∧
      Ascending ltNat (Z.map Prod.snd) ∧ Z.Perm [(3, 3), (4, 1), (5, 2)] ∧
      list.size exSortList 1 = .ok 3 ∧ list.size s' 1 = .ok 3 ∧
      (3 ≤ 1 → Z = [(3, 3), (4, 1), (5, 2)] ∧ s' = exSortList) ∧
      s'.lists 1 = some ⟨1, 2, 3⟩ ∧ Repr s'.heap ⟨1, 2, 3⟩ Z) ∧
    (list.to_list 4 exSortList 1).toOption = some [3, 1, 2] ∧
    (list.sort ltNat exSort 4 exSortList 1 >>= fun s' => list.to_list 4 s' 1).toOption
      = some [1, 2, 3] :=
  ⟨sort_sorted ltNat exSort exSortList 1 ⟨1, 2, 3⟩ [(3, 3), (4, 1), (5, 2)] 4 (by decide!)
    (by decide!) (by decide!) (by decide!) (by decide), by decide!, by decide!⟩

/-! ## unique -/

theorem Heap.free_of {h : Heap T} {p : Nat} {n : node T} (hc : h.cells p = some n) :
    h.free p = .ok { cells := Function.update h.cells p none, brk := h.brk } := by
  simp [Heap.free, hc]

theorem uniqueFrom_length_le {α : Type} (eq : α → α → Bool) (a : α) (l : List α) :
    (uniqueFrom eq a l).length ≤ l.length + 1 := by
  induction l generalizing a with
  | nil => simp [uniqueFrom]
  | cons b l ih =>
    rw [uniqueFrom]
    split
    · have := ih a; simp only [List.length_cons]; omega
    · have := ih b; simp only [List.length_cons]; omega

theorem uniqueFrom_head {α : Type} (eq : α → α → Bool) (a : α) (l : List α) :
    ∃ t, uniqueFrom eq a l = a :: t := by
  induction l generalizing a with
  | nil => exact ⟨[], rfl⟩
  | cons b l ih =>
    rw [uniqueFrom]
    split
    · exact ih a
    · exact ⟨_, rfl⟩

theorem unique_loop_spec (eq : T → T → Bool) (R : List (Nat × T)) :
    ∀ (h : Heap T) (A : List (Nat × Option T)) (x : Nat × T) (tl c fuel : Nat),
      A ≠ [] →
      Seg h.cells 0 (A ++ (x.1, some x.2) :: (dataCells R ++ [(tl, none)])) 0 →
      ((A ++ (x.1, some x.2) :: (dataCells R ++ [(tl, none)])).map Prod.fst).Nodup →
      R.length < fuel →
      ∃ h', list.unique_loop eq fuel h tl x.1 c =
          .ok (h', c - (R.length + 1 - (uniqueFrom (eqVal eq) x R).length)) ∧
        Seg h'.cells 0 (A ++ (dataCells (uniqueFrom (eqVal eq) x R) ++ [(tl, none)])) 0 ∧
        h'.brk = h.brk ∧
        (∀ a, a ∉ (A ++ (x.1, some x.2) :: (dataCells R ++ [(tl, none)])).map Prod.fst →
          h'.cells a = h.cells a) := by
  induction R with
  | nil =>
    intro h A x tl c fuel hA hs hnd hf
    obtain ⟨f, rfl⟩ : ∃ f, fuel = f + 1 := ⟨fuel - 1, by simp at hf; omega⟩
    have hs' := hs
    rw [seg_append, seg_cons] at hs'
    have hx : h.cells x.1 = some ⟨some x.2, lastOf A 0, tl⟩ := hs'.2.1
    have hne : x.1 ≠ tl := by
      intro e; simp [List.nodup_append, e] at hnd
    refine ⟨h, ?_, by simpa [uniqueFrom] using hs, rfl, fun _ _ => rfl⟩
    simp [list.unique_loop, hne, Heap.get_of hx, uniqueFrom]
  | cons y R ih =>
    intro h A x tl c fuel hA hs hnd hf
    obtain ⟨f, rfl⟩ : ∃ f, fuel = f + 1 := ⟨fuel - 1, by omega⟩
    have hs' := hs
    rw [seg_append, seg_cons, dataCells_cons, List.cons_append, seg_cons, nextOf_concat] at hs'
    have hx : h.cells x.1 = some ⟨some x.2, lastOf A 0, y.1⟩ := hs'.2.1
    have hy : h.cells y.1 = some ⟨some y.2, x.1, nextOf (dataCells R) tl⟩ := hs'.2.2.1
    have hne : x.1 ≠ tl := by
      intro e; simp [List.nodup_append, e] at hnd
    have hyne : y.1 ≠ tl := by
      intro e; simp [List.nodup_append, e] at hnd
    have hlen := uniqueFrom_length_le (eqVal eq) x R
    by_cases he : eq x.2 y.2 = true
    · -- the duplicate is unlinked and deleted
      have hs2 : Seg h.cells 0 ((A ++ [(x.1, some x.2)]) ++
          (y.1, some y.2) :: (dataCells R ++ [(tl, none)])) 0 := by
        simpa using hs
      have hnd2 : (((A ++ [(x.1, some x.2)]) ++
          (y.1, some y.2) :: (dataCells R ++ [(tl, none)])).map Prod.fst).Nodup := by
        simpa using hnd
      obtain ⟨g1, e1, s1, b1, c1, f1⟩ := erase_node_gen (A ++ [(x.1, some x.2)])
        (dataCells R ++ [(tl, none)]) (by simp) (by simp) y.1 (some y.2) hs2 hnd2
      have hyn : y.1 ∉ ((A ++ [(x.1, some x.2)]) ++ (dataCells R ++ [(tl, none)])).map
          Prod.fst := by
        rw [List.map_append, List.map_cons] at hnd2
        rw [List.map_append]
        exact (List.nodup_cons.1 (List.nodup_middle.1 hnd2)).1
      let g2 : Heap T := { cells := Function.update g1.cells y.1 none, brk := g1.brk }
      have s2 : Seg g2.cells 0 (A ++ (x.1, some x.2) :: (dataCells R ++ [(tl, none)])) 0 := by
        have hfr : Seg g2.cells 0 ((A ++ [(x.1, some x.2)]) ++ (dataCells R ++ [(tl, none)])) 0 := by
          refine s1.frame ?_
          intro a ha
          have : a ≠ y.1 := fun e => hyn (e ▸ ha)
          simp [g2, Function.update_noteq this]
        simpa using hfr
      have hnd3 : ((A ++ (x.1, some x.2) :: (dataCells R ++ [(tl, none)])).map Prod.fst).Nodup := by
        clear * - hnd
        refine List.Nodup.sublist ?_ hnd
        simp only [List.map_append, List.map_cons, dataCells_cons]
        exact List.Sublist.append_left (List.Sublist.cons₂ _ (List.sublist_cons_self _ _)) _
      obtain ⟨h', e3, s3, b3, f3⟩ := ih g2 A x tl (c - 1) f hA s2 hnd3 (by simp at hf; omega)
      refine ⟨h', ?_, ?_, by rw [b3]; exact b1, ?_⟩
      · have hum : uniqueFrom (eqVal eq) x (y :: R) = uniqueFrom (eqVal eq) x R := by
          simp [uniqueFrom, eqVal, he]
        have hcnt : c - ((y :: R).length + 1 - (uniqueFrom (eqVal eq) x R).length) =
            c - 1 - (R.length + 1 - (uniqueFrom (eqVal eq) x R).length) := by
          simp only [List.length_cons]; omega
        rw [hum, hcnt, ← e3]
        simp only [list.unique_loop, hne, if_false, Heap.get_of hx, bind_ok, hyne,
          Heap.deref_of hx rfl, Heap.deref_of hy rfl, he, if_true, e1, Heap.free_of (c1.trans hy)]
      · have hum : uniqueFrom (eqVal eq) x (y :: R) = uniqueFrom (eqVal eq) x R := by
          simp [uniqueFrom, eqVal, he]
        rw [hum]; exact s3
      · intro a ha
        have ha3 : a ∉ (A ++ (x.1, some x.2) :: (dataCells R ++ [(tl, none)])).map Prod.fst := by
          intro hm; apply ha; clear * - hm
          simp only [List.map_append, List.map_cons, dataCells_cons, List.mem_append,
            List.mem_cons] at hm ⊢
          tauto
        have hay : a ≠ y.1 := by
          rintro rfl; apply ha; simp
        rw [f3 a ha3]
        show Function.update g1.cells y.1 none a = _
        rw [Function.update_noteq hay]
        apply f1
        intro hm; apply ha3; clear * - hm
        simpa using hm
    · -- the node is kept and the scan moves on
      simp only [Bool.not_eq_true] at he
      have hs2 : Seg h.cells 0 ((A ++ [(x.1, some x.2)]) ++
          (y.1, some y.2) :: (dataCells R ++ [(tl, none)])) 0 := by
        simpa using hs
      have hnd2 : (((A ++ [(x.1, some x.2)]) ++
          (y.1, some y.2) :: (dataCells R ++ [(tl, none)])).map Prod.fst).Nodup := by
        simpa using hnd
      obtain ⟨h', e3, s3, b3, f3⟩ := ih h (A ++ [(x.1, some x.2)]) y tl c f (by simp) hs2 hnd2
        (by simp at hf; omega)
      have hum : uniqueFrom (eqVal eq) x (y :: R) = x :: uniqueFrom (eqVal eq) y R := by
        simp [uniqueFrom, eqVal, he]
      refine ⟨h', ?_, ?_, b3, ?_⟩
      · have hcnt : c - ((y :: R).length + 1 - (x :: uniqueFrom (eqVal eq) y R).length) =
            c - (R.length + 1 - (uniqueFrom (eqVal eq) y R).length) := by
          simp only [List.length_cons]; omega
        rw [hum, hcnt, ← e3]
        simp only [list.unique_loop, hne, if_false, Heap.get_of hx, bind_ok, hyne,
          Heap.deref_of hx rfl, Heap.deref_of hy rfl, he, Bool.false_eq_true]
      · rw [hum]; simpa using s3
      · intro a ha
        apply f3
        intro hm; apply ha; clear * - hm
        simpa using hm

theorem uniqueFrom_sublist {α : Type} (eq : α → α → Bool) (a : α) (l : List α) :
    List.Sublist (uniqueFrom eq a l) (a :: l) := by
  induction l generalizing a with
  | nil => simp [uniqueFrom]
  | cons b l ih =>
    rw [uniqueFrom]
    split
    · exact (ih a).trans (List.Sublist.cons₂ a (List.sublist_cons_self b l))
    · exact List.Sublist.cons₂ a (ih b)

theorem uniqueSeq_sublist {α : Type} (eq : α → α → Bool) (l : List α) :
    List.Sublist (uniqueSeq eq l) l := by
  cases l with
  | nil => simp [uniqueSeq]
  | cons a l => exact uniqueFrom_sublist eq a l

theorem chainAddrs_sublist (L : list) {Z X : List (Nat × T)} (h : List.Sublist Z X) :
    List.Sublist (chainAddrs L Z) (chainAddrs L X) := by
  simp only [chainAddrs]
  exact List.Sublist.cons₂ _ (List.Sublist.append_right (h.map Prod.fst) _)

/-- The effect of `unique` on a represented list. -/
theorem unique_state_spec (eq : T → T → Bool) {s : State T} {this : Nat} {L : list}
    {X : List (Nat × T)} (hL : s.lists this = some L) (hX : Repr s.heap L X)
    (fuel : Nat) (hf : X.length < fuel) :
    ∃ s', list.unique eq fuel s this = .ok s' ∧
      s'.lists = Function.update s.lists this
        (some ⟨L.head, L.tail, (uniqueSeq (eqVal eq) X).length⟩) ∧
      Repr s'.heap ⟨L.head, L.tail, (uniqueSeq (eqVal eq) X).length⟩ (uniqueSeq (eqVal eq) X) ∧
      s'.heap.brk = s.heap.brk ∧
      (∀ a, a ∉ chainAddrs L X → s'.heap.cells a = s.heap.cells a) := by
  have hsmall : X.length ≤ 1 → ∃ s', list.unique eq fuel s this = .ok s' ∧
      s'.lists = Function.update s.lists this
        (some ⟨L.head, L.tail, (uniqueSeq (eqVal eq) X).length⟩) ∧
      Repr s'.heap ⟨L.head, L.tail, (uniqueSeq (eqVal eq) X).length⟩ (uniqueSeq (eqVal eq) X) ∧
      s'.heap.brk = s.heap.brk ∧
      (∀ a, a ∉ chainAddrs L X → s'.heap.cells a = s.heap.cells a) := by
    intro hc
    have hu : uniqueSeq (eqVal eq) X = X := by
      match X, hc with
      | [], _ => rfl
      | [x], _ => rfl
    have hLe : (⟨L.head, L.tail, X.length⟩ : list) = L := by
      rw [← hX.2.2.2]
    refine ⟨s, ?_, ?_, ?_, rfl, fun _ _ => rfl⟩
    · simp [list.unique, State.getList, hL, hX.2.2.2, hc]
    · rw [hu, hLe, ← hL]; exact (Function.update_eq_self this s.lists).symm
    · rw [hu, hLe]; exact hX
  match X, hX, hf, hsmall with
  | [], _, _, hsmall => exact hsmall (by simp)
  | [x], _, _, hsmall => exact hsmall (by simp)
  | x :: y :: R, hX, hf, _ =>
    have hseg : Seg s.heap.cells 0 ([(L.head, none)] ++
        (x.1, some x.2) :: (dataCells (y :: R) ++ [(L.tail, none)])) 0 := by
      simpa [chainOf] using hX.1
    have hnd : (([(L.head, (none : Option T))] ++
        (x.1, some x.2) :: (dataCells (y :: R) ++ [(L.tail, none)])).map Prod.fst).Nodup := by
      simpa [chainAddrs] using hX.2.1
    obtain ⟨h', e, s1, b1, f1⟩ := unique_loop_spec eq (y :: R) s.heap [(L.head, none)] x L.tail
      L.count fuel (by simp) hseg hnd (by simp at hf ⊢; omega)
    have hlen := uniqueFrom_length_le (eqVal eq) x (y :: R)
    have hcnt : L.count - ((y :: R).length + 1 - (uniqueFrom (eqVal eq) x (y :: R)).length) =
        (uniqueSeq (eqVal eq) (x :: y :: R)).length := by
      rw [hX.2.2.2, uniqueSeq]
      simp only [List.length_cons] at hlen ⊢
      omega
    rw [hcnt] at e
    have hsub := chainAddrs_sublist L (uniqueSeq_sublist (eqVal eq) (x :: y :: R))
    refine ⟨s.setList h' this ⟨L.head, L.tail, (uniqueSeq (eqVal eq) (x :: y :: R)).length⟩,
      ?_, rfl, ⟨?_, hX.2.1.sublist hsub, fun h0 => hX.2.2.1 (hsub.subset h0), rfl⟩, b1, ?_⟩
    · have hc : ¬ (L.count ≤ 1) := by rw [hX.2.2.2]; simp
      simp only [list.unique, State.getList, hL, bind_ok, hc, if_false,
        Heap.get_of hX.head_cell, dataCells_cons, nextOf_cons, e, pure_eq_ok]
    · simpa [chainOf, uniqueSeq] using s1
    · intro a ha
      apply f1
      intro hm; apply ha
      simpa [chainAddrs] using hm

theorem runs_cons_form {α : Type} (eq : α → α → Bool) (l : List α) :
    ∀ b, ∃ r rs, runs eq (b :: l) = (b :: r) :: rs ∧
      collapseRuns eq (b :: l) = b :: rs.filterMap List.head? ∧
      (rs.filterMap List.head?).length = rs.length := by
  induction l with
  | nil => intro b; exact ⟨[], [], rfl, rfl, rfl⟩
  | cons c l ih =>
    intro b
    obtain ⟨r, rs, h1, h2, h3⟩ := ih c
    by_cases he : eq b c = true
    · refine ⟨c :: r, rs, ?_, ?_, h3⟩
      · simp [runs, he, h1, pushRun]
      · simp [collapseRuns, runs, he, h1, pushRun]
    · refine ⟨[], (c :: r) :: rs, ?_, ?_, ?_⟩
      · simp [runs, he, h1]
      · simp [collapseRuns, runs, he, h1]
      · simp [h3]

theorem runs_length {α : Type} (eq : α → α → Bool) (l : List α) :
    (runs eq l).length = (collapseRuns eq l).length := by
  cases l with
  | nil => rfl
  | cons b l =>
    obtain ⟨r, rs, h1, h2, h3⟩ := runs_cons_form eq l b
    rw [h1, h2]; simp [h3]

theorem uniqueFrom_congr {α : Type} {eq : α → α → Bool} (h : IsEquivalence eq) {a b : α}
    (hab : eq a b = true) (l : List α) :
    uniqueFrom eq a l = a :: (uniqueFrom eq b l).tail := by
  induction l with
  | nil => rfl
  | cons c l ih =>
    have hac : eq a c = eq b c := by
      cases hbc : eq b c with
      | true => exact h.2.2 a b c hab hbc
      | false =>
        cases hac : eq a c with
        | false => rfl
        | true => rw [h.2.2 b a c (h.2.1 a b hab) hac] at hbc; cases hbc
    rw [uniqueFrom, uniqueFrom, hac]
    split
    · exact ih
    · rfl

theorem collapseRuns_eq_uniqueSeq {α : Type} {eq : α → α → Bool} (h : IsEquivalence eq)
    (l : List α) : collapseRuns eq l = uniqueSeq eq l := by
  cases l with
  | nil => rfl
  | cons a l =>
    rw [uniqueSeq]
    induction l generalizing a with
    | nil => rfl
    | cons b l ih =>
      obtain ⟨r, rs, h1, h2, -⟩ := runs_cons_form eq l b
      by_cases he : eq a b = true
      · have e1 : collapseRuns eq (a :: b :: l) = a :: rs.filterMap List.head? := by
          simp [collapseRuns, runs, he, h1, pushRun]
        rw [e1, uniqueFrom, if_pos he, uniqueFrom_congr h he l, ← ih b, h2]
        rfl
      · have e1 : collapseRuns eq (a :: b :: l) = a :: collapseRuns eq (b :: l) := by
          simp [collapseRuns, runs, he]
        rw [e1, uniqueFrom, if_neg he, ih b]

theorem uniqueFrom_map_snd (eq : T → T → Bool) (x : Nat × T) (R : List (Nat × T)) :
    (uniqueFrom (eqVal eq) x R).map Prod.snd = uniqueFrom eq x.2 (R.map Prod.snd) := by
  induction R generalizing x with
  | nil => rfl
  | cons y R ih =>
    simp only [uniqueFrom, List.map_cons, eqVal]
    split
    · exact ih x
    · simp [ih y]

theorem uniqueSeq_map_snd (eq : T → T → Bool) (X : List (Nat × T)) :
    (uniqueSeq (eqVal eq) X).map Prod.snd = uniqueSeq eq (X.map Prod.snd) := by
  cases X with
  | nil => rfl
  | cons x R => exact uniqueFrom_map_snd eq x R

theorem IsEquivalence.eqVal {eq : T → T → Bool} (h : IsEquivalence eq) :
    IsEquivalence (eqVal eq) :=
  ⟨fun a => h.1 a.2, fun a b => h.2.1 a.2 b.2, fun a b c => h.2.2 a.2 b.2 c.2⟩

theorem eqNat_equiv : IsEquivalence eqNat := by
  refine ⟨fun a => by simp [eqNat], fun a b => ?_, fun a b c => ?_⟩
  · simp only [eqNat, decide_eq_true_eq]; omega
  · simp only [eqNat, decide_eq_true_eq]; omega

/-- C5: for an equality that is an equivalence, `unique` leaves exactly the
first node of each maximal run of consecutive equal elements, in the original
order (the reference function `collapseRuns`), and `size()` is the number of
runs. -/
theorem unique_collapses (eq : T → T → Bool) (s : State T) (this : Nat) (L : list)
    (X : List (Nat × T)) (fuel : Nat)
    (hL : s.lists this = some L) (hX : Repr s.heap L X) (heq : IsEquivalence eq)
    (hf : X.length < fuel) :
    ∃ s' L', list.unique eq fuel s this = .ok s' ∧
      list.cells fuel s' this = .ok (collapseRuns (eqVal eq) X) ∧
      list.to_list fuel s' this = .ok (collapseRuns eq (X.map Prod.snd)) ∧
      list.size s' this = .ok (runs eq (X.map Prod.snd)).length ∧
      List.Sublist (collapseRuns (eqVal eq) X) X ∧
      s'.lists this = some L' ∧ Repr s'.heap L' (collapseRuns (eqVal eq) X) := by
  obtain ⟨s', e, hl, r, -, -⟩ := unique_state_spec eq hL hX fuel hf
  have hL' : s'.lists this = some ⟨L.head, L.tail, (uniqueSeq (eqVal eq) X).length⟩ := by
    rw [hl, Function.update_same]
  have hsub := uniqueSeq_sublist (eqVal eq) X
  have hlen : (uniqueSeq (eqVal eq) X).length < fuel := by
    have := hsub.length_le; omega
  have hv : (uniqueSeq (eqVal eq) X).map Prod.snd = collapseRuns eq (X.map Prod.snd) := by
    rw [uniqueSeq_map_snd, collapseRuns_eq_uniqueSeq heq]
  rw [collapseRuns_eq_uniqueSeq heq.eqVal]
  refine ⟨s', _, e, r.cells hL' fuel hlen, ?_, ?_, hsub, hL', r⟩
  · rw [← hv]; exact r.to_list hL' fuel hlen
  · rw [r.size hL', runs_length, ← hv, List.length_map]

theorem unique_collapses_witness :
    (∃ s' L', list.unique eqNat 4 exUnique 1 = .ok s' ∧
      list.cells 4 s' 1 = .ok (collapseRuns (eqVal eqNat) [(3, 1), (4, 1), (5, 2)]) ∧
      list.to_list 4 s' 1 = .ok (collapseRuns eqNat ([(3, 1), (4, 1), (5, 2)].map Prod.snd)) ∧
      list.size s' 1 = .ok (runs eqNat ([(3, 1), (4, 1), (5, 2)].map Prod.snd)).length ∧
      List.Sublist (collapseRuns (eqVal eqNat) [(3, 1), (4, 1), (5, 2)])
        [(3, 1), (4, 1), (5, 2)] ∧
      s'.lists 1 = some L' ∧
      Repr s'.heap L' (collapseRuns (eqVal eqNat) [(3, 1), (4, 1), (5, 2)])) ∧
    (list.to_list 4 exUnique 1).toOption = some [1, 1, 2] ∧
    (list.unique eqNat 4 exUnique 1 >>= fun s' => list.to_list 4 s' 1).toOption
      = some [1, 2] ∧
    (list.to_list 4 exUnique2 1).toOption = some [1, 2, 1] ∧
    (list.unique eqNat 4 exUnique2 1 >>= fun s' => list.to_list 4 s' 1).toOption
      = some [1, 2, 1] :=
  ⟨unique_collapses eqNat exUnique 1 ⟨1, 2, 3⟩ [(3, 1), (4, 1), (5, 2)] 4 (by decide!)
    (by decide!) eqNat_equiv (by decide), by decide!, by decide!, by decide!, by decide!⟩

/-! ## reverse -/

theorem lastOf_dataCells_reverse (R : List (Nat × T)) (tl : Nat) :
    lastOf (dataCells R.reverse) tl = nextOf (dataCells R) tl := by
  cases R with
  | nil => rfl
  | cons x R =>
    rw [List.reverse_cons, dataCells_append, dataCells_cons, dataCells_nil, lastOf_concat,
      dataCells_cons, nextOf_cons]

theorem nextOf_dataCells_reverse (R : List (Nat × T)) (hd : Nat) :
    nextOf (dataCells R.reverse) hd = lastOf (dataCells R) hd := by
  have := lastOf_dataCells_reverse R.reverse hd
  rw [List.reverse_reverse] at this
  exact this.symm

theorem reverse_loop_spec (R : List (Nat × T)) :
    ∀ (h : Heap T) (p0 n0 tl fuel : Nat),
      Seg h.cells p0 (dataCells R ++ [(tl, none)]) n0 →
      (R.map Prod.fst ++ [tl]).Nodup → R.length < fuel →
      ∃ h', list.reverse_loop fuel h tl (nextOf (dataCells R) tl) = .ok h' ∧
        Seg h'.cells tl (dataCells R.reverse) p0 ∧ h'.brk = h.brk ∧
        (∀ a, a ∉ R.map Prod.fst → h'.cells a = h.cells a) := by
  induction R with
  | nil =>
    intro h p0 n0 tl fuel _ _ hf
    obtain ⟨f, rfl⟩ : ∃ f, fuel = f + 1 := ⟨fuel - 1, by simp at hf; omega⟩
    exact ⟨h, by simp [list.reverse_loop], trivial, rfl, fun _ _ => rfl⟩
  | cons x R ih =>
    intro h p0 n0 tl fuel hs hnd hf
    obtain ⟨f, rfl⟩ : ∃ f, fuel = f + 1 := ⟨fuel - 1, by omega⟩
    rw [dataCells_cons, List.cons_append, seg_cons, nextOf_concat] at hs
    obtain ⟨hx, hR⟩ := hs
    have hx' : h.cells x.1 = some ⟨some x.2, p0, nextOf (dataCells R) tl⟩ := hx
    have hR' : Seg h.cells x.1 (dataCells R ++ [(tl, none)]) n0 := hR
    rw [List.map_cons, List.cons_append, List.nodup_cons] at hnd
    have hne : x.1 ≠ tl := fun e => hnd.1 (by simp [e])
    have hxR : x.1 ∉ R.map Prod.fst := fun hm => hnd.1 (by simp [hm])
    let h1 := h.put x.1 ⟨some x.2, nextOf (dataCells R) tl, p0⟩
    have hs1 : Seg h1.cells x.1 (dataCells R ++ [(tl, none)]) n0 := by
      refine hR'.frame ?_
      intro a ha
      have : a ≠ x.1 := by
        rintro rfl
        apply hnd.1
        simpa using ha
      exact Heap.put_cells_ne _ _ this
    obtain ⟨h', e, s1, b1, f1⟩ := ih h1 x.1 n0 tl f hs1 hnd.2 (by simp at hf; omega)
    refine ⟨h', ?_, ?_, by rw [b1]; rfl, ?_⟩
    · rw [← e]
      simp only [list.reverse_loop, dataCells_cons, nextOf_cons, hne, if_false,
        Heap.get_of hx', bind_ok, Heap.setNext_of hx']
      rw [Heap.setPrev_of (Heap.put_cells_same _ _ _)]
      simp only [bind_ok]
      congr 1
      simp [Heap.put, h1]
    · rw [List.reverse_cons, dataCells_append, seg_append]
      refine ⟨by simpa using s1, ?_, trivial⟩
      rw [lastOf_dataCells_reverse, f1 x.1 hxR]
      exact Heap.put_cells_same _ _ _
    · intro a ha
      have h1' : a ≠ x.1 := fun e => ha (by simp [e])
      have h2' : a ∉ R.map Prod.fst := fun hm => ha (by simp [hm])
      rw [f1 a h2']
      exact Heap.put_cells_ne _ _ h1'

theorem reverse_ends_spec {h1 : Heap T} (hd tl : Nat) (a b : Nat × T) (Q : List (Nat × T))
    (hhd : h1.cells hd = some ⟨none, 0, b.1⟩) (htl : h1.cells tl = some ⟨none, a.1, 0⟩)
    (sa : h1.cells a.1 = some ⟨some a.2, tl, nextOf (dataCells Q) b.1⟩)
    (sb : h1.cells b.1 = some ⟨some b.2, lastOf (dataCells Q) a.1, hd⟩)
    (sQ : Seg h1.cells a.1 (dataCells Q) b.1)
    (hnd : (hd :: a.1 :: (Q.map Prod.fst ++ [b.1, tl])).Nodup) :
    ∃ h5, list.reverse_ends h1 hd tl = .ok h5 ∧
      Seg h5.cells 0 ((hd, none) :: (dataCells (a :: (Q ++ [b])) ++ [(tl, none)])) 0 ∧
      h5.brk = h1.brk ∧
      (∀ x, x ∉ hd :: a.1 :: (Q.map Prod.fst ++ [b.1, tl]) → h5.cells x = h1.cells x) := by
  have hht : hd ≠ tl := by
    intro e; simp [e] at hnd
  have hab : a.1 ≠ b.1 := by
    intro e; simp [e] at hnd
  have hah : a.1 ≠ hd := by
    intro e; simp [e] at hnd
  have hat : a.1 ≠ tl := by
    intro e; simp [e] at hnd
  have hbh : b.1 ≠ hd := by
    intro e; simp [← e] at hnd
  have hbt : b.1 ≠ tl := by
    intro e; simp [List.nodup_append, e] at hnd
  have g2t : (h1.put hd ⟨none, 0, a.1⟩).cells tl = some ⟨none, a.1, 0⟩ := by
    rw [Heap.put_cells_ne _ _ (Ne.symm hht)]; exact htl
  have g3h : ((h1.put hd ⟨none, 0, a.1⟩).put tl ⟨none, b.1, 0⟩).cells hd =
      some ⟨none, 0, a.1⟩ := by
    rw [Heap.put_cells_ne _ _ hht]; exact Heap.put_cells_same _ _ _
  have g3a : ((h1.put hd ⟨none, 0, a.1⟩).put tl ⟨none, b.1, 0⟩).cells a.1 =
      some ⟨some a.2, tl, nextOf (dataCells Q) b.1⟩ := by
    rw [Heap.put_cells_ne _ _ hat, Heap.put_cells_ne _ _ hah]; exact sa
  have g4t : (((h1.put hd ⟨none, 0, a.1⟩).put tl ⟨none, b.1, 0⟩).put a.1
      ⟨some a.2, hd, nextOf (dataCells Q) b.1⟩).cells tl = some ⟨none, b.1, 0⟩ := by
    rw [Heap.put_cells_ne _ _ (Ne.symm hat)]; exact Heap.put_cells_same _ _ _
  have g4b : (((h1.put hd ⟨none, 0, a.1⟩).put tl ⟨none, b.1, 0⟩).put a.1
      ⟨some a.2, hd, nextOf (dataCells Q) b.1⟩).cells b.1 =
      some ⟨some b.2, lastOf (dataCells Q) a.1, hd⟩ := by
    rw [Heap.put_cells_ne _ _ (Ne.symm hab), Heap.put_cells_ne _ _ hbt,
      Heap.put_cells_ne _ _ hbh]; exact sb
  refine ⟨((((h1.put hd ⟨none, 0, a.1⟩).put tl ⟨none, b.1, 0⟩).put a.1
      ⟨some a.2, hd, nextOf (dataCells Q) b.1⟩).put b.1
      ⟨some b.2, lastOf (dataCells Q) a.1, tl⟩), ?_, ?_, rfl, ?_⟩
  · simp only [list.reverse_ends, Heap.get_of hhd, Heap.get_of htl, bind_ok,
      Heap.setNext_of hhd, Heap.setPrev_of g2t, Heap.get_of g3h, Heap.setPrev_of g3a,
      Heap.get_of g4t, Heap.setNext_of g4b]
  · rw [seg_cons, dataCells_cons, dataCells_append, dataCells_cons, dataCells_nil,
      List.cons_append, seg_cons, List.append_assoc, seg_append]
    refine ⟨?_, ?_, ?_, ?_, ?_, trivial⟩
    · rw [Heap.put_cells_ne _ _ (Ne.symm hbh), Heap.put_cells_ne _ _ (Ne.symm hah), g3h]
      rfl
    · rw [Heap.put_cells_ne _ _ hab, Heap.put_cells_same]
      simp [nextOf_append]
    · refine Seg.frame (by simpa using sQ) ?_
      intro x hx
      have hxm : x ∈ Q.map Prod.fst := by simpa using hx
      have x1 : x ≠ b.1 := by
        rintro rfl; simp [List.nodup_append, hxm] at hnd
      have x2 : x ≠ a.1 := by
        rintro rfl; simp [hxm] at hnd
      have x3 : x ≠ hd := by
        rintro rfl; simp [hxm] at hnd
      have x4 : x ≠ tl := by
        rintro rfl; simp [List.nodup_append, hxm] at hnd
      rw [Heap.put_cells_ne _ _ x1, Heap.put_cells_ne _ _ x2, Heap.put_cells_ne _ _ x4,
        Heap.put_cells_ne _ _ x3]
    · rw [Heap.put_cells_same]; rfl
    · rw [Heap.put_cells_ne _ _ (Ne.symm hbt), g4t]
      simp [lastOf_append]
  · intro x hx
    have x1 : x ≠ b.1 := by rintro rfl; apply hx; simp
    have x2 : x ≠ a.1 := by rintro rfl; apply hx; simp
    have x3 : x ≠ hd := by rintro rfl; apply hx; simp
    have x4 : x ≠ tl := by rintro rfl; apply hx; simp
    rw [Heap.put_cells_ne _ _ x1, Heap.put_cells_ne _ _ x2, Heap.put_cells_ne _ _ x4,
      Heap.put_cells_ne _ _ x3]

/-- The effect of `reverse` on a represented list. -/
theorem reverse_state_spec {s : State T} {this : Nat} {L : list} {X : List (Nat × T)}
    (hL : s.lists this = some L) (hX : Repr s.heap L X) (fuel : Nat) (hf : X.length < fuel) :
    ∃ s', list.reverse fuel s this = .ok s' ∧ s'.lists = s.lists ∧
      Repr s'.heap L X.reverse ∧ s'.heap.brk = s.heap.brk ∧
      (X.length ≤ 1 → s' = s) ∧
      (∀ a, a ∉ chainAddrs L X → s'.heap.cells a = s.heap.cells a) := by
  have hsmall : X.length ≤ 1 → ∃ s', list.reverse fuel s this = .ok s' ∧ s'.lists = s.lists ∧
      Repr s'.heap L X.reverse ∧ s'.heap.brk = s.heap.brk ∧ (X.length ≤ 1 → s' = s) ∧
      (∀ a, a ∉ chainAddrs L X → s'.heap.cells a = s.heap.cells a) := by
    intro hc
    have hu : X.reverse = X := by
      match X, hc with
      | [], _ => rfl
      | [x], _ => rfl
    refine ⟨s, ?_, rfl, by rw [hu]; exact hX, rfl, fun _ => rfl, fun _ _ => rfl⟩
    simp [list.reverse, State.getList, hL, hX.2.2.2, hc]
  match X, hX, hf, hsmall with
  | [], _, _, hsmall => exact hsmall (by simp)
  | [x], _, _, hsmall => exact hsmall (by simp)
  | b :: y :: R, hX, hf, _ =>
    obtain ⟨N, a, hN⟩ := exists_concat (y :: R) (by simp)
    rw [hN] at hX hf ⊢
    clear hN
    have hnd := hX.2.1
    simp only [chainAddrs, List.map_cons, List.map_append, List.map_nil] at hnd
    have hnd1 : ((b :: (N ++ [a])).map Prod.fst ++ [L.tail]).Nodup := by
      simpa using (List.nodup_cons.1 hnd).2
    obtain ⟨h1, e1, s1, b1, f1⟩ := reverse_loop_spec (b :: (N ++ [a])) s.heap L.head 0 L.tail
      fuel hX.data_seg hnd1 hf
    have hrev : (b :: (N ++ [a])).reverse = a :: (N.reverse ++ [b]) := by simp
    rw [hrev, dataCells_cons, dataCells_append, dataCells_cons, dataCells_nil, seg_cons,
      seg_append, nextOf_concat] at s1
    obtain ⟨sa, sN, sb, -⟩ := s1
    have hhd_not : L.head ∉ (b :: (N ++ [a])).map Prod.fst := by
      intro hm
      exact (List.nodup_cons.1 hnd).1 (by simp at hm ⊢; tauto)
    have htl_not : L.tail ∉ (b :: (N ++ [a])).map Prod.fst := by
      intro hm
      have := (List.nodup_append.1 hnd1).2.2
      exact this hm (by simp)
    have hhd : h1.cells L.head = some ⟨none, 0, b.1⟩ := by
      rw [f1 _ hhd_not, hX.head_cell]; rfl
    have htl : h1.cells L.tail = some ⟨none, a.1, 0⟩ := by
      rw [f1 _ htl_not, hX.tail_cell, dataCells_cons, lastOf_cons, dataCells_append,
        dataCells_cons, dataCells_nil, lastOf_concat]
    have hperm : (L.head :: a.1 :: (N.reverse.map Prod.fst ++ [b.1, L.tail])).Perm
        (chainAddrs L (b :: (N ++ [a]))) := by
      classical
      rw [List.perm_iff_count]
      intro x
      have h2 := ((List.reverse_perm N).map Prod.fst).count_eq x
      simp only [chainAddrs, List.map_cons, List.map_append, List.map_nil, List.count_cons,
        List.count_append, List.count_nil] at h2 ⊢
      omega
    obtain ⟨h5, e5, s5, b5, f5⟩ := reverse_ends_spec L.head L.tail a b N.reverse hhd htl sa sb
      sN ((List.Perm.nodup_iff hperm).2 hX.2.1)
    refine ⟨{ heap := h5, lists := s.lists }, ?_, rfl, ⟨?_, ?_, ?_, ?_⟩, by rw [← b1]; exact b5,
      fun hc => by simp at hc, ?_⟩
    · have hc : ¬ (L.count ≤ 1) := by rw [hX.2.2.2]; simp
      simp only [list.reverse, State.getList, hL, bind_ok, hc, if_false,
        Heap.get_of hX.head_cell, e1, e5, pure_eq_ok]
    · rw [hrev]; exact s5
    · exact (List.Perm.nodup_iff (by
        simp only [chainAddrs]
        exact ((List.reverse_perm _).map Prod.fst |>.append_right _).cons _)).2 hX.2.1
    · intro h0
      apply hX.2.2.1
      simp only [chainAddrs, List.mem_cons, List.mem_append, List.mem_map, List.mem_reverse]
        at h0 ⊢
      exact h0
    · rw [List.length_reverse]; exact hX.2.2.2
    · intro x hx
      have hx5 : x ∉ L.head :: a.1 :: (N.reverse.map Prod.fst ++ [b.1, L.tail]) :=
        fun hm => hx (hperm.mem_iff.1 hm)
      have hx1 : x ∉ (b :: (N ++ [a])).map Prod.fst := by
        intro hm; apply hx; simp only [chainAddrs]
        exact List.mem_cons_of_mem _ (List.mem_append_left _ hm)
      rw [f5 x hx5, f1 x hx1]

/-- C6: after `reverse` the forward traversal is exactly the reverse of the
forward traversal before (the same nodes, in the opposite order), `size()` is
unchanged, and a second `reverse` restores the original forward order. -/
theorem reverse_reverses (s : State T) (this : Nat) (L : list) (X : List (Nat × T))
    (fuel : Nat) (hL : s.lists this = some L) (hX : Repr s.heap L X) (hf : X.length < fuel) :
    ∃ s' s'', list.reverse fuel s this = .ok s' ∧
      list.cells fuel s this = .ok X ∧ list.cells fuel s' this = .ok X.reverse ∧
      list.to_list fuel s this = .ok (X.map Prod.snd) ∧
      list.to_list fuel s' this = .ok (X.map Prod.snd).reverse ∧
      list.size s this = .ok X.length ∧ list.size s' this = .ok X.length ∧
      Repr s'.heap L X.reverse ∧
      list.reverse fuel s' this = .ok s'' ∧
      list.cells fuel s'' this = .ok X ∧
      list.to_list fuel s'' this = .ok (X.map Prod.snd) ∧
      list.size s'' this = .ok X.length ∧ Repr s''.heap L X := by
  obtain ⟨s', e1, l1, r1, -, -, -⟩ := reverse_state_spec hL hX fuel hf
  have hL' : s'.lists this = some L := by rw [l1]; exact hL
  have hf' : X.reverse.length < fuel := by rw [List.length_reverse]; exact hf
  obtain ⟨s'', e2, l2, r2, -, -, -⟩ := reverse_state_spec hL' r1 fuel hf'
  have hL'' : s''.lists this = some L := by rw [l2]; exact hL'
  rw [List.reverse_reverse] at r2
  refine ⟨s', s'', e1, hX.cells hL fuel hf, r1.cells hL' fuel hf', hX.to_list hL fuel hf, ?_,
    hX.size hL, ?_, r1, e2, r2.cells hL'' fuel hf, r2.to_list hL'' fuel hf, r2.size hL'', r2⟩
  · rw [← List.map_reverse]; exact r1.to_list hL' fuel hf'
  · rw [r1.size hL', List.length_reverse]

theorem reverse_reverses_witness :
    ∃ s' s'', list.reverse 4 exSortList 1 = .ok s' ∧
      list.cells 4 exSortList 1 = .ok [(3, 3), (4, 1), (5, 2)] ∧
      list.cells 4 s' 1 = .ok [(3, 3), (4, 1), (5, 2)].reverse ∧
      list.to_list 4 exSortList 1 = .ok ([(3, 3), (4, 1), (5, 2)].map Prod.snd) ∧
      list.to_list 4 s' 1 = .ok ([(3, 3), (4, 1), (5, 2)].map Prod.snd).reverse ∧
      list.size exSortList 1 = .ok 3 ∧ list.size s' 1 = .ok 3 ∧
      Repr s'.heap ⟨1, 2, 3⟩ [(3, 3), (4, 1), (5, 2)].reverse ∧
      list.reverse 4 s' 1 = .ok s'' ∧
      list.cells 4 s'' 1 = .ok [(3, 3), (4, 1), (5, 2)] ∧
      list.to_list 4 s'' 1 = .ok ([(3, 3), (4, 1), (5, 2)].map Prod.snd) ∧
      list.size s'' 1 = .ok 3 ∧ Repr s''.heap ⟨1, 2, 3⟩ [(3, 3), (4, 1), (5, 2)] :=
  reverse_reverses exSortList 1 ⟨1, 2, 3⟩ [(3, 3), (4, 1), (5, 2)] 4 (by decide!) (by decide!)
    (by decide)

/-! ## insert and erase -/

theorem Repr.reframe {h h' : Heap T} {L : list} {X : List (Nat × T)} (hR : Repr h L X)
    (hf : ∀ a ∈ chainAddrs L X, h'.cells a = h.cells a) : Repr h' L X :=
  ⟨hR.1.frame (by rw [chainOf_fst]; exact hf), hR.2.1, hR.2.2.1, hR.2.2.2⟩

theorem Repr.live {h : Heap T} {L : list} {X : List (Nat × T)} (hR : Repr h L X)
    {a : Nat} (ha : a ∈ chainAddrs L X) : h.cells a ≠ none := by
  rw [← chainOf_fst] at ha
  obtain ⟨c, hc, rfl⟩ := List.mem_map.1 ha
  obtain ⟨p, n, hcell⟩ := hR.1.mem_cell hc
  rw [hcell]; simp

theorem split_at_addr (X : List (Nat × T)) (tl p : Nat) (hp : p ∈ X.map Prod.fst ++ [tl]) :
    ∃ pre post, X = pre ++ post ∧ p = nextOf (dataCells post) tl := by
  rcases List.mem_append.1 hp with h | h
  · obtain ⟨x, hx, rfl⟩ := List.mem_map.1 h
    obtain ⟨pre, post, rfl⟩ := List.append_of_mem hx
    exact ⟨pre, x :: post, rfl, rfl⟩
  · simp only [List.mem_singleton] at h
    exact ⟨X, [], by simp, by simp [h]⟩

/-- Linking a freshly allocated node holding `v` before the node `pos` of a
represented list. -/
theorem insert_heap_spec {h : Heap T} {L : list} (pre post : List (Nat × T)) (v : T)
    (hX : Repr h L (pre ++ post)) (hfr : h.Fresh) :
    ∃ h', list.insert_node (h.alloc (some v)).1 (nextOf (dataCells post) L.tail) h.brk =
        .ok (h', h.brk) ∧
      Repr h' ⟨L.head, L.tail, L.count + 1⟩ (pre ++ (h.brk, v) :: post) ∧
      h'.brk = h.brk + 1 ∧
      (∀ x, x ∉ chainAddrs L (pre ++ post) → x ≠ h.brk → h'.cells x = h.cells x) := by
  have hbn : h.brk ∉ chainAddrs L (pre ++ post) := fun hm => hX.live hm hfr.2
  have hcells : (h.alloc (some v)).1.cells = Function.update h.cells h.brk
      (some ⟨some v, 0, 0⟩) := rfl
  have hs0 : Seg (h.alloc (some v)).1.cells 0
      (((L.head, none) :: dataCells pre) ++ (dataCells post ++ [(L.tail, none)])) 0 := by
    have : Seg (h.alloc (some v)).1.cells 0 (chainOf L (pre ++ post)) 0 := by
      refine hX.1.frame ?_
      intro a ha
      rw [chainOf_fst] at ha
      have : a ≠ h.brk := fun e => hbn (e ▸ ha)
      rw [hcells, Function.update_noteq this]
    simpa [chainOf, dataCells_append] using this
  have hnd0 : ((((L.head, (none : Option T)) :: dataCells pre) ++
      (dataCells post ++ [(L.tail, none)])).map Prod.fst).Nodup := by
    have := hX.2.1
    simpa [chainAddrs] using this
  have hnot : h.brk ∉ (((L.head, (none : Option T)) :: dataCells pre) ++
      (dataCells post ++ [(L.tail, none)])).map Prod.fst := by
    intro hm; apply hbn; simpa [chainAddrs] using hm
  obtain ⟨h', e, s1, b1, f1⟩ := insert_node_gen ((L.head, none) :: dataCells pre)
    (dataCells post ++ [(L.tail, none)]) (by simp) (by simp) h.brk (some v) 0 0 hs0 hnd0
    (by rw [hcells, Function.update_same]) hnot
  rw [nextOf_concat] at e
  have hpa : (chainAddrs ⟨L.head, L.tail, L.count + 1⟩ (pre ++ (h.brk, v) :: post)).Perm
      (h.brk :: chainAddrs L (pre ++ post)) := by
    classical
    rw [List.perm_iff_count]
    intro a
    simp only [chainAddrs, List.map_append, List.map_cons, List.count_append, List.count_cons]
    omega
  refine ⟨h', e, ⟨?_, ?_, ?_, ?_⟩, b1, ?_⟩
  · simpa [chainOf, dataCells_append] using s1
  · exact (List.Perm.nodup_iff hpa).2 (List.nodup_cons.2 ⟨hbn, hX.2.1⟩)
  · intro h0
    rcases List.mem_cons.1 (hpa.mem_iff.1 h0) with h0 | h0
    · exact hfr.1 h0.symm
    · exact hX.2.2.1 h0
  · show L.count + 1 = _
    rw [hX.2.2.2]; simp only [List.length_append, List.length_cons]; omega
  · intro x hx hxb
    rw [f1 x (by intro hm; apply hx; simpa [chainAddrs] using hm) hxb, hcells,
      Function.update_noteq hxb]

/-- The effect of `insert` before the first node of `post` (before `end()`
when `post` is empty). -/
theorem insert_state_spec {s : State T} {this : Nat} {L : list} (pre post : List (Nat × T))
    (v : T) (hL : s.lists this = some L) (hX : Repr s.heap L (pre ++ post))
    (hfr : s.heap.Fresh) :
    ∃ s', list.insert s this ⟨nextOf (dataCells post) L.tail, this⟩ v =
        .ok (s', ⟨s.heap.brk, this⟩) ∧
      s'.lists = Function.update s.lists this (some ⟨L.head, L.tail, L.count + 1⟩) ∧
      Repr s'.heap ⟨L.head, L.tail, L.count + 1⟩ (pre ++ (s.heap.brk, v) :: post) ∧
      s'.heap.brk = s.heap.brk + 1 ∧
      (∀ x, x ∉ chainAddrs L (pre ++ post) → x ≠ s.heap.brk →
        s'.heap.cells x = s.heap.cells x) := by
  obtain ⟨h', e, r, b, f⟩ := insert_heap_spec pre post v hX hfr
  refine ⟨s.setList h' this ⟨L.head, L.tail, L.count + 1⟩, ?_, rfl, r, b, f⟩
  have e' : list.insert_node (s.heap.alloc (some v)).1 (nextOf (dataCells post) L.tail)
      (s.heap.alloc (some v)).2 = .ok (h', s.heap.brk) := e
  simp only [list.insert, State.getList, hL, bind_ok, ne_eq, not_true_eq_false, if_false,
    e', pure_eq_ok]
  rfl

/-- The effect of `push_back`. -/
theorem push_back_state_spec {s : State T} {this : Nat} {L : list} (X : List (Nat × T))
    (v : T) (hL : s.lists this = some L) (hX : Repr s.heap L X) (hfr : s.heap.Fresh) :
    ∃ s', list.push_back s this v = .ok s' ∧
      s'.lists = Function.update s.lists this (some ⟨L.head, L.tail, L.count + 1⟩) ∧
      Repr s'.heap ⟨L.head, L.tail, L.count + 1⟩ (X ++ [(s.heap.brk, v)]) ∧
      s'.heap.brk = s.heap.brk + 1 ∧
      (∀ x, x ∉ chainAddrs L X → x ≠ s.heap.brk → s'.heap.cells x = s.heap.cells x) := by
  have hX' : Repr s.heap L (X ++ []) := by simpa using hX
  obtain ⟨h', e, r, b, f⟩ := insert_heap_spec X [] v hX' hfr
  refine ⟨s.setList h' this ⟨L.head, L.tail, L.count + 1⟩, ?_, rfl, r, b, by simpa using f⟩
  have e' : list.insert_node (s.heap.alloc (some v)).1 L.tail (s.heap.alloc (some v)).2 =
      .ok (h', s.heap.brk) := e
  simp only [list.push_back, State.getList, hL, bind_ok, e', pure_eq_ok]

/-- The effect of `push_front`. -/
theorem push_front_state_spec {s : State T} {this : Nat} {L : list} (X : List (Nat × T))
    (v : T) (hL : s.lists this = some L) (hX : Repr s.heap L X) (hfr : s.heap.Fresh) :
    ∃ s', list.push_front s this v = .ok s' ∧
      s'.lists = Function.update s.lists this (some ⟨L.head, L.tail, L.count + 1⟩) ∧
      Repr s'.heap ⟨L.head, L.tail, L.count + 1⟩ ((s.heap.brk, v) :: X) ∧
      s'.heap.brk = s.heap.brk + 1 ∧
      (∀ x, x ∉ chainAddrs L X → x ≠ s.heap.brk → s'.heap.cells x = s.heap.cells x) := by
  have hX' : Repr s.heap L ([] ++ X) := by simpa using hX
  obtain ⟨h', e, r, b, f⟩ := insert_heap_spec [] X v hX' hfr
  refine ⟨s.setList h' this ⟨L.head, L.tail, L.count + 1⟩, ?_, rfl, by simpa using r, b,
    by simpa using f⟩
  have hhd : (s.heap.alloc (some v)).1.cells L.head =
      some ⟨none, 0, nextOf (dataCells X) L.tail⟩ := by
    have hne : L.head ≠ s.heap.brk := by
      intro e0
      exact hX.live (by simp [chainAddrs] : L.head ∈ chainAddrs L X) (e0 ▸ hfr.2)
    show Function.update s.heap.cells s.heap.brk _ L.head = _
    rw [Function.update_noteq hne]; exact hX.head_cell
  have e' : list.insert_node (s.heap.alloc (some v)).1 (nextOf (dataCells X) L.tail)
      (s.heap.alloc (some v)).2 = .ok (h', s.heap.brk) := e
  simp only [list.push_front, State.getList, hL, bind_ok, Heap.get_of hhd, e', pure_eq_ok]

/-- Unlinking and deleting the node `x` of a represented list. -/
theorem erase_heap_spec {h : Heap T} {L : list} (pre : List (Nat × T)) (x : Nat × T)
    (post : List (Nat × T)) (hX : Repr h L (pre ++ x :: post)) :
    ∃ h1 h', list.erase_node h x.1 = .ok (h1, x.1) ∧ h1.free x.1 = .ok h' ∧
      Repr h' ⟨L.head, L.tail, L.count - 1⟩ (pre ++ post) ∧ h'.brk = h.brk ∧
      h'.cells x.1 = none ∧
      (∀ a, a ∉ chainAddrs L (pre ++ x :: post) → h'.cells a = h.cells a) := by
  have hs0 : Seg h.cells 0 (((L.head, none) :: dataCells pre) ++
      (x.1, some x.2) :: (dataCells post ++ [(L.tail, none)])) 0 := by
    simpa [chainOf, dataCells_append] using hX.1
  have hnd0 : ((((L.head, (none : Option T)) :: dataCells pre) ++
      (x.1, some x.2) :: (dataCells post ++ [(L.tail, none)])).map Prod.fst).Nodup := by
    simpa [chainAddrs] using hX.2.1
  obtain ⟨h1, e1, s1, b1, c1, f1⟩ := erase_node_gen ((L.head, none) :: dataCells pre)
    (dataCells post ++ [(L.tail, none)]) (by simp) (by simp) x.1 (some x.2) hs0 hnd0
  obtain ⟨p, n, hx⟩ := hX.data_cell (by simp : x ∈ pre ++ x :: post)
  have hxn : x.1 ∉ (((L.head, (none : Option T)) :: dataCells pre) ++
      (dataCells post ++ [(L.tail, none)])).map Prod.fst := by
    rw [List.map_append, List.map_cons] at hnd0
    rw [List.map_append]
    exact (List.nodup_cons.1 (List.nodup_middle.1 hnd0)).1
  have hsub : List.Sublist (chainAddrs ⟨L.head, L.tail, L.count - 1⟩ (pre ++ post))
      (chainAddrs L (pre ++ x :: post)) :=
    chainAddrs_sublist L (List.Sublist.append_left (List.sublist_cons_self x post) pre)
  refine ⟨h1, ⟨Function.update h1.cells x.1 none, h1.brk⟩, e1, Heap.free_of (c1.trans hx),
    ⟨?_, hX.2.1.sublist hsub, fun h0 => hX.2.2.1 (hsub.subset h0), ?_⟩, b1, ?_, ?_⟩
  · have : Seg (Function.update h1.cells x.1 none) 0 (((L.head, none) :: dataCells pre) ++
        (dataCells post ++ [(L.tail, none)])) 0 := by
      refine s1.frame ?_
      intro a ha
      have : a ≠ x.1 := fun e => hxn (e ▸ ha)
      rw [Function.update_noteq this]
    simpa [chainOf, dataCells_append] using this
  · show L.count - 1 = _
    rw [hX.2.2.2]; simp only [List.length_append, List.length_cons]; omega
  · simp
  · intro a ha
    have hax : a ≠ x.1 := by rintro rfl; apply ha; simp [chainAddrs]
    show Function.update h1.cells x.1 none a = _
    rw [Function.update_noteq hax]
    apply f1
    intro hm; apply ha
    have : a ∈ chainAddrs ⟨L.head, L.tail, L.count - 1⟩ (pre ++ post) := by
      simpa [chainAddrs] using hm
    exact hsub.subset this

/-- The effect of `erase` at the node `x`. -/
theorem erase_state_spec {s : State T} {this : Nat} {L : list} (pre : List (Nat × T))
    (x : Nat × T) (post : List (Nat × T)) (hL : s.lists this = some L)
    (hX : Repr s.heap L (pre ++ x :: post)) :
    ∃ s', list.erase s this ⟨x.1, this⟩ =
        .ok (s', ⟨nextOf (dataCells post) L.tail, this⟩) ∧
      s'.lists = Function.update s.lists this (some ⟨L.head, L.tail, L.count - 1⟩) ∧
      Repr s'.heap ⟨L.head, L.tail, L.count - 1⟩ (pre ++ post) ∧
      s'.heap.brk = s.heap.brk ∧ s'.heap.cells x.1 = none ∧
      (∀ a, a ∉ chainAddrs L (pre ++ x :: post) → s'.heap.cells a = s.heap.cells a) := by
  obtain ⟨h1, h', e1, e2, r, b, c, f⟩ := erase_heap_spec pre x post hX
  refine ⟨s.setList h' this ⟨L.head, L.tail, L.count - 1⟩, ?_, rfl, r, b, c, f⟩
  have hs0 : Seg s.heap.cells 0 (((L.head, none) :: dataCells pre) ++
      (x.1, some x.2) :: (dataCells post ++ [(L.tail, none)])) 0 := by
    simpa [chainOf, dataCells_append] using hX.1
  rw [seg_append] at hs0
  obtain ⟨-, hx0⟩ := hs0
  rw [seg_cons, nextOf_concat] at hx0
  have hx : s.heap.cells x.1 = some ⟨some x.2, _, nextOf (dataCells post) L.tail⟩ := hx0.1
  have hc : ¬ (L.count = 0) := by rw [hX.2.2.2]; simp
  have hxz : ¬ (x.1 = 0) := fun e0 => hX.zero_not_mem (by simp [← e0])
  simp only [list.erase, State.getList, hL, bind_ok, hc, if_false, ne_eq, not_true_eq_false,
    hxz, Heap.get_of hx, e1, e2, pure_eq_ok]

theorem Repr.star {s : State T} {L : list} {X : List (Nat × T)} (hR : Repr s.heap L X)
    {x : Nat × T} (hx : x ∈ X) (lst : Nat) : iterator.star s ⟨x.1, lst⟩ = .ok x.2 := by
  obtain ⟨p, n, hc⟩ := hR.data_cell hx
  have hz : ¬ (x.1 = 0) := fun e => hR.zero_not_mem (by rw [← e]; exact List.mem_map_of_mem _ hx)
  simp [iterator.star, hz, Heap.get_of hc]

/-- C8: `insert(pos, v)` with `pos` an iterator of this list at a data node or
at `end()` puts a new node holding `v` immediately before the node at `pos`
(`post` is the part of the sequence from `pos` on, empty for `end()`), keeps
all other elements in order, grows `size()` by one, and returns an iterator of
this list that dereferences to `v`. -/
theorem insert_success (s : State T) (this : Nat) (L : list) (X : List (Nat × T))
    (pos : iterator) (v : T) (hL : s.lists this = some L) (hX : Repr s.heap L X)
    (hfr : s.heap.Fresh) (hlst : pos.lst = this)
    (hptr : pos.ptr ∈ X.map Prod.fst ++ [L.tail]) :
    ∃ s' it pre post, X = pre ++ post ∧ pos.ptr = nextOf (dataCells post) L.tail ∧
      list.insert s this pos v = .ok (s', it) ∧
      (∀ fuel, X.length + 1 < fuel →
        list.cells fuel s' this = .ok (pre ++ (it.ptr, v) :: post)) ∧
      (∀ fuel, X.length + 1 < fuel →
        list.to_list fuel s' this = .ok (pre.map Prod.snd ++ v :: post.map Prod.snd)) ∧
      list.size s this = .ok X.length ∧ list.size s' this = .ok (X.length + 1) ∧
      it.lst = this ∧ iterator.star s' it = .ok v ∧ it.ptr ∉ X.map Prod.fst ∧
      ∃ L', s'.lists this = some L' ∧ Repr s'.heap L' (pre ++ (it.ptr, v) :: post) := by
  obtain ⟨pre, post, rfl, hp⟩ := split_at_addr X L.tail pos.ptr hptr
  obtain ⟨s', e, hl, r, -, -⟩ := insert_state_spec pre post v hL hX hfr
  have hpos : pos = ⟨nextOf (dataCells post) L.tail, this⟩ := by
    cases pos; simp only [iterator.mk.injEq]; exact ⟨hp, hlst⟩
  have hL' : s'.lists this = some ⟨L.head, L.tail, L.count + 1⟩ := by
    rw [hl, Function.update_same]
  have hlen : (pre ++ (s.heap.brk, v) :: post).length = (pre ++ post).length + 1 := by
    simp only [List.length_append, List.length_cons]; omega
  refine ⟨s', ⟨s.heap.brk, this⟩, pre, post, rfl, hp, by rw [hpos]; exact e, ?_, ?_,
    hX.size hL, ?_, rfl, ?_, ?_, _, hL', r⟩
  · intro fuel hf
    exact r.cells hL' fuel (by omega)
  · intro fuel hf
    have := r.to_list hL' fuel (by omega)
    simpa using this
  · rw [r.size hL', hlen]
  · exact r.star (by simp : (s.heap.brk, v) ∈ pre ++ (s.heap.brk, v) :: post) this
  · intro hm
    have hmem : s.heap.brk ∈ chainAddrs L (pre ++ post) :=
      List.mem_cons_of_mem _ (List.mem_append_left _ hm)
    exact hX.live hmem hfr.2

theorem insert_success_witness :
    ∃ s' it pre post, [(5, 1), (6, 3), (7, 5)] = pre ++ post ∧
      (⟨6, 1⟩ : iterator).ptr = nextOf (dataCells post) (⟨1, 2, 3⟩ : list).tail ∧
      list.insert exMerge 1 ⟨6, 1⟩ 9 = .ok (s', it) ∧
      (∀ fuel, [(5, 1), (6, 3), (7, 5)].length + 1 < fuel →
        list.cells fuel s' 1 = .ok (pre ++ (it.ptr, 9) :: post)) ∧
      (∀ fuel, [(5, 1), (6, 3), (7, 5)].length + 1 < fuel →
        list.to_list fuel s' 1 = .ok (pre.map Prod.snd ++ 9 :: post.map Prod.snd)) ∧
      list.size exMerge 1 = .ok [(5, 1), (6, 3), (7, 5)].length ∧
      list.size s' 1 = .ok ([(5, 1), (6, 3), (7, 5)].length + 1) ∧
      it.lst = 1 ∧ iterator.star s' it = .ok 9 ∧
      it.ptr ∉ [(5, 1), (6, 3), (7, 5)].map Prod.fst ∧
      ∃ L', s'.lists 1 = some L' ∧ Repr s'.heap L' (pre ++ (it.ptr, 9) :: post) :=
  insert_success exMerge 1 ⟨1, 2, 3⟩ [(5, 1), (6, 3), (7, 5)] ⟨6, 1⟩ 9 (by decide!)
    (by decide!) (by decide!) rfl (by decide)

/-- C10: on a list with `count = 0`, `erase` fails with `container_is_empty`
whatever iterator is passed; on a list with `count > 0`, `erase` fails with
`invalid_iterator` when `pos` is `end()`, a default-constructed iterator, or
an iterator whose owning list is another list. -/
theorem erase_failures (s : State T) (this : Nat) (L : list) (X : List (Nat × T))
    (pos : iterator) (hL : s.lists this = some L) (hX : Repr s.heap L X) :
    (L.count = 0 → list.erase s this pos = .error .container_is_empty) ∧
    (L.count ≠ 0 →
      (list.end_ s this = .ok pos ∨ pos = ⟨0, 0⟩ ∨ pos.lst ≠ this) →
      list.erase s this pos = .error .invalid_iterator) := by
  refine ⟨fun hc => by simp [list.erase, State.getList, hL, hc], fun hc hp => ?_⟩
  by_cases hl : pos.lst = this
  · rcases hp with hp | hp | hp
    · simp only [list.end_, State.getList, hL, bind_ok, pure_eq_ok, Except.ok.injEq] at hp
      subst hp
      simp [list.erase, State.getList, hL, hc, hX.tail_ne_zero, Heap.get_of hX.tail_cell]
    · subst hp
      simp [list.erase, State.getList, hL, hc]
    · exact absurd hl hp
  · simp [list.erase, State.getList, hL, hc, hl]

theorem erase_failures_witness :
    ((⟨1, 2, 3⟩ : list).count = 0 →
      list.erase exMerge 1 ⟨2, 1⟩ = .error .container_is_empty) ∧
    ((⟨1, 2, 3⟩ : list).count ≠ 0 →
      (list.end_ exMerge 1 = .ok ⟨2, 1⟩ ∨ (⟨2, 1⟩ : iterator) = ⟨0, 0⟩ ∨
        (⟨2, 1⟩ : iterator).lst ≠ 1) →
      list.erase exMerge 1 ⟨2, 1⟩ = .error .invalid_iterator) :=
  erase_failures exMerge 1 ⟨1, 2, 3⟩ [(5, 1), (6, 3), (7, 5)] ⟨2, 1⟩ (by decide!) (by decide!)

/-! ## Construction, clear, pop -/

theorem Heap.Ok.fresh {h : Heap T} (hok : h.Ok) : h.Fresh :=
  ⟨fun e => by have := hok.1; omega, hok.2 _ (le_refl _)⟩

theorem Heap.Ok.lt_of_live {h : Heap T} (hok : h.Ok) {a : Nat} (ha : h.cells a ≠ none) :
    a < h.brk := by
  by_contra hlt
  exact ha (hok.2 a (by omega))

@[simp] theorem State.setList_heap (s : State T) (h : Heap T) (this : Nat) (L : list) :
    (s.setList h this L).heap = h := rfl

@[simp] theorem Heap.alloc_snd (h : Heap T) (d : Option T) : (h.alloc d).2 = h.brk := rfl

@[simp] theorem Heap.alloc_brk (h : Heap T) (d : Option T) : (h.alloc d).1.brk = h.brk + 1 := rfl

theorem Heap.alloc_cells_same (h : Heap T) (d : Option T) :
    (h.alloc d).1.cells h.brk = some ⟨d, 0, 0⟩ := by
  show Function.update _ _ _ _ = _
  rw [Function.update_same]

theorem Heap.alloc_cells_ne (h : Heap T) (d : Option T) {x : Nat} (hx : x ≠ h.brk) :
    (h.alloc d).1.cells x = h.cells x := by
  show Function.update _ _ _ _ = _
  rw [Function.update_noteq hx]

/-- The effect of the default constructor. -/
theorem ctor_state_spec {s : State T} (this : Nat) (hfr : s.heap.brk ≠ 0) :
    ∃ s', list.ctor s this = .ok s' ∧
      s'.lists = Function.update s.lists this (some ⟨s.heap.brk, s.heap.brk + 1, 0⟩) ∧
      Repr s'.heap ⟨s.heap.brk, s.heap.brk + 1, 0⟩ [] ∧
      s'.heap.brk = s.heap.brk + 2 ∧
      (∀ x, x ≠ s.heap.brk → x ≠ s.heap.brk + 1 → s'.heap.cells x = s.heap.cells x) := by
  have hne : s.heap.brk ≠ s.heap.brk + 1 := by omega
  have c2h : ((s.heap.alloc none).1.alloc none).1.cells s.heap.brk = some ⟨none, 0, 0⟩ := by
    rw [Heap.alloc_cells_ne _ _ (by rw [Heap.alloc_brk]; exact hne), Heap.alloc_cells_same]
  have c2t : ((s.heap.alloc none).1.alloc none).1.cells (s.heap.brk + 1) =
      some ⟨none, 0, 0⟩ := by
    have := Heap.alloc_cells_same (s.heap.alloc none).1 (none : Option T)
    rwa [Heap.alloc_brk] at this
  have c3t : ((((s.heap.alloc none).1.alloc none).1.put s.heap.brk
      ⟨none, 0, s.heap.brk + 1⟩).cells (s.heap.brk + 1)) = some ⟨none, 0, 0⟩ := by
    rw [Heap.put_cells_ne _ _ hne.symm, c2t]
  refine ⟨s.setList ((((s.heap.alloc none).1.alloc none).1.put s.heap.brk
    ⟨none, 0, s.heap.brk + 1⟩).put (s.heap.brk + 1) ⟨none, s.heap.brk, 0⟩) this
    ⟨s.heap.brk, s.heap.brk + 1, 0⟩, ?_, rfl, ?_, rfl, ?_⟩
  · simp only [list.ctor, Heap.alloc_snd, Heap.alloc_brk, Heap.setNext_of c2h, bind_ok,
      Heap.setPrev_of c3t, pure_eq_ok]
  · apply Repr.empty_of_seg
    · refine ⟨?_, ?_, trivial⟩
      · rw [State.setList_heap, Heap.put_cells_ne _ _ hne, Heap.put_cells_same]; rfl
      · rw [State.setList_heap, Heap.put_cells_same]; rfl
    · exact hne
    · exact hfr
    · omega
  · intro x h1 h2
    rw [State.setList_heap, Heap.put_cells_ne _ _ h2, Heap.put_cells_ne _ _ h1,
      Heap.alloc_cells_ne _ _ (by rw [Heap.alloc_brk]; exact h2), Heap.alloc_cells_ne _ _ h1]

theorem clear_loop_spec (R : List (Nat × T)) :
    ∀ (h : Heap T) (p n tl fuel : Nat),
      Seg h.cells p (dataCells R ++ [(tl, none)]) n →
      (R.map Prod.fst ++ [tl]).Nodup → R.length < fuel →
      ∃ h', list.clear_loop fuel h tl (nextOf (dataCells R) tl) = .ok h' ∧ h'.brk = h.brk ∧
        (∀ a ∈ R.map Prod.fst, h'.cells a = none) ∧
        (∀ a, a ∉ R.map Prod.fst → h'.cells a = h.cells a) := by
  induction R with
  | nil =>
    intro h p n tl fuel _ _ hf
    obtain ⟨f, rfl⟩ : ∃ f, fuel = f + 1 := ⟨fuel - 1, by simp at hf; omega⟩
    exact ⟨h, by simp [list.clear_loop], rfl, fun a ha => by simp at ha, fun _ _ => rfl⟩
  | cons x R ih =>
    intro h p n tl fuel hs hnd hf
    obtain ⟨f, rfl⟩ : ∃ f, fuel = f + 1 := ⟨fuel - 1, by omega⟩
    rw [dataCells_cons, List.cons_append, seg_cons, nextOf_concat] at hs
    obtain ⟨hx, hR⟩ := hs
    have hx' : h.cells x.1 = some ⟨some x.2, p, nextOf (dataCells R) tl⟩ := hx
    have hR' : Seg h.cells x.1 (dataCells R ++ [(tl, none)]) n := hR
    rw [List.map_cons, List.cons_append, List.nodup_cons] at hnd
    have hne : x.1 ≠ tl := fun e => hnd.1 (by simp [e])
    have hxR : x.1 ∉ R.map Prod.fst := fun hm => hnd.1 (by simp [hm])
    have hs1 : Seg (Function.update h.cells x.1 none) x.1 (dataCells R ++ [(tl, none)]) n := by
      refine hR'.frame ?_
      intro a ha
      have : a ≠ x.1 := by
        rintro rfl
        apply hnd.1
        simpa using ha
      rw [Function.update_noteq this]
    obtain ⟨h', e, b1, n1, f1⟩ := ih ⟨Function.update h.cells x.1 none, h.brk⟩ x.1 n tl f hs1
      hnd.2 (by simp at hf; omega)
    refine ⟨h', ?_, b1, ?_, ?_⟩
    · rw [← e]
      simp only [list.clear_loop, dataCells_cons, nextOf_cons, hne, if_false,
        Heap.get_of hx', bind_ok, Heap.free_of hx']
    · intro a ha
      rcases List.mem_cons.1 ha with rfl | ha
      · rw [f1 _ hxR]; simp
      · exact n1 a ha
    · intro a ha
      have h1' : a ≠ x.1 := fun e => ha (by simp [e])
      have h2' : a ∉ R.map Prod.fst := fun hm => ha (by simp [hm])
      rw [f1 a h2']
      show Function.update h.cells x.1 none a = _
      rw [Function.update_noteq h1']

/-- The effect of `clear`. -/
theorem clear_state_spec {s : State T} {this : Nat} {L : list} {X : List (Nat × T)}
    (hL : s.lists this = some L) (hX : Repr s.heap L X) (fuel : Nat) (hf : X.length < fuel) :
    ∃ s', list.clear fuel s this = .ok s' ∧
      s'.lists = Function.update s.lists this (some ⟨L.head, L.tail, 0⟩) ∧
      Repr s'.heap ⟨L.head, L.tail, 0⟩ [] ∧ s'.heap.brk = s.heap.brk ∧
      (∀ a ∈ X.map Prod.fst, s'.heap.cells a = none) ∧
      (∀ a, a ∉ chainAddrs L X → s'.heap.cells a = s.heap.cells a) := by
  have hnd := hX.2.1
  simp only [chainAddrs] at hnd
  have hht : L.head ≠ L.tail := by
    intro e; rw [e] at hnd; simp at hnd
  have hhd_not : L.head ∉ X.map Prod.fst := by
    intro hm; exact (List.nodup_cons.1 hnd).1 (List.mem_append_left _ hm)
  obtain ⟨h1, e1, b1, n1, f1⟩ := clear_loop_spec X s.heap L.head 0 L.tail fuel hX.data_seg
    (List.nodup_cons.1 hnd).2 hf
  have c1h : h1.cells L.head = some ⟨none, 0, nextOf (dataCells X) L.tail⟩ := by
    rw [f1 _ hhd_not]; exact hX.head_cell
  have c1t : h1.cells L.tail = some ⟨none, lastOf (dataCells X) L.head, 0⟩ := by
    rw [f1 _ hX.tail_not_mem]; exact hX.tail_cell
  have c2t : (h1.put L.head ⟨none, 0, L.tail⟩).cells L.tail =
      some ⟨none, lastOf (dataCells X) L.head, 0⟩ := by
    rw [Heap.put_cells_ne _ _ hht.symm]; exact c1t
  refine ⟨s.setList ((h1.put L.head ⟨none, 0, L.tail⟩).put L.tail ⟨none, L.head, 0⟩) this
    ⟨L.head, L.tail, 0⟩, ?_, rfl, ?_, b1, ?_, ?_⟩
  · simp only [list.clear, State.getList, hL, bind_ok, Heap.get_of hX.head_cell, e1,
      Heap.setNext_of c1h, Heap.setPrev_of c2t, pure_eq_ok]
  · apply Repr.empty_of_seg
    · refine ⟨?_, ?_, trivial⟩
      · rw [State.setList_heap, Heap.put_cells_ne _ _ hht, Heap.put_cells_same]; rfl
      · rw [State.setList_heap, Heap.put_cells_same]; rfl
    · exact hht
    · intro e; exact hX.2.2.1 (by simp [chainAddrs, e])
    · exact hX.tail_ne_zero
  · intro a ha
    have h1' : a ≠ L.head := fun e => hhd_not (e ▸ ha)
    have h2' : a ≠ L.tail := fun e => hX.tail_not_mem (e ▸ ha)
    rw [State.setList_heap, Heap.put_cells_ne _ _ h2', Heap.put_cells_ne _ _ h1']
    exact n1 a ha
  · intro a ha
    have h1' : a ≠ L.head := by rintro rfl; apply ha; simp [chainAddrs]
    have h2' : a ≠ L.tail := by rintro rfl; apply ha; simp [chainAddrs]
    have h3' : a ∉ X.map Prod.fst := by
      intro hm; apply ha; simp only [chainAddrs]
      exact List.mem_cons_of_mem _ (List.mem_append_left _ hm)
    rw [State.setList_heap, Heap.put_cells_ne _ _ h2', Heap.put_cells_ne _ _ h1']
    exact f1 a h3'

/-- The effect of `pop_back`. -/
theorem pop_back_state_spec {s : State T} {this : Nat} {L : list} (pre : List (Nat × T))
    (x : Nat × T) (hL : s.lists this = some L) (hX : Repr s.heap L (pre ++ [x])) :
    ∃ s', list.pop_back s this = .ok s' ∧
      s'.lists = Function.update s.lists this (some ⟨L.head, L.tail, L.count - 1⟩) ∧
      Repr s'.heap ⟨L.head, L.tail, L.count - 1⟩ pre ∧
      s'.heap.brk = s.heap.brk ∧ s'.heap.cells x.1 = none ∧
      (∀ a, a ∉ chainAddrs L (pre ++ [x]) → s'.heap.cells a = s.heap.cells a) := by
  obtain ⟨h1, h', e1, e2, r, b, c, f⟩ := erase_heap_spec pre x [] hX
  refine ⟨s.setList h' this ⟨L.head, L.tail, L.count - 1⟩, ?_, rfl, by simpa using r, b, c, f⟩
  have hc : ¬ (L.count = 0) := by rw [hX.2.2.2]; simp
  have htl := hX.tail_cell
  rw [dataCells_append, dataCells_cons, dataCells_nil, lastOf_concat] at htl
  simp only [list.pop_back, State.getList, hL, bind_ok, hc, if_false, Heap.get_of htl, e1, e2,
    pure_eq_ok]

/-- The effect of `pop_front`. -/
theorem pop_front_state_spec {s : State T} {this : Nat} {L : list} (x : Nat × T)
    (post : List (Nat × T)) (hL : s.lists this = some L) (hX : Repr s.heap L (x :: post)) :
    ∃ s', list.pop_front s this = .ok s' ∧
      s'.lists = Function.update s.lists this (some ⟨L.head, L.tail, L.count - 1⟩) ∧
      Repr s'.heap ⟨L.head, L.tail, L.count - 1⟩ post ∧
      s'.heap.brk = s.heap.brk ∧ s'.heap.cells x.1 = none ∧
      (∀ a, a ∉ chainAddrs L (x :: post) → s'.heap.cells a = s.heap.cells a) := by
  have hX' : Repr s.heap L ([] ++ x :: post) := by simpa using hX
  obtain ⟨h1, h', e1, e2, r, b, c, f⟩ := erase_heap_spec [] x post hX'
  refine ⟨s.setList h' this ⟨L.head, L.tail, L.count - 1⟩, ?_, rfl, by simpa using r, b, c,
    by simpa using f⟩
  have hc : ¬ (L.count = 0) := by rw [hX.2.2.2]; simp
  have hhd := hX.head_cell
  rw [dataCells_cons, nextOf_cons] at hhd
  simp only [list.pop_front, State.getList, hL, bind_ok, hc, if_false, Heap.get_of hhd, e1, e2,
    pure_eq_ok]

/-! ## Copy construction and assignment -/

theorem mem_chainAddrs_concat (L : list) (c : Nat) (X : List (Nat × T)) (b : Nat) (v : T)
    (a : Nat) :
    a ∈ chainAddrs ⟨L.head, L.tail, c⟩ (X ++ [(b, v)]) ↔ a ∈ chainAddrs L X ∨ a = b := by
  simp only [chainAddrs, List.map_append, List.map_cons, List.map_nil, List.mem_cons,
    List.mem_append, List.mem_singleton, List.not_mem_nil, or_false]
  tauto

theorem copy_loop_spec (R : List (Nat × T)) :
    ∀ (s : State T) (this : Nat) (L : list) (X : List (Nat × T)) (p n otl fuel : Nat),
      s.lists this = some L → Repr s.heap L X → s.heap.Ok →
      Seg s.heap.cells p (dataCells R ++ [(otl, none)]) n → otl ∉ R.map Prod.fst →
      (∀ a ∈ R.map Prod.fst ++ [otl], a ∉ chainAddrs L X) →
      R.length < fuel →
      ∃ s' X', list.copy_loop fuel s this otl (nextOf (dataCells R) otl) = .ok s' ∧
        s'.lists = Function.update s.lists this (some ⟨L.head, L.tail, L.count + R.length⟩) ∧
        Repr s'.heap ⟨L.head, L.tail, L.count + R.length⟩ (X ++ X') ∧
        X'.map Prod.snd = R.map Prod.snd ∧
        (∀ a ∈ X'.map Prod.fst, s.heap.brk ≤ a) ∧
        s.heap.brk ≤ s'.heap.brk ∧ s'.heap.Ok ∧
        (∀ x, x ∉ chainAddrs L X → (x < s.heap.brk ∨ s'.heap.brk ≤ x) →
          s'.heap.cells x = s.heap.cells x) := by
  induction R with
  | nil =>
    intro s this L X p n otl fuel hL hX hok _ _ _ hf
    obtain ⟨f, rfl⟩ : ∃ f, fuel = f + 1 := ⟨fuel - 1, by simp at hf; omega⟩
    refine ⟨s, [], by simp [list.copy_loop], ?_, by simpa using hX, rfl,
      fun a ha => by simp at ha, le_refl _, hok, fun _ _ _ => rfl⟩
    show s.lists = Function.update s.lists this (some L)
    rw [← hL]
    exact (Function.update_eq_self this s.lists).symm
  | cons r R ih =>
    intro s this L X p n otl fuel hL hX hok hs hotl hdis hf
    obtain ⟨f, rfl⟩ : ∃ f, fuel = f + 1 := ⟨fuel - 1, by omega⟩
    rw [dataCells_cons, List.cons_append, seg_cons, nextOf_concat] at hs
    obtain ⟨hr, hR⟩ := hs
    have hr' : s.heap.cells r.1 = some ⟨some r.2, p, nextOf (dataCells R) otl⟩ := hr
    have hR' : Seg s.heap.cells r.1 (dataCells R ++ [(otl, none)]) n := hR
    have hne : r.1 ≠ otl := fun e => hotl (by simp [e])
    have hotl' : otl ∉ R.map Prod.fst := fun hm => hotl (by simp [hm])
    obtain ⟨s1, e1, l1, r1, b1, f1⟩ := push_back_state_spec X r.2 hL hX hok.fresh
    have hlive : ∀ a ∈ (r :: R).map Prod.fst ++ [otl], a < s.heap.brk := by
      intro a ha
      apply hok.lt_of_live
      have hseg : Seg s.heap.cells p (dataCells (r :: R) ++ [(otl, none)]) n := by
        rw [dataCells_cons, List.cons_append, seg_cons, nextOf_concat]; exact ⟨hr, hR⟩
      have ha' : a ∈ (dataCells (r :: R) ++ [(otl, none)]).map Prod.fst := by
        simpa using ha
      obtain ⟨c, hc, rfl⟩ := List.mem_map.1 ha'
      obtain ⟨p', n', hcell⟩ := hseg.mem_cell hc
      rw [hcell]; simp
    have hsame : ∀ a ∈ (r :: R).map Prod.fst ++ [otl], s1.heap.cells a = s.heap.cells a := by
      intro a ha
      exact f1 a (hdis a ha) (by have := hlive a ha; omega)
    have hL1 : s1.lists this = some ⟨L.head, L.tail, L.count + 1⟩ := by
      rw [l1, Function.update_same]
    have hok1 : s1.heap.Ok := by
      refine ⟨by rw [b1]; omega, ?_⟩
      intro a ha
      rw [b1] at ha
      rw [f1 a (fun hm => by have := hok.lt_of_live (hX.live hm); omega) (by omega)]
      exact hok.2 a (by omega)
    have hs1 : Seg s1.heap.cells r.1 (dataCells R ++ [(otl, none)]) n := by
      refine hR'.frame ?_
      intro a ha
      apply hsame
      simp only [List.map_append, dataCells_fst, List.map_cons, List.map_nil] at ha
      simp only [List.map_cons, List.cons_append, List.mem_cons]
      exact Or.inr ha
    have hdis1 : ∀ a ∈ R.map Prod.fst ++ [otl],
        a ∉ chainAddrs ⟨L.head, L.tail, L.count + 1⟩ (X ++ [(s.heap.brk, r.2)]) := by
      intro a ha hm
      have ha' : a ∈ (r :: R).map Prod.fst ++ [otl] := by
        simp only [List.map_cons, List.cons_append, List.mem_cons]; exact Or.inr ha
      have h1 := hdis a ha'
      have h2 := hlive a ha'
      rcases (mem_chainAddrs_concat L _ X _ _ a).1 hm with hm | hm
      · exact h1 hm
      · omega
    obtain ⟨s', X', e2, l2, r2, v2, a2, b2, ok2, f2⟩ := ih s1 this ⟨L.head, L.tail, L.count + 1⟩
      (X ++ [(s.heap.brk, r.2)]) r.1 n otl f hL1 r1 hok1 hs1 hotl' hdis1 (by simp at hf; omega)
    have hcnt : L.count + 1 + R.length = L.count + (r :: R).length := by
      simp only [List.length_cons]; omega
    have hr1 : s1.heap.cells r.1 = some ⟨some r.2, p, nextOf (dataCells R) otl⟩ := by
      rw [hsame r.1 (by simp)]; exact hr'
    refine ⟨s', (s.heap.brk, r.2) :: X', ?_, ?_, ?_, ?_, ?_, ?_, ok2, ?_⟩
    · rw [← e2]
      simp only [list.copy_loop, dataCells_cons, nextOf_cons, hne, if_false,
        Heap.deref_of hr' rfl, bind_ok, e1, Heap.get_of hr1]
    · rw [l2, l1, Function.update_idem, hcnt]
    · rw [← hcnt]
      simpa using r2
    · simp [v2]
    · intro a ha
      rcases List.mem_cons.1 ha with rfl | ha
      · exact le_refl _
      · have := a2 a ha; rw [b1] at this; omega
    · rw [b1] at b2; omega
    · intro x hx hb
      have hxb : x ≠ s.heap.brk := by
        rcases hb with hb | hb
        · omega
        · rw [b1] at b2; omega
      rw [f2 x ?_ ?_, f1 x hx hxb]
      · intro hm
        rcases (mem_chainAddrs_concat L _ X _ _ x).1 hm with hm | hm
        · exact hx hm
        · exact hxb hm
      · rcases hb with hb | hb
        · left; rw [b1]; omega
        · right; exact hb

/-! ## The memory-wide invariant -/

theorem seg_unique {m : Nat → Option (node T)} (X : List (Nat × T)) :
    ∀ (X' : List (Nat × T)) (p n n' tl : Nat),
      Seg m p (dataCells X ++ [(tl, none)]) n → Seg m p (dataCells X' ++ [(tl, none)]) n' →
      tl ∉ X.map Prod.fst → tl ∉ X'.map Prod.fst →
      nextOf (dataCells X) tl = nextOf (dataCells X') tl → X = X' := by
  induction X with
  | nil =>
    intro X' p n n' tl _ _ _ h2 hn
    cases X' with
    | nil => rfl
    | cons x' X' =>
      simp only [dataCells_nil, nextOf_nil, dataCells_cons, nextOf_cons] at hn
      exact absurd (by simp [hn]) h2
  | cons x X ih =>
    intro X' p n n' tl s1 s2 h1 h2 hn
    cases X' with
    | nil =>
      simp only [dataCells_nil, nextOf_nil, dataCells_cons, nextOf_cons] at hn
      exact absurd (by simp [← hn]) h1
    | cons x' X' =>
      simp only [dataCells_cons, nextOf_cons] at hn
      rw [dataCells_cons, List.cons_append, seg_cons, nextOf_concat] at s1 s2
      have c1 : m x.1 = some ⟨some x.2, p, nextOf (dataCells X) tl⟩ := s1.1
      have c2 : m x'.1 = some ⟨some x'.2, p, nextOf (dataCells X') tl⟩ := s2.1
      rw [← hn, c1] at c2
      simp only [Option.some.injEq, node.mk.injEq, true_and] at c2
      have hx : x = x' := Prod.ext hn c2.1
      subst hx
      have := ih X' x.1 n n' tl s1.2 s2.2 (fun hm => h1 (by simp [hm]))
        (fun hm => h2 (by simp [hm])) c2.2
      rw [this]

theorem Repr.unique {h : Heap T} {L : list} {X X' : List (Nat × T)} (h1 : Repr h L X)
    (h2 : Repr h L X') : X = X' := by
  have e1 := h1.head_cell
  rw [h2.head_cell] at e1
  simp only [Option.some.injEq, node.mk.injEq, true_and] at e1
  exact seg_unique X X' L.head 0 0 L.tail h1.data_seg h2.data_seg h1.tail_not_mem
    h2.tail_not_mem e1.symm

theorem InvM.update {s s' : State T} {M : Nat → List (Nat × T)} {this : Nat} {L' : list}
    {X' : List (Nat × T)} (old : List Nat) (h : InvM s M)
    (hold : ∀ b Lb, b ≠ this → s.lists b = some Lb → ∀ x ∈ chainAddrs Lb (M b), x ∉ old)
    (hold_lt : ∀ x ∈ old, x < s.heap.brk)
    (hl : s'.lists = Function.update s.lists this (some L'))
    (hR : Repr s'.heap L' X')
    (hnew : ∀ a ∈ chainAddrs L' X', a ∈ old ∨ s.heap.brk ≤ a)
    (hb : s.heap.brk ≤ s'.heap.brk)
    (hfr : ∀ x, x ∉ old → (x < s.heap.brk ∨ s'.heap.brk ≤ x) →
      s'.heap.cells x = s.heap.cells x) :
    InvM s' (Function.update M this X') := by
  obtain ⟨hok, hrep, hdis⟩ := h
  have hkeep : ∀ b Lb, b ≠ this → s.lists b = some Lb →
      Repr s'.heap Lb (M b) ∧ ∀ x ∈ chainAddrs Lb (M b), x < s.heap.brk ∧ x ∉ old := by
    intro b Lb hb' hLb
    have hr := hrep b Lb hLb
    have hlt : ∀ x ∈ chainAddrs Lb (M b), x < s.heap.brk ∧ x ∉ old := fun x hx =>
      ⟨hok.lt_of_live (hr.live hx), hold b Lb hb' hLb x hx⟩
    exact ⟨hr.reframe fun x hx => hfr x (hlt x hx).2 (Or.inl (hlt x hx).1), hlt⟩
  refine ⟨⟨by have := hok.1; omega, ?_⟩, ?_, ?_⟩
  · intro a ha
    rw [hfr a (fun hm => by have := hold_lt a hm; omega) (Or.inr ha)]
    exact hok.2 a (by omega)
  · intro a L hL
    rw [hl] at hL
    by_cases hat : a = this
    · subst hat
      rw [Function.update_same] at hL ⊢
      cases hL
      exact hR
    · rw [Function.update_noteq hat] at hL ⊢
      exact (hkeep a L hat hL).1
  · intro a b La Lb hab hLa hLb x hxa hxb
    rw [hl] at hLa hLb
    by_cases hat : a = this
    · subst hat
      have hbt : b ≠ a := fun e => hab e.symm
      rw [Function.update_same] at hLa hxa
      rw [Function.update_noteq hbt] at hLb hxb
      cases hLa
      have hk := (hkeep b Lb hbt hLb).2 x hxb
      rcases hnew x hxa with h1 | h1
      · exact hk.2 h1
      · omega
    · rw [Function.update_noteq hat] at hLa hxa
      by_cases hbt : b = this
      · subst hbt
        rw [Function.update_same] at hLb hxb
        cases hLb
        have hk := (hkeep a La hat hLa).2 x hxa
        rcases hnew x hxb with h1 | h1
        · exact hk.2 h1
        · omega
      · rw [Function.update_noteq hbt] at hLb hxb
        exact hdis a b La Lb hab hLa hLb x hxa hxb

/-- The single-list case: the list at `this` is replaced, its new chain made of
its old nodes and fresh ones, and nothing else is written. -/
theorem InvM.update_list {s s' : State T} {M : Nat → List (Nat × T)} {this : Nat} {L L' : list}
    {X' : List (Nat × T)} (h : InvM s M) (hL : s.lists this = some L)
    (hl : s'.lists = Function.update s.lists this (some L'))
    (hR : Repr s'.heap L' X')
    (hnew : ∀ a ∈ chainAddrs L' X', a ∈ chainAddrs L (M this) ∨ s.heap.brk ≤ a)
    (hb : s.heap.brk ≤ s'.heap.brk)
    (hfr : ∀ x, x ∉ chainAddrs L (M this) → (x < s.heap.brk ∨ s'.heap.brk ≤ x) →
      s'.heap.cells x = s.heap.cells x) :
    Inv s' := by
  refine ⟨_, InvM.update (chainAddrs L (M this)) h ?_ ?_ hl hR hnew hb hfr⟩
  · intro b Lb hb' hLb x hx hm
    exact h.2.2 b this Lb L hb' hLb hL x hx hm
  · intro x hx
    exact h.1.lt_of_live ((h.2.1 this L hL).live hx)

/-- The single-list case with the model made explicit. -/
theorem InvM.update_chain {s s' : State T} {M : Nat → List (Nat × T)} {this : Nat}
    {L L' : list} {X' : List (Nat × T)} (h : InvM s M) (hL : s.lists this = some L)
    (hl : s'.lists = Function.update s.lists this (some L'))
    (hR : Repr s'.heap L' X')
    (hnew : ∀ a ∈ chainAddrs L' X', a ∈ chainAddrs L (M this) ∨ s.heap.brk ≤ a)
    (hb : s.heap.brk ≤ s'.heap.brk)
    (hfr : ∀ x, x ∉ chainAddrs L (M this) → (x < s.heap.brk ∨ s'.heap.brk ≤ x) →
      s'.heap.cells x = s.heap.cells x) :
    InvM s' (Function.update M this X') := by
  refine InvM.update (chainAddrs L (M this)) h ?_ ?_ hl hR hnew hb hfr
  · intro b Lb hb' hLb x hx hm
    exact h.2.2 b this Lb L hb' hLb hL x hx hm
  · intro x hx
    exact h.1.lt_of_live ((h.2.1 this L hL).live hx)

/-! ## More fuel does not change a result -/

theorem bind_eq_ok {ε α β : Type} {x : Except ε α} {f : α → Except ε β} {b : β}
    (h : (x >>= f) = .ok b) : ∃ a, x = .ok a ∧ f a = .ok b := by
  cases x with
  | error e => cases h
  | ok a => exact ⟨a, rfl, h⟩

theorem clear_loop_mono (f : Nat) : ∀ (h : Heap T) (tl p : Nat) (r : Heap T),
    list.clear_loop f h tl p = .ok r → list.clear_loop (f + 1) h tl p = .ok r := by
  induction f with
  | zero => intro h tl p r e; cases e
  | succ f ih =>
    intro h tl p r e
    rw [list.clear_loop] at e ⊢
    split
    · rename_i hp; simpa [hp] using e
    · rename_i hp
      rw [if_neg hp] at e
      obtain ⟨np, e1, e⟩ := bind_eq_ok e
      obtain ⟨h1, e2, e⟩ := bind_eq_ok e
      rw [e1, bind_ok, e2, bind_ok]
      exact ih _ _ _ _ e

theorem mono_le {P : Nat → Prop} (hstep : ∀ f, P f → P (f + 1)) {f f' : Nat} (hle : f ≤ f')
    (h : P f) : P f' := by
  induction hle with
  | refl => exact h
  | step _ ih => exact hstep _ ih

theorem fill_loop_mono (f : Nat) : ∀ (h : Heap T) (tl p : Nat) (r : List Nat),
    list.fill_loop f h tl p = .ok r → list.fill_loop (f + 1) h tl p = .ok r := by
  induction f with
  | zero => intro h tl p r e; cases e
  | succ f ih =>
    intro h tl p r e
    rw [list.fill_loop] at e ⊢
    split
    · rename_i hp; simpa [hp] using e
    · rename_i hp
      rw [if_neg hp] at e
      obtain ⟨np, e1, e⟩ := bind_eq_ok e
      obtain ⟨rest, e2, e⟩ := bind_eq_ok e
      rw [e1, bind_ok, ih _ _ _ _ e2, bind_ok]
      exact e

theorem reverse_loop_mono (f : Nat) : ∀ (h : Heap T) (tl p : Nat) (r : Heap T),
    list.reverse_loop f h tl p = .ok r → list.reverse_loop (f + 1) h tl p = .ok r := by
  induction f with
  | zero => intro h tl p r e; cases e
  | succ f ih =>
    intro h tl p r e
    rw [list.reverse_loop] at e ⊢
    split
    · rename_i hp; simpa [hp] using e
    · rename_i hp
      rw [if_neg hp] at e
      obtain ⟨np, e1, e⟩ := bind_eq_ok e
      obtain ⟨h1, e2, e⟩ := bind_eq_ok e
      obtain ⟨h2, e3, e⟩ := bind_eq_ok e
      rw [e1, bind_ok, e2, bind_ok, e3, bind_ok]
      exact ih _ _ _ _ e

theorem copy_loop_mono (f : Nat) : ∀ (s : State T) (this otl p : Nat) (r : State T),
    list.copy_loop f s this otl p = .ok r → list.copy_loop (f + 1) s this otl p = .ok r := by
  induction f with
  | zero => intro s this otl p r e; cases e
  | succ f ih =>
    intro s this otl p r e
    rw [list.copy_loop] at e ⊢
    split
    · rename_i hp; simpa [hp] using e
    · rename_i hp
      rw [if_neg hp] at e
      obtain ⟨v, e1, e⟩ := bind_eq_ok e
      obtain ⟨s1, e2, e⟩ := bind_eq_ok e
      obtain ⟨np, e3, e⟩ := bind_eq_ok e
      rw [e1, bind_ok, e2, bind_ok, e3, bind_ok]
      exact ih _ _ _ _ _ e

theorem merge_advance_mono (lt : T → T → Bool) (f : Nat) :
    ∀ (h : Heap T) (tl p2 p1 r : Nat),
      list.merge_advance lt f h tl p2 p1 = .ok r →
      list.merge_advance lt (f + 1) h tl p2 p1 = .ok r := by
  induction f with
  | zero => intro h tl p2 p1 r e; cases e
  | succ f ih =>
    intro h tl p2 p1 r e
    rw [list.merge_advance] at e ⊢
    split
    · rename_i hp; simpa [hp] using e
    · rename_i hp
      rw [if_neg hp] at e
      obtain ⟨v2, e1, e⟩ := bind_eq_ok e
      obtain ⟨v1, e2, e⟩ := bind_eq_ok e
      rw [e1, bind_ok, e2, bind_ok]
      split
      · rename_i hlt
        rw [if_pos hlt] at e
        obtain ⟨n1, e3, e⟩ := bind_eq_ok e
        rw [e3, bind_ok]
        exact ih _ _ _ _ _ e
      · rename_i hlt
        rw [if_neg hlt] at e
        exact e

theorem merge_loop_mono_outer (lt : T → T → Bool) (ifuel f : Nat) :
    ∀ (h : Heap T) (tl otl p1 p2 : Nat) (r : Heap T),
      list.merge_loop lt ifuel f h tl otl p1 p2 = .ok r →
      list.merge_loop lt ifuel (f + 1) h tl otl p1 p2 = .ok r := by
  induction f with
  | zero => intro h tl otl p1 p2 r e; cases e
  | succ f ih =>
    intro h tl otl p1 p2 r e
    rw [list.merge_loop] at e ⊢
    split
    · rename_i hp; simpa [hp] using e
    · rename_i hp
      rw [if_neg hp] at e
      obtain ⟨q1, e1, e⟩ := bind_eq_ok e
      obtain ⟨n2, e2, e⟩ := bind_eq_ok e
      obtain ⟨⟨h1, x1⟩, e3, e⟩ := bind_eq_ok e
      obtain ⟨⟨h2, x2⟩, e4, e⟩ := bind_eq_ok e
      rw [e1, bind_ok, e2, bind_ok, e3, bind_ok]
      simp only [e4, bind_ok]
      exact ih _ _ _ _ _ _ e

theorem merge_loop_mono_inner (lt : T → T → Bool) (ifuel f : Nat) :
    ∀ (h : Heap T) (tl otl p1 p2 : Nat) (r : Heap T),
      list.merge_loop lt ifuel f h tl otl p1 p2 = .ok r →
      list.merge_loop lt (ifuel + 1) f h tl otl p1 p2 = .ok r := by
  induction f with
  | zero => intro h tl otl p1 p2 r e; cases e
  | succ f ih =>
    intro h tl otl p1 p2 r e
    rw [list.merge_loop] at e ⊢
    split
    · rename_i hp; simpa [hp] using e
    · rename_i hp
      rw [if_neg hp] at e
      obtain ⟨q1, e1, e⟩ := bind_eq_ok e
      obtain ⟨n2, e2, e⟩ := bind_eq_ok e
      obtain ⟨⟨h1, x1⟩, e3, e⟩ := bind_eq_ok e
      obtain ⟨⟨h2, x2⟩, e4, e⟩ := bind_eq_ok e
      rw [merge_advance_mono lt _ _ _ _ _ _ e1, bind_ok, e2, bind_ok, e3, bind_ok]
      simp only [e4, bind_ok]
      exact ih _ _ _ _ _ _ e

theorem unique_loop_mono (eq : T → T → Bool) (f : Nat) :
    ∀ (h : Heap T) (tl p c : Nat) (r : Heap T × Nat),
      list.unique_loop eq f h tl p c = .ok r →
      list.unique_loop eq (f + 1) h tl p c = .ok r := by
  induction f with
  | zero => intro h tl p c r e; cases e
  | succ f ih =>
    intro h tl p c r e
    rw [list.unique_loop] at e ⊢
    split
    · rename_i hp; simpa [hp] using e
    · rename_i hp
      rw [if_neg hp] at e
      obtain ⟨np, e1, e⟩ := bind_eq_ok e
      rw [e1, bind_ok]
      split
      · rename_i hn; simpa [hn] using e
      · rename_i hn
        rw [if_neg hn] at e
        obtain ⟨v, e2, e⟩ := bind_eq_ok e
        obtain ⟨w, e3, e⟩ := bind_eq_ok e
        rw [e2, bind_ok, e3, bind_ok]
        split
        · rename_i he
          rw [if_pos he] at e
          obtain ⟨⟨h1, x1⟩, e4, e⟩ := bind_eq_ok e
          obtain ⟨h2, e5, e⟩ := bind_eq_ok e
          simp only [e4, bind_ok, e5]
          exact ih _ _ _ _ _ e
        · rename_i he
          rw [if_neg he] at e
          exact ih _ _ _ _ _ e

theorem clear_mono {s r : State T} {this f f' : Nat} (hle : f ≤ f')
    (e : list.clear f s this = .ok r) : list.clear f' s this = .ok r := by
  rw [list.clear] at e ⊢
  obtain ⟨L, e1, e⟩ := bind_eq_ok e
  obtain ⟨hd, e2, e⟩ := bind_eq_ok e
  obtain ⟨h1, e3, e⟩ := bind_eq_ok e
  have e3' : list.clear_loop f' s.heap L.tail hd.next = .ok h1 :=
    mono_le (fun f => clear_loop_mono f s.heap L.tail hd.next h1) hle e3
  rw [e1, bind_ok, e2, bind_ok, e3', bind_ok]
  exact e

theorem copy_ctor_mono {s r : State T} {this other f f' : Nat} (hle : f ≤ f')
    (e : list.copy_ctor f s this other = .ok r) : list.copy_ctor f' s this other = .ok r := by
  rw [list.copy_ctor] at e ⊢
  obtain ⟨s1, e1, e⟩ := bind_eq_ok e
  obtain ⟨O, e2, e⟩ := bind_eq_ok e
  obtain ⟨ohd, e3, e⟩ := bind_eq_ok e
  rw [e1, bind_ok, e2, bind_ok, e3, bind_ok]
  exact mono_le (fun f => copy_loop_mono f s1 this O.tail ohd.next r) hle e

theorem assign_mono {s r : State T} {this other f f' : Nat} (hle : f ≤ f')
    (e : list.assign f s this other = .ok r) : list.assign f' s this other = .ok r := by
  rw [list.assign] at e ⊢
  obtain ⟨L, e1, e⟩ := bind_eq_ok e
  rw [e1, bind_ok]
  split
  · rename_i ht; simpa [ht] using e
  · rename_i ht
    rw [if_neg ht] at e
    obtain ⟨s1, e2, e⟩ := bind_eq_ok e
    obtain ⟨O, e3, e⟩ := bind_eq_ok e
    obtain ⟨ohd, e4, e⟩ := bind_eq_ok e
    rw [clear_mono hle e2, bind_ok, e3, bind_ok, e4, bind_ok]
    exact mono_le (fun f => copy_loop_mono f s1 this O.tail ohd.next r) hle e

theorem sort_mono {lt : T → T → Bool} {srt : (Nat → Nat → Bool) → List Nat → List Nat}
    {s r : State T} {this f f' : Nat} (hle : f ≤ f')
    (e : list.sort lt srt f s this = .ok r) : list.sort lt srt f' s this = .ok r := by
  rw [list.sort] at e ⊢
  obtain ⟨L, e1, e⟩ := bind_eq_ok e
  rw [e1, bind_ok]
  split
  · rename_i hc; simpa [hc] using e
  · rename_i hc
    rw [if_neg hc] at e
    obtain ⟨hd, e2, e⟩ := bind_eq_ok e
    obtain ⟨arr, e3, e⟩ := bind_eq_ok e
    rw [e2, bind_ok, mono_le (fun f => fill_loop_mono f s.heap L.tail hd.next arr) hle e3,
      bind_ok]
    exact e

theorem merge_mono {lt : T → T → Bool} {s r : State T} {this other f f' : Nat} (hle : f ≤ f')
    (e : list.merge lt f s this other = .ok r) : list.merge lt f' s this other = .ok r := by
  rw [list.merge] at e ⊢
  obtain ⟨L, e1, e⟩ := bind_eq_ok e
  obtain ⟨O, e2, e⟩ := bind_eq_ok e
  rw [e1, bind_ok, e2, bind_ok]
  split
  · rename_i ht; simpa [ht] using e
  · rename_i ht
    rw [if_neg ht] at e
    obtain ⟨hd, e3, e⟩ := bind_eq_ok e
    obtain ⟨ohd, e4, e⟩ := bind_eq_ok e
    obtain ⟨h1, e5, e⟩ := bind_eq_ok e
    have e5' : list.merge_loop lt f' f s.heap L.tail O.tail hd.next ohd.next = .ok h1 :=
      mono_le (P := fun i => list.merge_loop lt i f s.heap L.tail O.tail hd.next ohd.next =
        .ok h1) (fun i => merge_loop_mono_inner lt i f _ _ _ _ _ h1) hle e5
    have e5'' : list.merge_loop lt f' f' s.heap L.tail O.tail hd.next ohd.next = .ok h1 :=
      mono_le (P := fun i => list.merge_loop lt f' i s.heap L.tail O.tail hd.next ohd.next =
        .ok h1) (fun i => merge_loop_mono_outer lt f' i _ _ _ _ _ h1) hle e5'
    rw [e3, bind_ok, e4, bind_ok, e5'', bind_ok]
    exact e

theorem reverse_mono {s r : State T} {this f f' : Nat} (hle : f ≤ f')
    (e : list.reverse f s this = .ok r) : list.reverse f' s this = .ok r := by
  rw [list.reverse] at e ⊢
  obtain ⟨L, e1, e⟩ := bind_eq_ok e
  rw [e1, bind_ok]
  split
  · rename_i hc; simpa [hc] using e
  · rename_i hc
    rw [if_neg hc] at e
    obtain ⟨hd, e2, e⟩ := bind_eq_ok e
    obtain ⟨h1, e3, e⟩ := bind_eq_ok e
    rw [e2, bind_ok, mono_le (fun f => reverse_loop_mono f s.heap L.tail hd.next h1) hle e3,
      bind_ok]
    exact e

theorem unique_mono {eq : T → T → Bool} {s r : State T} {this f f' : Nat} (hle : f ≤ f')
    (e : list.unique eq f s this = .ok r) : list.unique eq f' s this = .ok r := by
  rw [list.unique] at e ⊢
  obtain ⟨L, e1, e⟩ := bind_eq_ok e
  rw [e1, bind_ok]
  split
  · rename_i hc; simpa [hc] using e
  · rename_i hc
    rw [if_neg hc] at e
    obtain ⟨hd, e2, e⟩ := bind_eq_ok e
    obtain ⟨⟨h1, c1⟩, e3, e⟩ := bind_eq_ok e
    rw [e2, bind_ok,
      mono_le (fun f => unique_loop_mono eq f s.heap L.tail hd.next L.count (h1, c1)) hle e3,
      bind_ok]
    exact e

theorem getList_of_ok {s : State T} {this : Nat} {L : list} (e : s.getList this = .ok L) :
    s.lists this = some L := by
  unfold State.getList at e
  split at e
  · rename_i L' hL; cases e; exact hL
  · cases e

/-! ## Every public operation keeps the invariant -/

theorem mem_chainAddrs_insert (L : list) (c : Nat) (pre post : List (Nat × T)) (b : Nat) (v : T)
    (a : Nat) :
    a ∈ chainAddrs ⟨L.head, L.tail, c⟩ (pre ++ (b, v) :: post) ↔
      a ∈ chainAddrs L (pre ++ post) ∨ a = b := by
  simp only [chainAddrs, List.map_append, List.map_cons, List.mem_cons, List.mem_append]
  tauto

theorem update_self_of {s : State T} {this : Nat} {L : list} (hL : s.lists this = some L) :
    s.lists = Function.update s.lists this (some L) := by
  rw [← hL]; exact (Function.update_eq_self this s.lists).symm

theorem invM_init : InvM (State.init : State T) (fun _ => []) := by
  refine ⟨⟨Nat.one_pos, fun _ _ => rfl⟩, ?_, ?_⟩
  · intro a L h; cases h
  · intro a b La Lb _ h; cases h

theorem invM_ctor {s s' : State T} {M : Nat → List (Nat × T)} {this : Nat} (hM : InvM s M)
    (e : list.ctor s this = .ok s') :
    InvM s' (Function.update M this []) ∧
      s'.lists = Function.update s.lists this (some ⟨s.heap.brk, s.heap.brk + 1, 0⟩) ∧
      s.heap.brk ≤ s'.heap.brk ∧
      (∀ x, x < s.heap.brk → s'.heap.cells x = s.heap.cells x) := by
  obtain ⟨s'', e', l, r, b, f⟩ := ctor_state_spec (s := s) this hM.1.fresh.1
  rw [e'] at e; cases e
  refine ⟨InvM.update [] hM (fun _ _ _ _ _ _ hm => by cases hm) (fun _ hm => by cases hm) l r
    ?_ (by omega) ?_, l, by omega, fun x hx => f x (by omega) (by omega)⟩
  · intro a ha
    right
    simp only [chainAddrs, List.map_nil, List.nil_append, List.mem_cons, List.mem_singleton,
      List.not_mem_nil, or_false] at ha
    omega
  · intro x _ hx
    exact f x (by omega) (by omega)

theorem invM_push_back {s s' : State T} {M : Nat → List (Nat × T)} {this : Nat} {v : T}
    (hM : InvM s M)
    (e : list.push_back s this v = .ok s') :
    ∃ L' X', InvM s' (Function.update M this X') ∧
      s'.lists = Function.update s.lists this (some L') := by
  obtain ⟨L, e1, -⟩ := bind_eq_ok (by rw [list.push_back] at e; exact e)
  have hL := getList_of_ok e1
  obtain ⟨s'', e', l, r, b, f⟩ := push_back_state_spec (M this) v hL (hM.2.1 this L hL)
    hM.1.fresh
  rw [e'] at e; cases e
  refine ⟨_, _, InvM.update_chain hM hL l r ?_ (by omega) ?_, l⟩
  · intro a ha
    rcases (mem_chainAddrs_concat L _ _ _ _ a).1 ha with h | h
    · exact Or.inl h
    · exact Or.inr (by omega)
  · intro x hx hb
    exact f x hx (by omega)

theorem inv_push_back {s s' : State T} {this : Nat} {v : T} (hinv : Inv s)
    (e : list.push_back s this v = .ok s') : Inv s' := by
  obtain ⟨M, hM⟩ := hinv
  obtain ⟨_, _, h, -⟩ := invM_push_back hM e
  exact ⟨_, h⟩

theorem invM_push_front {s s' : State T} {M : Nat → List (Nat × T)} {this : Nat} {v : T}
    (hM : InvM s M)
    (e : list.push_front s this v = .ok s') :
    ∃ L' X', InvM s' (Function.update M this X') ∧
      s'.lists = Function.update s.lists this (some L') := by
  obtain ⟨L, e1, -⟩ := bind_eq_ok (by rw [list.push_front] at e; exact e)
  have hL := getList_of_ok e1
  obtain ⟨s'', e', l, r, b, f⟩ := push_front_state_spec (M this) v hL (hM.2.1 this L hL)
    hM.1.fresh
  rw [e'] at e; cases e
  refine ⟨_, _, InvM.update_chain hM hL l r ?_ (by omega) ?_, l⟩
  · intro a ha
    rcases (mem_chainAddrs_insert L _ [] (M this) _ _ a).1 ha with h | h
    · exact Or.inl h
    · exact Or.inr (by omega)
  · intro x hx hb
    exact f x hx (by omega)

theorem inv_push_front {s s' : State T} {this : Nat} {v : T} (hinv : Inv s)
    (e : list.push_front s this v = .ok s') : Inv s' := by
  obtain ⟨M, hM⟩ := hinv
  obtain ⟨_, _, h, -⟩ := invM_push_front hM e
  exact ⟨_, h⟩

theorem invM_insert {s s' : State T} {M : Nat → List (Nat × T)} {this : Nat}
    {pos it : iterator} {v : T}
    (hM : InvM s M)
    (hlk : Linked s this pos.ptr) (e : list.insert s this pos v = .ok (s', it)) :
    ∃ L' X', InvM s' (Function.update M this X') ∧
      s'.lists = Function.update s.lists this (some L') := by
  obtain ⟨L, X, hL, hX, hp⟩ := hlk
  have hXM : X = M this := hX.unique (hM.2.1 this L hL)
  by_cases hlst : pos.lst = this
  · obtain ⟨pre, post, hsplit, hp'⟩ := split_at_addr X L.tail pos.ptr hp
    rw [hsplit] at hX
    obtain ⟨s'', e', l, r, b, f⟩ := insert_state_spec pre post v hL hX hM.1.fresh
    have hpos : pos = ⟨nextOf (dataCells post) L.tail, this⟩ := by
      cases pos; simp only [iterator.mk.injEq]; exact ⟨hp', hlst⟩
    rw [hpos, e'] at e; cases e
    have hMs : M this = pre ++ post := by rw [← hXM, hsplit]
    refine ⟨_, _, InvM.update_chain hM hL l r ?_ (by omega) ?_, l⟩
    · intro a ha
      rw [hMs]
      rcases (mem_chainAddrs_insert L _ pre post _ _ a).1 ha with h | h
      · exact Or.inl h
      · exact Or.inr (by omega)
    · intro x hx hb
      rw [hMs] at hx
      exact f x hx (by omega)
  · simp [list.insert, State.getList, hL, hlst] at e

theorem inv_insert {s s' : State T} {this : Nat} {pos it : iterator} {v : T} (hinv : Inv s)
    (hlk : Linked s this pos.ptr) (e : list.insert s this pos v = .ok (s', it)) : Inv s' := by
  obtain ⟨M, hM⟩ := hinv
  obtain ⟨_, _, h, -⟩ := invM_insert hM hlk e
  exact ⟨_, h⟩

theorem invM_erase {s s' : State T} {M : Nat → List (Nat × T)} {this : Nat} {pos it : iterator}
    (hM : InvM s M)
    (hlk : Linked s this pos.ptr) (e : list.erase s this pos = .ok (s', it)) :
    ∃ L' X', InvM s' (Function.update M this X') ∧
      s'.lists = Function.update s.lists this (some L') := by
  obtain ⟨L, X, hL, hX, hp⟩ := hlk
  have hXM : X = M this := hX.unique (hM.2.1 this L hL)
  by_cases hc : L.count = 0
  · simp [list.erase, State.getList, hL, hc] at e
  by_cases hlst : pos.lst = this
  swap
  · simp [list.erase, State.getList, hL, hc, hlst] at e
  rcases List.mem_append.1 hp with hp | hp
  · obtain ⟨x, hx, hxp⟩ := List.mem_map.1 hp
    obtain ⟨pre, post, hsplit⟩ := List.append_of_mem hx
    rw [hsplit] at hX
    obtain ⟨s'', e', l, r, b, c, f⟩ := erase_state_spec pre x post hL hX
    have hpos : pos = ⟨x.1, this⟩ := by
      cases pos; simp only [iterator.mk.injEq]; exact ⟨hxp.symm, hlst⟩
    rw [hpos, e'] at e; cases e
    have hMs : M this = pre ++ x :: post := by rw [← hXM, hsplit]
    refine ⟨_, _, InvM.update_chain hM hL l r ?_ (by omega) ?_, l⟩
    · intro a ha
      rw [hMs]
      left
      exact (chainAddrs_sublist L
        (List.Sublist.append_left (List.sublist_cons_self x post) pre)).subset ha
    · intro x' hx' _
      rw [hMs] at hx'
      exact f x' hx'
  · simp only [List.mem_singleton] at hp
    have hpos : pos = ⟨L.tail, this⟩ := by
      cases pos; simp only [iterator.mk.injEq]; exact ⟨hp, hlst⟩
    rw [hpos] at e
    simp [list.erase, State.getList, hL, hc, hX.tail_ne_zero, Heap.get_of hX.tail_cell] at e

theorem inv_erase {s s' : State T} {this : Nat} {pos it : iterator} (hinv : Inv s)
    (hlk : Linked s this pos.ptr) (e : list.erase s this pos = .ok (s', it)) : Inv s' := by
  obtain ⟨M, hM⟩ := hinv
  obtain ⟨_, _, h, -⟩ := invM_erase hM hlk e
  exact ⟨_, h⟩

theorem invM_pop_back {s s' : State T} {M : Nat → List (Nat × T)} {this : Nat} (hM : InvM s M)
    (e : list.pop_back s this = .ok s') :
    ∃ L' X', InvM s' (Function.update M this X') ∧
      s'.lists = Function.update s.lists this (some L') := by
  obtain ⟨L, e1, -⟩ := bind_eq_ok (by rw [list.pop_back] at e; exact e)
  have hL := getList_of_ok e1
  have hX := hM.2.1 this L hL
  by_cases hc : L.count = 0
  · simp [list.pop_back, State.getList, hL, hc] at e
  have hne : M this ≠ [] := by
    intro h0; rw [h0] at hX; exact hc hX.2.2.2
  obtain ⟨pre, x, hsplit⟩ := exists_concat (M this) hne
  rw [hsplit] at hX
  obtain ⟨s'', e', l, r, b, c, f⟩ := pop_back_state_spec pre x hL hX
  rw [e'] at e; cases e
  refine ⟨_, _, InvM.update_chain hM hL l r ?_ (by omega) ?_, l⟩
  · intro a ha
    rw [hsplit]
    left
    exact (chainAddrs_sublist L (List.sublist_append_left pre [x])).subset ha
  · intro x' hx' _
    rw [hsplit] at hx'
    exact f x' hx'

theorem inv_pop_back {s s' : State T} {this : Nat} (hinv : Inv s)
    (e : list.pop_back s this = .ok s') : Inv s' := by
  obtain ⟨M, hM⟩ := hinv
  obtain ⟨_, _, h, -⟩ := invM_pop_back hM e
  exact ⟨_, h⟩

theorem invM_pop_front {s s' : State T} {M : Nat → List (Nat × T)} {this : Nat} (hM : InvM s M)
    (e : list.pop_front s this = .ok s') :
    ∃ L' X', InvM s' (Function.update M this X') ∧
      s'.lists = Function.update s.lists this (some L') := by
  obtain ⟨L, e1, -⟩ := bind_eq_ok (by rw [list.pop_front] at e; exact e)
  have hL := getList_of_ok e1
  have hX := hM.2.1 this L hL
  by_cases hc : L.count = 0
  · simp [list.pop_front, State.getList, hL, hc] at e
  obtain ⟨x, post, hsplit⟩ : ∃ x post, M this = x :: post := by
    cases hm : M this with
    | nil => rw [hm] at hX; exact absurd hX.2.2.2 hc
    | cons x post => exact ⟨x, post, rfl⟩
  rw [hsplit] at hX
  obtain ⟨s'', e', l, r, b, c, f⟩ := pop_front_state_spec x post hL hX
  rw [e'] at e; cases e
  refine ⟨_, _, InvM.update_chain hM hL l r ?_ (by omega) ?_, l⟩
  · intro a ha
    rw [hsplit]
    left
    exact (chainAddrs_sublist L (List.sublist_cons_self x post)).subset ha
  · intro x' hx' _
    rw [hsplit] at hx'
    exact f x' hx'

theorem inv_pop_front {s s' : State T} {this : Nat} (hinv : Inv s)
    (e : list.pop_front s this = .ok s') : Inv s' := by
  obtain ⟨M, hM⟩ := hinv
  obtain ⟨_, _, h, -⟩ := invM_pop_front hM e
  exact ⟨_, h⟩

theorem invM_clear {s s' : State T} {M : Nat → List (Nat × T)} {this fuel : Nat} {L : list}
    (hM : InvM s M) (hL : s.lists this = some L) (e : list.clear fuel s this = .ok s') :
    InvM s' (Function.update M this []) ∧
      s'.lists = Function.update s.lists this (some ⟨L.head, L.tail, 0⟩) ∧
      s'.heap.brk = s.heap.brk ∧
      (∀ x, x ∉ chainAddrs L (M this) → s'.heap.cells x = s.heap.cells x) := by
  obtain ⟨s'', e', l, r, b, -, f⟩ := clear_state_spec hL (hM.2.1 this L hL)
    (max fuel ((M this).length + 1)) (by omega)
  rw [clear_mono (le_max_left _ _) e] at e'
  cases e'
  refine ⟨InvM.update (chainAddrs L (M this)) hM ?_ ?_ l r ?_ (by omega) (fun x hx _ => f x hx),
    l, b, f⟩
  · intro b' Lb hb' hLb x hx hm
    exact hM.2.2 b' this Lb L hb' hLb hL x hx hm
  · intro x hx
    exact hM.1.lt_of_live ((hM.2.1 this L hL).live hx)
  · intro a ha
    left
    exact (chainAddrs_sublist L (List.nil_sublist (M this))).subset ha

theorem inv_clear {s s' : State T} {this fuel : Nat} (hinv : Inv s)
    (e : list.clear fuel s this = .ok s') : Inv s' := by
  obtain ⟨M, hM⟩ := hinv
  obtain ⟨L, e1, -⟩ := bind_eq_ok (by rw [list.clear] at e; exact e)
  exact ⟨_, (invM_clear hM (getList_of_ok e1) e).1⟩

theorem invM_sort {lt : T → T → Bool} {srt : (Nat → Nat → Bool) → List Nat → List Nat}
    {s s' : State T} {M : Nat → List (Nat × T)} {this fuel : Nat} (hM : InvM s M)
    (hperm : ∀ arr, (srt (list.cmp lt s.heap) arr).Perm arr)
    (e : list.sort lt srt fuel s this = .ok s') :
    ∃ L' X', InvM s' (Function.update M this X') ∧
      s'.lists = Function.update s.lists this (some L') := by
  obtain ⟨L, e1, -⟩ := bind_eq_ok (by rw [list.sort] at e; exact e)
  have hL := getList_of_ok e1
  obtain ⟨s'', Z, e', l, hZ, -, -, r, b, f⟩ := sort_state_spec lt srt hL (hM.2.1 this L hL)
    (hperm _) (max fuel ((M this).length + 1)) (by omega)
  rw [sort_mono (le_max_left _ _) e] at e'
  cases e'
  refine ⟨_, _, InvM.update_chain hM hL (l.trans (update_self_of hL)) r ?_ (by omega)
    (fun x hx _ => f x hx), l.trans (update_self_of hL)⟩
  intro a ha
  left
  have hp : (chainAddrs L Z).Perm (chainAddrs L (M this)) := by
    simp only [chainAddrs]
    exact ((hZ.map Prod.fst).append_right _).cons _
  exact hp.mem_iff.1 ha

theorem inv_sort {lt : T → T → Bool} {srt : (Nat → Nat → Bool) → List Nat → List Nat}
    {s s' : State T} {this fuel : Nat} (hinv : Inv s)
    (hperm : ∀ arr, (srt (list.cmp lt s.heap) arr).Perm arr)
    (e : list.sort lt srt fuel s this = .ok s') : Inv s' := by
  obtain ⟨M, hM⟩ := hinv
  obtain ⟨_, _, h, -⟩ := invM_sort hM hperm e
  exact ⟨_, h⟩

theorem invM_reverse {s s' : State T} {M : Nat → List (Nat × T)} {this fuel : Nat}
    (hM : InvM s M)
    (e : list.reverse fuel s this = .ok s') :
    ∃ L' X', InvM s' (Function.update M this X') ∧
      s'.lists = Function.update s.lists this (some L') := by
  obtain ⟨L, e1, -⟩ := bind_eq_ok (by rw [list.reverse] at e; exact e)
  have hL := getList_of_ok e1
  obtain ⟨s'', e', l, r, b, -, f⟩ := reverse_state_spec hL (hM.2.1 this L hL)
    (max fuel ((M this).length + 1)) (by omega)
  rw [reverse_mono (le_max_left _ _) e] at e'
  cases e'
  refine ⟨_, _, InvM.update_chain hM hL (l.trans (update_self_of hL)) r ?_ (by omega)
    (fun x hx _ => f x hx), l.trans (update_self_of hL)⟩
  intro a ha
  left
  have hp : (chainAddrs L (M this).reverse).Perm (chainAddrs L (M this)) := by
    simp only [chainAddrs]
    exact (((List.reverse_perm _).map Prod.fst).append_right _).cons _
  exact hp.mem_iff.1 ha

theorem inv_reverse {s s' : State T} {this fuel : Nat} (hinv : Inv s)
    (e : list.reverse fuel s this = .ok s') : Inv s' := by
  obtain ⟨M, hM⟩ := hinv
  obtain ⟨_, _, h, -⟩ := invM_reverse hM e
  exact ⟨_, h⟩

theorem invM_unique {eq : T → T → Bool} {s s' : State T} {M : Nat → List (Nat × T)}
    {this fuel : Nat}
    (hM : InvM s M)
    (e : list.unique eq fuel s this = .ok s') :
    ∃ L' X', InvM s' (Function.update M this X') ∧
      s'.lists = Function.update s.lists this (some L') := by
  obtain ⟨L, e1, -⟩ := bind_eq_ok (by rw [list.unique] at e; exact e)
  have hL := getList_of_ok e1
  obtain ⟨s'', e', l, r, b, f⟩ := unique_state_spec eq hL (hM.2.1 this L hL)
    (max fuel ((M this).length + 1)) (by omega)
  rw [unique_mono (le_max_left _ _) e] at e'
  cases e'
  refine ⟨_, _, InvM.update_chain hM hL l r ?_ (by omega) (fun x hx _ => f x hx), l⟩
  intro a ha
  left
  exact (chainAddrs_sublist L (uniqueSeq_sublist (eqVal eq) (M this))).subset ha

theorem inv_unique {eq : T → T → Bool} {s s' : State T} {this fuel : Nat} (hinv : Inv s)
    (e : list.unique eq fuel s this = .ok s') : Inv s' := by
  obtain ⟨M, hM⟩ := hinv
  obtain ⟨_, _, h, -⟩ := invM_unique hM e
  exact ⟨_, h⟩

theorem InvM.remove {s : State T} {M : Nat → List (Nat × T)} (hM : InvM s M) (other : Nat) :
    InvM { heap := s.heap, lists := Function.update s.lists other none } M := by
  refine ⟨hM.1, ?_, ?_⟩
  · intro a L hL
    by_cases ha : a = other
    · subst ha; simp at hL
    · simp only [Function.update_noteq ha] at hL
      exact hM.2.1 a L hL
  · intro a b La Lb hab hLa hLb
    by_cases ha : a = other
    · subst ha; simp at hLa
    by_cases hb : b = other
    · subst hb; simp at hLb
    simp only [Function.update_noteq ha] at hLa
    simp only [Function.update_noteq hb] at hLb
    exact hM.2.2 a b La Lb hab hLa hLb

theorem invM_merge {lt : T → T → Bool} {s s' : State T} {M : Nat → List (Nat × T)}
    {this other fuel : Nat} (hM : InvM s M) (e : list.merge lt fuel s this other = .ok s') :
    ∃ M', InvM s' M' ∧ ∀ b, b ≠ this → b ≠ other → M' b = M b ∧ s'.lists b = s.lists b := by
  obtain ⟨L, e1, e2⟩ := bind_eq_ok (by rw [list.merge] at e; exact e)
  obtain ⟨O, e2, e3⟩ := bind_eq_ok e2
  have hL := getList_of_ok e1
  have hO := getList_of_ok e2
  by_cases hne : this = other
  · simp only [hne, if_true, pure_eq_ok, Except.ok.injEq] at e3
    rw [← e3]; exact ⟨M, hM, fun _ _ _ => ⟨rfl, rfl⟩⟩
  have hX := hM.2.1 this L hL
  have hY := hM.2.1 other O hO
  have hnd : (chainAddrs L (M this) ++ chainAddrs O (M other)).Nodup :=
    List.nodup_append.2 ⟨hX.2.1, hY.2.1, fun x h1 h2 => hM.2.2 this other L O hne hL hO x h1 h2⟩
  obtain ⟨s'', e', l, r1, r2, hpa, b, f⟩ := merge_state_spec lt hne hL hO hX hY hnd
    (max fuel ((M this).length + (M other).length + 1)) (by omega)
  rw [merge_mono (le_max_left _ _) e] at e'
  cases e'
  have hnd' := (List.Perm.nodup_iff hpa).2 hnd
  -- first the list at `this`, in the memory without `other`
  have hM0 := hM.remove other
  have hL0 : (Function.update s.lists other none) this = some L := by
    rw [Function.update_noteq hne]; exact hL
  have hM1 : InvM (⟨s'.heap, Function.update (Function.update s.lists other none) this
      (some ⟨L.head, L.tail, L.count + O.count⟩)⟩ : State T)
      (Function.update M this (mergeSeq (ltVal lt) (M this) (M other))) := by
    refine InvM.update (chainAddrs L (M this) ++ chainAddrs O (M other)) hM0 ?_ ?_ rfl r1 ?_
      (by show s.heap.brk ≤ s'.heap.brk; omega) (fun x hx _ => f x hx)
    · intro b' Lb hb' hLb x hx hm
      have hbo : b' ≠ other := by
        intro e0; rw [e0] at hLb; simp at hLb
      have hLb' : s.lists b' = some Lb := by
        simpa only [Function.update_noteq hbo] using hLb
      rcases List.mem_append.1 hm with hm | hm
      · exact hM.2.2 b' this Lb L hb' hLb' hL x hx hm
      · exact hM.2.2 b' other Lb O hbo hLb' hO x hx hm
    · intro x hx
      rcases List.mem_append.1 hx with hx | hx
      · exact hM.1.lt_of_live (hX.live hx)
      · exact hM.1.lt_of_live (hY.live hx)
    · intro a ha
      left
      exact hpa.mem_iff.1 (List.mem_append_left _ ha)
  -- then the emptied list at `other`
  refine ⟨Function.update (Function.update M this (mergeSeq (ltVal lt) (M this) (M other)))
    other [], ?_, ?_⟩
  swap
  · intro b' hb1 hb2
    exact ⟨by rw [Function.update_noteq hb2, Function.update_noteq hb1],
      by rw [l, Function.update_noteq hb2, Function.update_noteq hb1]⟩
  refine InvM.update [O.head, O.tail] hM1 ?_ ?_ ?_ r2 ?_ (le_refl _) (fun _ _ _ => rfl)
  · intro b' Lb hb' hLb x hx hm
    by_cases hbt : b' = this
    · subst hbt
      simp only [Function.update_same, Option.some.injEq] at hLb hx
      subst hLb
      exact (List.nodup_append.1 hnd').2.2 hx hm
    · have hLb' : s.lists b' = some Lb := by
        simpa only [Function.update_noteq hbt, Function.update_noteq hb'] using hLb
      simp only [Function.update_noteq hbt] at hx
      apply hM.2.2 b' other Lb O hb' hLb' hO x hx
      simp only [List.mem_cons, List.mem_singleton, List.not_mem_nil, or_false] at hm
      simp only [chainAddrs, List.mem_cons, List.mem_append, List.mem_singleton]
      tauto
  · intro x hx
    show x < s'.heap.brk
    rw [b]
    apply hM.1.lt_of_live
    apply hY.live
    simp only [List.mem_cons, List.mem_singleton, List.not_mem_nil, or_false] at hx
    simp only [chainAddrs, List.mem_cons, List.mem_append, List.mem_singleton]
    tauto
  · rw [l]
    show _ = Function.update (Function.update (Function.update s.lists other none) this _)
      other _
    rw [Function.update_comm (Ne.symm hne), Function.update_idem, Function.update_comm hne]
  · intro a ha
    left
    simpa [chainAddrs] using ha

theorem inv_merge {lt : T → T → Bool} {s s' : State T} {this other fuel : Nat} (hinv : Inv s)
    (e : list.merge lt fuel s this other = .ok s') : Inv s' := by
  obtain ⟨M, hM⟩ := hinv
  obtain ⟨M', h, -⟩ := invM_merge hM e
  exact ⟨M', h⟩

theorem invM_copy_loop {s s' : State T} {M : Nat → List (Nat × T)} {this other fuel : Nat}
    {L O : list} {p : Nat} (hM : InvM s M) (hne : this ≠ other) (hL : s.lists this = some L)
    (hO : s.lists other = some O) (hp : s.heap.get O.head = .ok ⟨none, 0, p⟩)
    (e : list.copy_loop fuel s this O.tail p = .ok s') :
    ∃ L' X', InvM s' (Function.update M this (M this ++ X')) ∧
      s'.lists = Function.update s.lists this (some L') ∧
      X'.map Prod.snd = (M other).map Prod.snd := by
  have hX := hM.2.1 this L hL
  have hY := hM.2.1 other O hO
  have hpe : p = nextOf (dataCells (M other)) O.tail := by
    rw [Heap.get_of hY.head_cell] at hp
    simp only [Except.ok.injEq, node.mk.injEq, true_and] at hp
    exact hp.symm
  subst hpe
  obtain ⟨s'', X', e', l, r, hv, a', b, -, f⟩ := copy_loop_spec (M other) s this L (M this)
    O.head 0 O.tail (max fuel ((M other).length + 1)) hL hX hM.1 hY.data_seg hY.tail_not_mem
    (fun a ha hm => hM.2.2 this other L O hne hL hO a hm
      (List.mem_cons_of_mem _ ha)) (by omega)
  rw [mono_le (fun f => copy_loop_mono f s this O.tail _ s') (le_max_left _ _) e] at e'
  cases e'
  refine ⟨_, X', InvM.update_chain hM hL l r ?_ b f, l, hv⟩
  intro a ha
  simp only [chainAddrs, List.map_append, List.mem_cons, List.mem_append,
    List.mem_singleton] at ha ⊢
  rcases ha with h | (h | h) | h
  · exact Or.inl (Or.inl h)
  · exact Or.inl (Or.inr (Or.inl h))
  · exact Or.inr (a' a h)
  · exact Or.inl (Or.inr (Or.inr h))

theorem invM_copy_tail {s s' : State T} {M : Nat → List (Nat × T)} {this other fuel : Nat}
    (hM : InvM s M) (hthis : ∃ L, s.lists this = some L ∧ M this = [])
    (e : (s.getList other >>= fun O => s.heap.get O.head >>= fun ohd =>
      list.copy_loop fuel s this O.tail ohd.next) = .ok s') :
    ∃ L' X', InvM s' (Function.update M this X') ∧
      s'.lists = Function.update s.lists this (some L') ∧
      X'.map Prod.snd = (M other).map Prod.snd := by
  obtain ⟨L, hL, hempty⟩ := hthis
  obtain ⟨O, e1, e3⟩ := bind_eq_ok e
  obtain ⟨ohd, e2, e4⟩ := bind_eq_ok e3
  clear e e3
  have hO := getList_of_ok e1
  have hY := hM.2.1 other O hO
  have hohd : ohd = ⟨none, 0, nextOf (dataCells (M other)) O.tail⟩ := by
    rw [Heap.get_of hY.head_cell] at e2
    cases e2; rfl
  by_cases hne : this = other
  · subst hne
    rw [hohd, hempty] at e4
    cases fuel with
    | zero => cases e4
    | succ f =>
      simp only [list.copy_loop, dataCells_nil, nextOf_nil, if_true, pure_eq_ok,
        Except.ok.injEq] at e4
      rw [← e4]
      refine ⟨L, [], ?_, update_self_of hL, by rw [hempty]⟩
      rw [← hempty, Function.update_eq_self]
      exact hM
  · rw [hohd] at e2 e4
    obtain ⟨L', X', h, l, hv⟩ := invM_copy_loop hM hne hL hO e2 e4
    rw [hempty, List.nil_append] at h
    exact ⟨L', X', h, l, hv⟩

theorem invM_copy_ctor {s s' : State T} {M : Nat → List (Nat × T)} {this other fuel : Nat}
    (hM : InvM s M) (e : list.copy_ctor fuel s this other = .ok s') :
    ∃ L' X', InvM s' (Function.update M this X') ∧
      s'.lists = Function.update s.lists this (some L') ∧
      (this ≠ other → X'.map Prod.snd = (M other).map Prod.snd) := by
  rw [list.copy_ctor] at e
  obtain ⟨s1, e1, e⟩ := bind_eq_ok e
  obtain ⟨hM1, l1, -, -⟩ := invM_ctor hM e1
  obtain ⟨L', X', h, l, hv⟩ := invM_copy_tail hM1
    ⟨_, by rw [l1, Function.update_same], Function.update_same _ _ _⟩ e
  rw [Function.update_idem] at h
  rw [l1, Function.update_idem] at l
  refine ⟨L', X', h, l, fun hne => ?_⟩
  rw [hv, Function.update_noteq (Ne.symm hne)]

theorem invM_assign {s s' : State T} {M : Nat → List (Nat × T)} {this other fuel : Nat}
    (hM : InvM s M) (e : list.assign fuel s this other = .ok s') :
    ∃ L' X', InvM s' (Function.update M this X') ∧
      s'.lists = Function.update s.lists this (some L') ∧
      X'.map Prod.snd = (M other).map Prod.snd := by
  rw [list.assign] at e
  obtain ⟨L, e0, e2⟩ := bind_eq_ok e
  clear e
  have hL := getList_of_ok e0
  by_cases hne : this = other
  · simp only [hne, if_true, pure_eq_ok, Except.ok.injEq] at e2
    subst hne
    subst e2
    refine ⟨L, M this, ?_, update_self_of hL, rfl⟩
    rw [Function.update_eq_self]
    exact hM
  · rw [if_neg hne] at e2
    obtain ⟨s1, e1, e⟩ := bind_eq_ok e2
    obtain ⟨hM1, l1, -, -⟩ := invM_clear hM hL e1
    obtain ⟨L', X', h, l, hv⟩ := invM_copy_tail hM1
      ⟨_, by rw [l1, Function.update_same], Function.update_same _ _ _⟩ e
    rw [Function.update_idem] at h
    rw [l1, Function.update_idem] at l
    refine ⟨L', X', h, l, ?_⟩
    rw [hv, Function.update_noteq (Ne.symm hne)]

theorem inv_copy_ctor {s s' : State T} {this other fuel : Nat} (hinv : Inv s)
    (e : list.copy_ctor fuel s this other = .ok s') : Inv s' := by
  obtain ⟨M, hM⟩ := hinv
  obtain ⟨_, _, h, -⟩ := invM_copy_ctor hM e
  exact ⟨_, h⟩

theorem inv_assign {s s' : State T} {this other fuel : Nat} (hinv : Inv s)
    (e : list.assign fuel s this other = .ok s') : Inv s' := by
  obtain ⟨M, hM⟩ := hinv
  obtain ⟨_, _, h, -⟩ := invM_assign hM e
  exact ⟨_, h⟩

/-- Every memory reached with linked iterators satisfies the invariant. -/
theorem reach_inv {s : State T} (h : Reach true s) : Inv s := by
  induction h with
  | init => exact ⟨_, invM_init⟩
  | ctor s s' this _ _ e ih =>
    obtain ⟨M, hM⟩ := ih
    exact ⟨_, (invM_ctor hM e).1⟩
  | copy_ctor fuel s s' this other _ _ e ih => exact inv_copy_ctor ih e
  | assign fuel s s' this other _ e ih => exact inv_assign ih e
  | insert s s' this pos it v _ hlk e ih => exact inv_insert ih (hlk rfl) e
  | erase s s' this pos it _ hlk e ih => exact inv_erase ih (hlk rfl) e
  | push_back s s' this v _ e ih => exact inv_push_back ih e
  | push_front s s' this v _ e ih => exact inv_push_front ih e
  | pop_back s s' this _ e ih => exact inv_pop_back ih e
  | pop_front s s' this _ e ih => exact inv_pop_front ih e
  | clear fuel s s' this _ e ih => exact inv_clear ih e
  | sort lt srt fuel s s' this _ hperm e ih => exact inv_sort ih hperm e
  | merge lt fuel s s' this other _ e ih => exact inv_merge ih e
  | reverse fuel s s' this _ e ih => exact inv_reverse ih e
  | unique eq fuel s s' this _ e ih => exact inv_unique ih e

/-! ## What the invariant says about the two walks -/

theorem seg_mirror {m : Nat → Option (node T)} (cs : List (Nat × Option T)) :
    ∀ (p n : Nat) (d : Nat × Option T), Seg m p (cs ++ [d]) n →
      ∀ a ∈ cs.map Prod.fst, ∃ cn cm, m a = some cn ∧ m cn.next = some cm ∧ cm.prev = a := by
  induction cs with
  | nil => intro p n d _ a ha; simp at ha
  | cons c cs ih =>
    intro p n d hs a ha
    rw [List.cons_append, seg_cons] at hs
    obtain ⟨hc, hrest⟩ := hs
    rcases List.mem_cons.1 ha with rfl | ha
    · cases cs with
      | nil =>
        rw [List.nil_append, seg_cons] at hrest
        exact ⟨_, _, hc, hrest.1, rfl⟩
      | cons e cs =>
        rw [List.cons_append, seg_cons] at hrest
        exact ⟨_, _, hc, hrest.1, rfl⟩
    · exact ih c.1 n d hrest a ha

theorem walkPrev_spec {h : Heap T} (X : List (Nat × T)) :
    ∀ (hd n fuel : Nat), Seg h.cells hd (dataCells X) n → hd ∉ X.map Prod.fst →
      X.length < fuel →
      walkPrev fuel h hd (lastOf (dataCells X) hd) = .ok (X.map Prod.fst).reverse := by
  induction X using List.reverseRecOn with
  | nil =>
    intro hd n fuel _ _ hf
    obtain ⟨f, rfl⟩ : ∃ f, fuel = f + 1 := ⟨fuel - 1, by simp at hf; omega⟩
    simp [walkPrev]
  | append_singleton X x ih =>
    intro hd n fuel hs hhd hf
    obtain ⟨f, rfl⟩ : ∃ f, fuel = f + 1 := ⟨fuel - 1, by omega⟩
    rw [dataCells_append, dataCells_cons, dataCells_nil, seg_append, seg_cons] at hs
    obtain ⟨hX, hx, -⟩ := hs
    have hx' : h.cells x.1 = some ⟨some x.2, lastOf (dataCells X) hd, n⟩ := hx
    have hne : x.1 ≠ hd := fun e => hhd (by simp [e])
    have hrec := ih hd x.1 f hX (fun hm => hhd (by simp [hm])) (by simp at hf; omega)
    rw [dataCells_append, dataCells_cons, dataCells_nil, lastOf_concat]
    simp [walkPrev, hne, Heap.get_of hx', hrec]

theorem Repr.nodes {s : State T} {this : Nat} {L : list} {X : List (Nat × T)}
    (hL : s.lists this = some L) (hR : Repr s.heap L X) (fuel : Nat) (hf : X.length < fuel) :
    list.nodes fuel s this = .ok (X.map Prod.fst) := by
  simp [list.nodes, State.getList, hL, Heap.get_of hR.head_cell,
    fill_loop_spec X hR.data_seg hR.tail_not_mem fuel hf]

theorem Repr.nodes_back {s : State T} {this : Nat} {L : list} {X : List (Nat × T)}
    (hL : s.lists this = some L) (hR : Repr s.heap L X) (fuel : Nat) (hf : X.length < fuel) :
    list.nodes_back fuel s this = .ok (X.map Prod.fst).reverse := by
  have hs := hR.data_seg
  rw [seg_append] at hs
  have hhd : L.head ∉ X.map Prod.fst := by
    intro hm
    have := hR.2.1
    simp only [chainAddrs, List.nodup_cons, List.mem_append] at this
    exact this.1 (Or.inl hm)
  simp [list.nodes_back, State.getList, hL, Heap.get_of hR.tail_cell,
    walkPrev_spec X L.head _ fuel hs.1 hhd hf]

/-! ## Reaching concrete memories -/

theorem Reach.run_ctor {strict : Bool} {s : State T} {this : Nat} (h : Reach strict s)
    (hn : s.lists this = none) (hok : (list.ctor s this).toOption.isSome = true) :
    Reach strict (State.run (list.ctor s this)) := by
  cases e : list.ctor s this with
  | error err => rw [e] at hok; cases hok
  | ok s' => exact Reach.ctor s s' this h hn e

theorem Reach.run_push_back {strict : Bool} {s : State T} {this : Nat} {v : T}
    (h : Reach strict s) (hok : (list.push_back s this v).toOption.isSome = true) :
    Reach strict (State.run (list.push_back s this v)) := by
  cases e : list.push_back s this v with
  | error err => rw [e] at hok; cases hok
  | ok s' => exact Reach.push_back s s' this v h e

theorem Reach.run_merge {strict : Bool} {lt : T → T → Bool} {s : State T}
    {this other fuel : Nat} (h : Reach strict s)
    (hok : (list.merge lt fuel s this other).toOption.isSome = true) :
    Reach strict (State.run (list.merge lt fuel s this other)) := by
  cases e : list.merge lt fuel s this other with
  | error err => rw [e] at hok; cases hok
  | ok s' => exact Reach.merge lt fuel s s' this other h e

theorem Reach.run_insert {s : State T} {this : Nat} {pos : iterator} {v : T}
    (h : Reach false s) (hok : (list.insert s this pos v).toOption.isSome = true) :
    Reach false (State.run ((list.insert s this pos v).map Prod.fst)) := by
  cases e : list.insert s this pos v with
  | error err => rw [e] at hok; cases hok
  | ok r => exact Reach.insert s r.1 this pos r.2 v h (fun hf => by cases hf) e

theorem reach_exB1 (strict : Bool) : Reach strict exB1 :=
  Reach.run_push_back (Reach.run_ctor (Reach.run_ctor Reach.init (by decide!) (by decide!))
    (by decide!) (by decide!)) (by decide!)

/-- C7, as stated, fails.  Take two lists `A` (address 1) and `B` (address 2):
`A.push_back(7)`, `it = A.begin()`, `B.merge(A)`, `A.insert(it, 9)`.  Every
call succeeds; afterwards `A.size()` is 1 while the walk from `A`'s head
reaches its tail at once, and `B.size()` is 1 while `B`'s chain holds two
nodes. -/
theorem reach_any_breaks :
    Reach false exBroken ∧
    (list.begin exB1 1).toOption = some ⟨5, 1⟩ ∧
    (list.size exBroken 1).toOption = some 1 ∧
    (list.nodes 3 exBroken 1).toOption = some [] ∧
    (list.size exBroken 2).toOption = some 1 ∧
    (list.nodes 3 exBroken 2).toOption = some [6, 5] :=
  ⟨Reach.run_insert (Reach.run_merge (reach_exB1 false) (by decide!)) (by decide!),
    by decide!, by decide!, by decide!, by decide!, by decide!⟩

/-- C7, amended: in every memory reached from construction by the public
operations, with every iterator passed to `insert` or `erase` referencing a
node currently linked in the receiving list, each list has a sequence `X` of
pairwise distinct value-holding nodes such that walking `next` from head
reaches tail after exactly those nodes, `count` and `size()` are their number,
`n.next.prev = n` for head and every data node, and walking `prev` from tail
reaches head through the same nodes in reverse order. -/
theorem reach_structure (s : State T) (this : Nat) (L : list) (hr : Reach true s)
    (hL : s.lists this = some L) :
    ∃ X : List (Nat × T), Repr s.heap L X ∧
      (∀ fuel, L.count < fuel → list.nodes fuel s this = .ok (X.map Prod.fst)) ∧
      (∀ fuel, L.count < fuel → list.cells fuel s this = .ok X) ∧
      (X.map Prod.fst).Nodup ∧ (X.map Prod.fst).length = L.count ∧
      list.size s this = .ok (X.map Prod.fst).length ∧
      (∀ n ∈ L.head :: X.map Prod.fst, ∃ cn cm,
        s.heap.cells n = some cn ∧ s.heap.cells cn.next = some cm ∧ cm.prev = n) ∧
      (∀ fuel, L.count < fuel →
        list.nodes_back fuel s this = .ok (X.map Prod.fst).reverse) := by
  obtain ⟨M, hM⟩ := reach_inv hr
  have hX := hM.2.1 this L hL
  have hc := hX.2.2.2
  refine ⟨M this, hX, fun fuel hf => hX.nodes hL fuel (by omega),
    fun fuel hf => hX.cells hL fuel (by omega), ?_, by rw [List.length_map, hc],
    by rw [List.length_map]; exact hX.size hL, ?_,
    fun fuel hf => hX.nodes_back hL fuel (by omega)⟩
  · have := hX.2.1
    simp only [chainAddrs, List.nodup_cons, List.nodup_append] at this
    exact this.2.1
  · intro n hn
    have hs : Seg s.heap.cells 0 (((L.head, none) :: dataCells (M this)) ++ [(L.tail, none)])
        0 := hX.1
    exact seg_mirror _ 0 0 _ hs n (by simpa using hn)

theorem reach_structure_witness :
    ∃ X : List (Nat × Nat), Repr exB1.heap ⟨1, 2, 1⟩ X ∧
      (∀ fuel, (⟨1, 2, 1⟩ : list).count < fuel → list.nodes fuel exB1 1 = .ok (X.map Prod.fst)) ∧
      (∀ fuel, (⟨1, 2, 1⟩ : list).count < fuel → list.cells fuel exB1 1 = .ok X) ∧
      (X.map Prod.fst).Nodup ∧ (X.map Prod.fst).length = (⟨1, 2, 1⟩ : list).count ∧
      list.size exB1 1 = .ok (X.map Prod.fst).length ∧
      (∀ n ∈ (⟨1, 2, 1⟩ : list).head :: X.map Prod.fst, ∃ cn cm,
        exB1.heap.cells n = some cn ∧ exB1.heap.cells cn.next = some cm ∧ cm.prev = n) ∧
      (∀ fuel, (⟨1, 2, 1⟩ : list).count < fuel →
        list.nodes_back fuel exB1 1 = .ok (X.map Prod.fst).reverse) :=
  reach_structure exB1 1 ⟨1, 2, 1⟩ (reach_exB1 true) (by decide!)

/-! ## Iterators handed to another list -/

/-- C11 (counterexample): with two distinct empty lists at addresses 1 and 2,
the iterator `end()` of the first passed to `erase` of the second raises
`container_is_empty`, not `invalid_iterator`. -/
theorem foreign_erase_on_empty :
    list.end_ exAB 1 = .ok ⟨2, 1⟩ ∧ list.size exAB 2 = .ok 0 ∧
    list.erase exAB 2 ⟨2, 1⟩ = .error .container_is_empty ∧
    list.erase exAB 2 ⟨2, 1⟩ ≠ .error .invalid_iterator := by
  have e : list.erase exAB 2 ⟨2, 1⟩ = .error .container_is_empty := rfl
  refine ⟨rfl, rfl, e, ?_⟩
  rw [e]
  exact fun h => by cases h

/-- C11 (amended): `begin`, `end`, `++`, `--`, `insert` and `erase` of a list
`a` only produce iterators owned by `a`; an iterator owned by `a` passed to
another list `b` makes `b.insert` raise `invalid_iterator`, and makes `b.erase`
raise `invalid_iterator` when `b` is not empty and `container_is_empty` when
`b` is empty. -/
theorem foreign_iterator_rejected (s : State T) (a b : Nat) (Lb : list) (pos : iterator)
    (v : T) (hab : a ≠ b) (hB : s.lists b = some Lb) (hpos : pos.lst = a) :
    list.insert s b pos v = .error .invalid_iterator ∧
    (Lb.count ≠ 0 → list.erase s b pos = .error .invalid_iterator) ∧
    (Lb.count = 0 → list.erase s b pos = .error .container_is_empty) ∧
    (∀ it, list.begin s a = .ok it → it.lst = a) ∧
    (∀ it, list.end_ s a = .ok it → it.lst = a) ∧
    (∀ it, iterator.inc s pos = .ok it → it.lst = a) ∧
    (∀ it, iterator.dec s pos = .ok it → it.lst = a) ∧
    (∀ p w s' it, list.insert s a p w = .ok (s', it) → it.lst = a) ∧
    (∀ p s' it, list.erase s a p = .ok (s', it) → it.lst = a) := by
  have hne : pos.lst ≠ b := by rw [hpos]; exact hab
  refine ⟨by simp [list.insert, State.getList, hB, hne],
    fun hc => by simp [list.erase, State.getList, hB, hc, hne],
    fun hc => by simp [list.erase, State.getList, hB, hc], ?_, ?_, ?_, ?_, ?_, ?_⟩
  · intro it e
    obtain ⟨L, -, e⟩ := bind_eq_ok (by rw [list.begin] at e; exact e)
    obtain ⟨hd, -, e⟩ := bind_eq_ok e
    cases e; rfl
  · intro it e
    obtain ⟨L, -, e⟩ := bind_eq_ok (by rw [list.end_] at e; exact e)
    cases e; rfl
  · intro it e
    rw [iterator.inc] at e
    split at e
    · cases e
    · obtain ⟨n, -, e⟩ := bind_eq_ok e
      split at e
      · cases e
      · cases e; exact hpos
  · intro it e
    rw [iterator.dec] at e
    split at e
    · cases e
    · obtain ⟨n, -, e⟩ := bind_eq_ok e
      split at e
      · cases e
      · obtain ⟨np, -, e⟩ := bind_eq_ok e
        split at e
        · cases e
        · cases e; exact hpos
  · intro p w s' it e
    obtain ⟨L, -, e⟩ := bind_eq_ok (by rw [list.insert] at e; exact e)
    split at e
    · cases e
    · obtain ⟨r, -, e⟩ := bind_eq_ok e
      cases e; rfl
  · intro p s' it e
    obtain ⟨L, -, e⟩ := bind_eq_ok (by rw [list.erase] at e; exact e)
    split at e
    · cases e
    split at e
    · cases e
    split at e
    · cases e
    obtain ⟨n, -, e⟩ := bind_eq_ok e
    split at e
    · cases e
    · obtain ⟨r, -, e⟩ := bind_eq_ok e
      obtain ⟨r2, -, e⟩ := bind_eq_ok e
      cases e; rfl

theorem foreign_iterator_rejected_witness :
    list.insert exMerge 2 ⟨5, 1⟩ 9 = .error .invalid_iterator ∧
    ((⟨3, 4, 3⟩ : list).count ≠ 0 → list.erase exMerge 2 ⟨5, 1⟩ = .error .invalid_iterator) ∧
    ((⟨3, 4, 3⟩ : list).count = 0 → list.erase exMerge 2 ⟨5, 1⟩ = .error .container_is_empty) ∧
    (∀ it, list.begin exMerge 1 = .ok it → it.lst = 1) ∧
    (∀ it, list.end_ exMerge 1 = .ok it → it.lst = 1) ∧
    (∀ it, iterator.inc exMerge ⟨5, 1⟩ = .ok it → it.lst = 1) ∧
    (∀ it, iterator.dec exMerge ⟨5, 1⟩ = .ok it → it.lst = 1) ∧
    (∀ p w s' it, list.insert exMerge 1 p w = .ok (s', it) → it.lst = 1) ∧
    (∀ p s' it, list.erase exMerge 1 p = .ok (s', it) → it.lst = 1) :=
  foreign_iterator_rejected exMerge 1 2 ⟨3, 4, 3⟩ ⟨5, 1⟩ 9 (by decide) (by decide!) rfl

/-! ## Positions in a represented chain -/

/-- The node of an element of the chain: its value, the node before it (`head`
for the first element) and the node after it (`tail` for the last). -/
theorem Repr.cell_at {h : Heap T} {L : list} {pre post : List (Nat × T)} {x : Nat × T}
    (hR : Repr h L (pre ++ x :: post)) :
    h.cells x.1 =
      some ⟨some x.2, lastOf (dataCells pre) L.head, nextOf (dataCells post) L.tail⟩ := by
  have hs := hR.data_seg
  rw [dataCells_append, dataCells_cons, List.append_assoc, List.cons_append, seg_append,
    seg_cons, nextOf_concat] at hs
  exact hs.2.1

theorem Repr.front {s : State T} {this : Nat} {L : list} {x : Nat × T} {post : List (Nat × T)}
    (hL : s.lists this = some L) (hR : Repr s.heap L (x :: post)) :
    list.front s this = .ok x.2 := by
  have hc : ¬ (L.count = 0) := by rw [hR.2.2.2]; simp
  have hx := Repr.cell_at (show Repr s.heap L ([] ++ x :: post) from hR)
  have hh := hR.head_cell
  rw [dataCells_cons, nextOf_cons] at hh
  simp [list.front, State.getList, hL, hc, Heap.get_of hh, Heap.deref_of hx rfl]

theorem Repr.back {s : State T} {this : Nat} {L : list} {y : Nat × T} {pre : List (Nat × T)}
    (hL : s.lists this = some L) (hR : Repr s.heap L (pre ++ [y])) :
    list.back s this = .ok y.2 := by
  have hc : ¬ (L.count = 0) := by rw [hR.2.2.2]; simp
  have hy := Repr.cell_at hR
  have ht := hR.tail_cell
  rw [dataCells_append, dataCells_cons, dataCells_nil, lastOf_concat] at ht
  simp [list.back, State.getList, hL, hc, Heap.get_of ht, Heap.deref_of hy rfl]

/-! ## insert at `end()` undone by erase -/

/-- C13: `it = insert(end(), v)` followed by `erase(it)` succeeds on every
list, the erase returns `end()`, and the list has the same size, the same
nodes and the same element sequence as before the insert. -/
theorem insert_erase_round_trip (s : State T) (this : Nat) (L : list) (X : List (Nat × T))
    (v : T) (hL : s.lists this = some L) (hX : Repr s.heap L X) (hfr : s.heap.Fresh) :
    ∃ e s1 it s2 it2, list.end_ s this = .ok e ∧ list.insert s this e v = .ok (s1, it) ∧
      list.erase s1 this it = .ok (s2, it2) ∧ list.end_ s2 this = .ok it2 ∧
      list.size s this = .ok X.length ∧ list.size s2 this = .ok X.length ∧
      (∀ fuel, X.length < fuel →
        list.cells fuel s this = .ok X ∧ list.cells fuel s2 this = .ok X) ∧
      (∀ fuel, X.length < fuel →
        list.to_list fuel s this = .ok (X.map Prod.snd) ∧
        list.to_list fuel s2 this = .ok (X.map Prod.snd)) ∧
      s2.lists this = some L ∧ Repr s2.heap L X := by
  have hX0 : Repr s.heap L (X ++ []) := by rw [List.append_nil]; exact hX
  obtain ⟨s1, e1, hl1, r1, -, -⟩ := insert_state_spec X [] v hL hX0 hfr
  have hL1 : s1.lists this = some ⟨L.head, L.tail, L.count + 1⟩ := by
    rw [hl1, Function.update_same]
  obtain ⟨s2, e2, hl2, r2, -, -, -⟩ := erase_state_spec X (s.heap.brk, v) [] hL1 r1
  have hLL : (⟨L.head, L.tail, L.count + 1 - 1⟩ : list) = L := by cases L; rfl
  have hL2 : s2.lists this = some L := by
    rw [hl2, Function.update_same]
    exact congrArg some hLL
  rw [List.append_nil] at r2
  change Repr s2.heap ⟨L.head, L.tail, L.count + 1 - 1⟩ X at r2
  rw [hLL] at r2
  refine ⟨⟨L.tail, this⟩, s1, ⟨s.heap.brk, this⟩, s2, ⟨L.tail, this⟩, ?_, e1, e2, ?_,
    hX.size hL, r2.size hL2, fun fuel hf => ⟨hX.cells hL fuel hf, r2.cells hL2 fuel hf⟩,
    fun fuel hf => ⟨hX.to_list hL fuel hf, r2.to_list hL2 fuel hf⟩, hL2, r2⟩
  · simp [list.end_, State.getList, hL]
  · simp [list.end_, State.getList, hL2]

theorem insert_erase_round_trip_witness :
    ∃ e s1 it s2 it2, list.end_ exMerge 1 = .ok e ∧ list.insert exMerge 1 e 9 = .ok (s1, it) ∧
      list.erase s1 1 it = .ok (s2, it2) ∧ list.end_ s2 1 = .ok it2 ∧
      list.size exMerge 1 = .ok [(5, 1), (6, 3), (7, 5)].length ∧
      list.size s2 1 = .ok [(5, 1), (6, 3), (7, 5)].length ∧
      (∀ fuel, [(5, 1), (6, 3), (7, 5)].length < fuel →
        list.cells fuel exMerge 1 = .ok [(5, 1), (6, 3), (7, 5)] ∧
        list.cells fuel s2 1 = .ok [(5, 1), (6, 3), (7, 5)]) ∧
      (∀ fuel, [(5, 1), (6, 3), (7, 5)].length < fuel →
        list.to_list fuel exMerge 1 = .ok ([(5, 1), (6, 3), (7, 5)].map Prod.snd) ∧
        list.to_list fuel s2 1 = .ok ([(5, 1), (6, 3), (7, 5)].map Prod.snd)) ∧
      s2.lists 1 = some ⟨1, 2, 3⟩ ∧ Repr s2.heap ⟨1, 2, 3⟩ [(5, 1), (6, 3), (7, 5)] :=
  insert_erase_round_trip exMerge 1 ⟨1, 2, 3⟩ [(5, 1), (6, 3), (7, 5)] 9 (by decide!)
    (by decide!) (by decide!)

/-! ## Access and removal at the two ends -/

/-- C15: `front`, `back`, `pop_front` and `pop_back` raise `container_is_empty`
exactly when `count = 0`, which is when `size()` is 0; on a non-empty list
`front` returns the first value and `back` the last, `pop_front` removes
exactly the first node and `pop_back` exactly the last, the other elements
keep their order, and `size()` drops by one. -/
theorem empty_container_failures (s : State T) (this : Nat) (L : list) (X : List (Nat × T))
    (hL : s.lists this = some L) (hX : Repr s.heap L X) :
    list.size s this = .ok L.count ∧
    (list.front s this = .error .container_is_empty ↔ L.count = 0) ∧
    (list.back s this = .error .container_is_empty ↔ L.count = 0) ∧
    (list.pop_front s this = .error .container_is_empty ↔ L.count = 0) ∧
    (list.pop_back s this = .error .container_is_empty ↔ L.count = 0) ∧
    (∀ x post, X = x :: post → list.front s this = .ok x.2 ∧
      ∃ s' L', list.pop_front s this = .ok s' ∧
        (∀ fuel, X.length < fuel → list.cells fuel s' this = .ok post) ∧
        (∀ fuel, X.length < fuel → list.to_list fuel s' this = .ok (post.map Prod.snd)) ∧
        list.size s' this = .ok (L.count - 1) ∧ s'.heap.cells x.1 = none ∧
        s'.lists this = some L' ∧ Repr s'.heap L' post) ∧
    (∀ pre y, X = pre ++ [y] → list.back s this = .ok y.2 ∧
      ∃ s' L', list.pop_back s this = .ok s' ∧
        (∀ fuel, X.length < fuel → list.cells fuel s' this = .ok pre) ∧
        (∀ fuel, X.length < fuel → list.to_list fuel s' this = .ok (pre.map Prod.snd)) ∧
        list.size s' this = .ok (L.count - 1) ∧ s'.heap.cells y.1 = none ∧
        s'.lists this = some L' ∧ Repr s'.heap L' pre) := by
  have hfront : ∀ x post, X = x :: post → list.front s this = .ok x.2 ∧
      ∃ s' L', list.pop_front s this = .ok s' ∧
        (∀ fuel, X.length < fuel → list.cells fuel s' this = .ok post) ∧
        (∀ fuel, X.length < fuel → list.to_list fuel s' this = .ok (post.map Prod.snd)) ∧
        list.size s' this = .ok (L.count - 1) ∧ s'.heap.cells x.1 = none ∧
        s'.lists this = some L' ∧ Repr s'.heap L' post := by
    intro x post hs
    subst hs
    obtain ⟨s', e, hl, r, -, c, -⟩ := pop_front_state_spec x post hL hX
    have hL' : s'.lists this = some ⟨L.head, L.tail, L.count - 1⟩ := by
      rw [hl, Function.update_same]
    have hlen : post.length = L.count - 1 := by rw [hX.2.2.2]; simp
    refine ⟨hX.front hL, s', _, e, fun fuel hf => r.cells hL' fuel ?_,
      fun fuel hf => r.to_list hL' fuel ?_, ?_, c, hL', r⟩
    · simp only [List.length_cons] at hf; omega
    · simp only [List.length_cons] at hf; omega
    · rw [r.size hL', hlen]
  have hback : ∀ pre y, X = pre ++ [y] → list.back s this = .ok y.2 ∧
      ∃ s' L', list.pop_back s this = .ok s' ∧
        (∀ fuel, X.length < fuel → list.cells fuel s' this = .ok pre) ∧
        (∀ fuel, X.length < fuel → list.to_list fuel s' this = .ok (pre.map Prod.snd)) ∧
        list.size s' this = .ok (L.count - 1) ∧ s'.heap.cells y.1 = none ∧
        s'.lists this = some L' ∧ Repr s'.heap L' pre := by
    intro pre y hs
    subst hs
    obtain ⟨s', e, hl, r, -, c, -⟩ := pop_back_state_spec pre y hL hX
    have hL' : s'.lists this = some ⟨L.head, L.tail, L.count - 1⟩ := by
      rw [hl, Function.update_same]
    have hlen : pre.length = L.count - 1 := by rw [hX.2.2.2]; simp
    refine ⟨hX.back hL, s', _, e, fun fuel hf => r.cells hL' fuel ?_,
      fun fuel hf => r.to_list hL' fuel ?_, ?_, c, hL', r⟩
    · simp only [List.length_append, List.length_singleton] at hf; omega
    · simp only [List.length_append, List.length_singleton] at hf; omega
    · rw [r.size hL', hlen]
  have hne : L.count ≠ 0 → (∃ x post, X = x :: post) ∧ ∃ pre y, X = pre ++ [y] := by
    intro hc
    have hX0 : X ≠ [] := by
      intro h0; rw [h0] at hX; exact hc hX.2.2.2
    refine ⟨?_, exists_concat X hX0⟩
    cases X with
    | nil => exact absurd rfl hX0
    | cons x post => exact ⟨x, post, rfl⟩
  refine ⟨by simp [list.size, State.getList, hL], ?_, ?_, ?_, ?_, hfront, hback⟩
  · refine ⟨fun e => ?_, fun hc => by simp [list.front, State.getList, hL, hc]⟩
    by_contra hc
    obtain ⟨⟨x, post, hs⟩, -⟩ := hne hc
    rw [(hfront x post hs).1] at e
    cases e
  · refine ⟨fun e => ?_, fun hc => by simp [list.back, State.getList, hL, hc]⟩
    by_contra hc
    obtain ⟨-, pre, y, hs⟩ := hne hc
    rw [(hback pre y hs).1] at e
    cases e
  · refine ⟨fun e => ?_, fun hc => by simp [list.pop_front, State.getList, hL, hc]⟩
    by_contra hc
    obtain ⟨⟨x, post, hs⟩, -⟩ := hne hc
    obtain ⟨-, s', -, e', -⟩ := hfront x post hs
    rw [e'] at e
    cases e
  · refine ⟨fun e => ?_, fun hc => by simp [list.pop_back, State.getList, hL, hc]⟩
    by_contra hc
    obtain ⟨-, pre, y, hs⟩ := hne hc
    obtain ⟨-, s', -, e', -⟩ := hback pre y hs
    rw [e'] at e
    cases e

theorem empty_container_failures_witness :
    list.size exMerge 1 = .ok (⟨1, 2, 3⟩ : list).count ∧
    (list.front exMerge 1 = .error .container_is_empty ↔ (⟨1, 2, 3⟩ : list).count = 0) ∧
    (list.back exMerge 1 = .error .container_is_empty ↔ (⟨1, 2, 3⟩ : list).count = 0) ∧
    (list.pop_front exMerge 1 = .error .container_is_empty ↔ (⟨1, 2, 3⟩ : list).count = 0) ∧
    (list.pop_back exMerge 1 = .error .container_is_empty ↔ (⟨1, 2, 3⟩ : list).count = 0) ∧
    (∀ x post, [(5, 1), (6, 3), (7, 5)] = x :: post → list.front exMerge 1 = .ok x.2 ∧
      ∃ s' L', list.pop_front exMerge 1 = .ok s' ∧
        (∀ fuel, [(5, 1), (6, 3), (7, 5)].length < fuel → list.cells fuel s' 1 = .ok post) ∧
        (∀ fuel, [(5, 1), (6, 3), (7, 5)].length < fuel →
          list.to_list fuel s' 1 = .ok (post.map Prod.snd)) ∧
        list.size s' 1 = .ok ((⟨1, 2, 3⟩ : list).count - 1) ∧ s'.heap.cells x.1 = none ∧
        s'.lists 1 = some L' ∧ Repr s'.heap L' post) ∧
    (∀ pre y, [(5, 1), (6, 3), (7, 5)] = pre ++ [y] → list.back exMerge 1 = .ok y.2 ∧
      ∃ s' L', list.pop_back exMerge 1 = .ok s' ∧
        (∀ fuel, [(5, 1), (6, 3), (7, 5)].length < fuel → list.cells fuel s' 1 = .ok pre) ∧
        (∀ fuel, [(5, 1), (6, 3), (7, 5)].length < fuel →
          list.to_list fuel s' 1 = .ok (pre.map Prod.snd)) ∧
        list.size s' 1 = .ok ((⟨1, 2, 3⟩ : list).count - 1) ∧ s'.heap.cells y.1 = none ∧
        s'.lists 1 = some L' ∧ Repr s'.heap L' pre) :=
  empty_container_failures exMerge 1 ⟨1, 2, 3⟩ [(5, 1), (6, 3), (7, 5)] (by decide!)
    (by decide!)

/-! ## merge without any assumption on the inputs -/

/-- C19: on two distinct lists, whatever their order and whatever `<` is,
`merge` returns (with fuel above the two lengths), `this` then holds
`mergeSeq` of the two prior sequences, which is a permutation of them that
contains each as a subsequence in its original order, `size()` is the sum of
the prior sizes, and `other` is a valid empty list. -/
theorem merge_interleaves (lt : T → T → Bool) (s : State T) (this other : Nat) (L O : list)
    (X Y : List (Nat × T)) (fuel : Nat) (hne : this ≠ other)
    (hL : s.lists this = some L) (hO : s.lists other = some O)
    (hX : Repr s.heap L X) (hY : Repr s.heap O Y)
    (hnd : (chainAddrs L X ++ chainAddrs O Y).Nodup)
    (hf : X.length + Y.length < fuel) :
    ∃ s' Z, list.merge lt fuel s this other = .ok s' ∧ Z = mergeSeq (ltVal lt) X Y ∧
      list.cells fuel s' this = .ok Z ∧
      list.to_list fuel s' this = .ok (Z.map Prod.snd) ∧
      Z.Perm (X ++ Y) ∧ List.Sublist X Z ∧ List.Sublist Y Z ∧
      (Z.map Prod.snd).Perm (X.map Prod.snd ++ Y.map Prod.snd) ∧
      List.Sublist (X.map Prod.snd) (Z.map Prod.snd) ∧
      List.Sublist (Y.map Prod.snd) (Z.map Prod.snd) ∧
      list.size s this = .ok X.length ∧ list.size s other = .ok Y.length ∧
      list.size s' this = .ok (X.length + Y.length) ∧
      list.size s' other = .ok 0 ∧ list.empty s' other = .ok true ∧
      list.begin s' other = list.end_ s' other ∧ list.cells fuel s' other = .ok [] ∧
      ∃ L' O', s'.lists this = some L' ∧ s'.lists other = some O' ∧
        Repr s'.heap L' Z ∧ Repr s'.heap O' [] := by
  obtain ⟨s', e, hl, r1, r2, -, -, -⟩ := merge_state_spec lt hne hL hO hX hY hnd fuel hf
  have hp := mergeSeq_perm (ltVal lt) X Y
  have hlen : (mergeSeq (ltVal lt) X Y).length = X.length + Y.length := by
    simpa using hp.length_eq
  have hL' : s'.lists this = some ⟨L.head, L.tail, L.count + O.count⟩ := by
    rw [hl, Function.update_noteq hne, Function.update_same]
  have hO' : s'.lists other = some ⟨O.head, O.tail, 0⟩ := by
    rw [hl, Function.update_same]
  refine ⟨s', mergeSeq (ltVal lt) X Y, e, rfl, r1.cells hL' fuel (by omega),
    r1.to_list hL' fuel (by omega), hp, sublist_mergeSeq_left _ X Y,
    sublist_mergeSeq_right _ X Y, ?_, (sublist_mergeSeq_left _ X Y).map _,
    (sublist_mergeSeq_right _ X Y).map _, hX.size hL, hY.size hO, ?_, r2.size hO', ?_, ?_,
    r2.cells hO' fuel (by simp; omega), _, _, hL', hO', r1, r2⟩
  · simpa using hp.map Prod.snd
  · rw [r1.size hL', hlen]
  · simp [list.empty, State.getList, hO']
  · simp [list.begin, list.end_, State.getList, hO', Heap.get_of r2.head_cell]

theorem merge_interleaves_witness :
    ∃ s' Z, list.merge ltNat 6 exUnsorted 1 2 = .ok s' ∧
      Z = mergeSeq (ltVal ltNat) [(5, 5), (6, 1)] [(7, 4), (8, 0), (9, 7)] ∧
      list.cells 6 s' 1 = .ok Z ∧
      list.to_list 6 s' 1 = .ok (Z.map Prod.snd) ∧
      Z.Perm ([(5, 5), (6, 1)] ++ [(7, 4), (8, 0), (9, 7)]) ∧
      List.Sublist [(5, 5), (6, 1)] Z ∧ List.Sublist [(7, 4), (8, 0), (9, 7)] Z ∧
      (Z.map Prod.snd).Perm
        ([(5, 5), (6, 1)].map Prod.snd ++ [(7, 4), (8, 0), (9, 7)].map Prod.snd) ∧
      List.Sublist ([(5, 5), (6, 1)].map Prod.snd) (Z.map Prod.snd) ∧
      List.Sublist ([(7, 4), (8, 0), (9, 7)].map Prod.snd) (Z.map Prod.snd) ∧
      list.size exUnsorted 1 = .ok [(5, 5), (6, 1)].length ∧
      list.size exUnsorted 2 = .ok [(7, 4), (8, 0), (9, 7)].length ∧
      list.size s' 1 = .ok ([(5, 5), (6, 1)].length + [(7, 4), (8, 0), (9, 7)].length) ∧
      list.size s' 2 = .ok 0 ∧ list.empty s' 2 = .ok true ∧
      list.begin s' 2 = list.end_ s' 2 ∧ list.cells 6 s' 2 = .ok [] ∧
      ∃ L' O', s'.lists 1 = some L' ∧ s'.lists 2 = some O' ∧
        Repr s'.heap L' Z ∧ Repr s'.heap O' [] :=
  merge_interleaves ltNat exUnsorted 1 2 ⟨1, 2, 2⟩ ⟨3, 4, 3⟩ [(5, 5), (6, 1)]
    [(7, 4), (8, 0), (9, 7)] 6 (by decide) (by decide!) (by decide!) (by decide!) (by decide!)
    (by decide) (by decide)

/-! ## unique under an arbitrary `==` -/

theorem uniqueFrom_chain {α : Type} (eq : α → α → Bool) :
    ∀ (l : List α) (a : α), List.Chain' (fun x y => eq x y = false) (uniqueFrom eq a l) := by
  intro l
  induction l with
  | nil => intro a; simp [uniqueFrom]
  | cons b l ih =>
    intro a
    by_cases h : eq a b = true
    · simpa [uniqueFrom, h] using ih a
    · obtain ⟨t, ht⟩ := uniqueFrom_head eq b l
      have hb := ih b
      rw [ht] at hb
      simp only [uniqueFrom, h, ht, Bool.false_eq_true, if_false, List.chain'_cons]
      exact ⟨trivial, hb⟩

theorem uniqueFrom_of_chain {α : Type} (eq : α → α → Bool) :
    ∀ (l : List α) (a : α), List.Chain (fun x y => eq x y = false) a l →
      uniqueFrom eq a l = a :: l := by
  intro l
  induction l with
  | nil => intro a _; rfl
  | cons b l ih =>
    intro a h
    rw [List.chain_cons] at h
    simp [uniqueFrom, h.1, ih b h.2]

theorem uniqueSeq_chain {α : Type} (eq : α → α → Bool) (l : List α) :
    List.Chain' (fun x y => eq x y = false) (uniqueSeq eq l) := by
  cases l with
  | nil => simp [uniqueSeq]
  | cons a l => exact uniqueFrom_chain eq l a

theorem uniqueSeq_of_chain {α : Type} (eq : α → α → Bool) (l : List α)
    (h : List.Chain' (fun x y => eq x y = false) l) : uniqueSeq eq l = l := by
  cases l with
  | nil => rfl
  | cons a l => exact uniqueFrom_of_chain eq l a h

theorem uniqueSeq_idem {α : Type} (eq : α → α → Bool) (l : List α) :
    uniqueSeq eq (uniqueSeq eq l) = uniqueSeq eq l :=
  uniqueSeq_of_chain eq _ (uniqueSeq_chain eq l)

theorem uniqueSeq_head {α : Type} (eq : α → α → Bool) (l : List α) :
    (uniqueSeq eq l).head? = l.head? := by
  cases l with
  | nil => rfl
  | cons a l =>
    obtain ⟨t, ht⟩ := uniqueFrom_head eq a l
    simp [uniqueSeq, ht]

/-- A segment fixes the whole content of its cells. -/
theorem Seg.cells_eq {m m' : Nat → Option (node T)} (cs : List (Nat × Option T)) :
    ∀ (p n : Nat), Seg m p cs n → Seg m' p cs n → ∀ a ∈ cs.map Prod.fst, m' a = m a := by
  induction cs with
  | nil => intro p n _ _ a ha; cases ha
  | cons c cs ih =>
    intro p n h h' a ha
    rw [seg_cons] at h h'
    rw [List.map_cons, List.mem_cons] at ha
    rcases ha with rfl | ha
    · rw [h.1, h'.1]
    · exact ih c.1 n h.2 h'.2 a ha

/-- Two heaps in which the same list object represents the same sequence agree
on every node of its chain. -/
theorem Repr.chain_cells_eq {h h' : Heap T} {L : list} {X : List (Nat × T)} (hR : Repr h L X)
    (hR' : Repr h' L X) : ∀ a ∈ chainAddrs L X, h'.cells a = h.cells a := by
  intro a ha
  rw [← chainOf_fst] at ha
  exact Seg.cells_eq _ 0 0 hR.1 hR'.1 a ha

/-- C20: for any `==`, `unique` returns (with fuel above the length), and the
list then holds `uniqueSeq` of the prior sequence: no element is `==` to its
immediate successor (compared as element `==` successor), the result is a
subsequence of the original with the same first element, and running
`unique` again leaves the memory exactly as it is. -/
theorem unique_no_adjacent_equal (eq : T → T → Bool) (s : State T) (this : Nat) (L : list)
    (X : List (Nat × T)) (fuel : Nat) (hL : s.lists this = some L) (hX : Repr s.heap L X)
    (hf : X.length < fuel) :
    ∃ s' Z, list.unique eq fuel s this = .ok s' ∧ Z = uniqueSeq (eqVal eq) X ∧
      list.cells fuel s' this = .ok Z ∧
      list.to_list fuel s' this = .ok (Z.map Prod.snd) ∧
      List.Chain' (fun a b => eq a b = false) (Z.map Prod.snd) ∧
      List.Sublist Z X ∧ List.Sublist (Z.map Prod.snd) (X.map Prod.snd) ∧
      Z.head? = X.head? ∧ list.size s' this = .ok Z.length ∧
      list.unique eq fuel s' this = .ok s' := by
  obtain ⟨s', e, hl, r, -, -⟩ := unique_state_spec eq hL hX fuel hf
  have hL' : s'.lists this = some ⟨L.head, L.tail, (uniqueSeq (eqVal eq) X).length⟩ := by
    rw [hl, Function.update_same]
  have hsub := uniqueSeq_sublist (eqVal eq) X
  have hlen : (uniqueSeq (eqVal eq) X).length < fuel := by
    have := hsub.length_le; omega
  refine ⟨s', _, e, rfl, r.cells hL' fuel hlen, r.to_list hL' fuel hlen, ?_, hsub,
    hsub.map _, uniqueSeq_head _ X, r.size hL', ?_⟩
  · rw [uniqueSeq_map_snd]
    exact uniqueSeq_chain eq _
  · obtain ⟨s'', e', hl', r', b', f'⟩ := unique_state_spec eq hL' r fuel hlen
    rw [e']
    rw [uniqueSeq_idem] at hl' r'
    have hlists : s''.lists = s'.lists := by
      rw [hl']; exact (update_self_of hL').symm
    have hcells : s''.heap.cells = s'.heap.cells := by
      funext a
      by_cases ha : a ∈ chainAddrs
          (⟨L.head, L.tail, (uniqueSeq (eqVal eq) X).length⟩ : list) (uniqueSeq (eqVal eq) X)
      · exact Repr.chain_cells_eq r r' a ha
      · exact f' a ha
    have hs : s'' = s' := by
      cases s'' with
      | mk h2 l2 =>
        cases s' with
        | mk h1 l1 =>
          cases h2; cases h1
          simp only at hlists hcells b'
          subst hlists hcells b'
          rfl
    rw [hs]

theorem unique_no_adjacent_equal_witness :
    ∃ s' Z, list.unique eqNear 6 exNear 1 = .ok s' ∧
      Z = uniqueSeq (eqVal eqNear) [(3, 1), (4, 2), (5, 3), (6, 3), (7, 5)] ∧
      list.cells 6 s' 1 = .ok Z ∧
      list.to_list 6 s' 1 = .ok (Z.map Prod.snd) ∧
      List.Chain' (fun a b => eqNear a b = false) (Z.map Prod.snd) ∧
      List.Sublist Z [(3, 1), (4, 2), (5, 3), (6, 3), (7, 5)] ∧
      List.Sublist (Z.map Prod.snd) ([(3, 1), (4, 2), (5, 3), (6, 3), (7, 5)].map Prod.snd) ∧
      Z.head? = [(3, 1), (4, 2), (5, 3), (6, 3), (7, 5)].head? ∧
      list.size s' 1 = .ok Z.length ∧
      list.unique eqNear 6 s' 1 = .ok s' :=
  unique_no_adjacent_equal eqNear exNear 1 ⟨1, 2, 5⟩ [(3, 1), (4, 2), (5, 3), (6, 3), (7, 5)] 6
    (by decide!) (by decide!) (by decide)

/-! ## Relinking keeps the nodes and their values -/

theorem Repr.chain_cell {h : Heap T} {L : list} {X : List (Nat × T)} (hR : Repr h L X)
    {c : Nat × Option T} (hc : c ∈ chainOf L X) : ∃ p n, h.cells c.1 = some ⟨c.2, p, n⟩ :=
  Seg.mem_cell hR.1 hc

theorem mem_chainOf {L : list} {X : List (Nat × T)} {c : Nat × Option T} :
    c ∈ chainOf L X ↔
      c = (L.head, none) ∨ (∃ x ∈ X, c = (x.1, some x.2)) ∨ c = (L.tail, none) := by
  simp only [chainOf, dataCells, List.mem_cons, List.mem_append, List.mem_map,
    List.mem_singleton, List.not_mem_nil, or_false]
  constructor
  · rintro (h | ⟨x, hx, rfl⟩ | h)
    · exact Or.inl h
    · exact Or.inr (Or.inl ⟨x, hx, rfl⟩)
    · exact Or.inr (Or.inr h)
  · rintro (h | ⟨x, hx, rfl⟩ | h)
    · exact Or.inl h
    · exact Or.inr (Or.inl ⟨x, hx, rfl⟩)
    · exact Or.inr (Or.inr h)

/-- When every cell of a chain holds the same data in a second heap, the two
heaps hold the same data at every address of the chain. -/
theorem data_eq_on_chain {h h' : Heap T} {L : list} {X : List (Nat × T)} (hR : Repr h L X)
    (hc : ∀ c ∈ chainOf L X, ∃ p n, h'.cells c.1 = some ⟨c.2, p, n⟩) :
    ∀ a ∈ chainAddrs L X, (h'.cells a).map node.data = (h.cells a).map node.data := by
  intro a ha
  rw [← chainOf_fst] at ha
  obtain ⟨c, hc1, rfl⟩ := List.mem_map.1 ha
  obtain ⟨p, n, e⟩ := hR.chain_cell hc1
  obtain ⟨p', n', e'⟩ := hc c hc1
  rw [e, e']; rfl

/-- Dereferencing an iterator depends only on the data its node holds. -/
theorem star_congr {s s' : State T} (it : iterator)
    (h : (s'.heap.cells it.ptr).map node.data = (s.heap.cells it.ptr).map node.data) :
    iterator.star s' it = iterator.star s it := by
  unfold iterator.star Heap.get
  by_cases hz : it.ptr = 0
  · simp [hz]
  · simp only [hz, if_false]
    cases e : s.heap.cells it.ptr with
    | none =>
      rw [e] at h
      cases e' : s'.heap.cells it.ptr with
      | none => rfl
      | some n' => rw [e'] at h; cases h
    | some n =>
      rw [e] at h
      cases e' : s'.heap.cells it.ptr with
      | none => rw [e'] at h; cases h
      | some n' =>
        rw [e'] at h
        simp only [Option.map_some', Option.some.injEq] at h
        simp only [bind_ok, h]

/-- C18: `sort` (with a primitive that returns a permutation of the array),
`reverse` and `merge` return with the allocator where it was (no node
allocated), every address holding a node exactly when it did before, with the
same data (no node destroyed, no value changed), so every iterator
dereferences to what it did before; the (node, value) pairs of `this` after
`sort` or `reverse` are a permutation of those before, and after `merge` a
permutation of the two prior chains, which share no node. -/
theorem relink_reuses_nodes (lt : T → T → Bool)
    (srt : (Nat → Nat → Bool) → List Nat → List Nat) (s : State T) (this other : Nat)
    (L O : list) (X Y : List (Nat × T)) (fuel : Nat) (hne : this ≠ other)
    (hL : s.lists this = some L) (hO : s.lists other = some O)
    (hX : Repr s.heap L X) (hY : Repr s.heap O Y)
    (hnd : (chainAddrs L X ++ chainAddrs O Y).Nodup)
    (hperm : (srt (list.cmp lt s.heap) (X.map Prod.fst)).Perm (X.map Prod.fst))
    (hf : X.length + Y.length < fuel) :
    list.cells fuel s this = .ok X ∧ list.cells fuel s other = .ok Y ∧
    (∃ s' Z, list.sort lt srt fuel s this = .ok s' ∧ list.cells fuel s' this = .ok Z ∧
      Z.Perm X ∧ s'.heap.brk = s.heap.brk ∧
      (∀ a, (s'.heap.cells a).map node.data = (s.heap.cells a).map node.data) ∧
      ∀ it, iterator.star s' it = iterator.star s it) ∧
    (∃ s' Z, list.reverse fuel s this = .ok s' ∧ list.cells fuel s' this = .ok Z ∧
      Z.Perm X ∧ s'.heap.brk = s.heap.brk ∧
      (∀ a, (s'.heap.cells a).map node.data = (s.heap.cells a).map node.data) ∧
      ∀ it, iterator.star s' it = iterator.star s it) ∧
    (∃ s' Z, list.merge lt fuel s this other = .ok s' ∧ list.cells fuel s' this = .ok Z ∧
      list.cells fuel s' other = .ok [] ∧
      Z.Perm (X ++ Y) ∧ (Z.map Prod.fst).Nodup ∧ (∀ a ∈ X.map Prod.fst, a ∉ Y.map Prod.fst) ∧
      s'.heap.brk = s.heap.brk ∧
      (∀ a, (s'.heap.cells a).map node.data = (s.heap.cells a).map node.data) ∧
      ∀ it, iterator.star s' it = iterator.star s it) := by
  refine ⟨hX.cells hL fuel (by omega), hY.cells hO fuel (by omega), ?_, ?_, ?_⟩
  · obtain ⟨s', Z, e, hl, hp, -, -, r, b, f⟩ :=
      sort_state_spec lt srt hL hX hperm fuel (by omega)
    have hL' : s'.lists this = some L := by rw [hl]; exact hL
    have hd : ∀ a, (s'.heap.cells a).map node.data = (s.heap.cells a).map node.data := by
      intro a
      by_cases ha : a ∈ chainAddrs L X
      · refine data_eq_on_chain hX (fun c hc => r.chain_cell ?_) a ha
        have hpc : (chainOf L Z).Perm (chainOf L X) :=
          List.Perm.cons _ (List.Perm.append_right _ (hp.map _))
        exact hpc.mem_iff.2 hc
      · rw [f a ha]
    exact ⟨s', Z, e, r.cells hL' fuel (by rw [hp.length_eq]; omega), hp, b, hd,
      fun it => star_congr it (hd it.ptr)⟩
  · obtain ⟨s', e, hl, r, b, -, f⟩ := reverse_state_spec hL hX fuel (by omega)
    have hL' : s'.lists this = some L := by rw [hl]; exact hL
    have hd : ∀ a, (s'.heap.cells a).map node.data = (s.heap.cells a).map node.data := by
      intro a
      by_cases ha : a ∈ chainAddrs L X
      · refine data_eq_on_chain hX (fun c hc => r.chain_cell ?_) a ha
        have hpc : (chainOf L X.reverse).Perm (chainOf L X) :=
          List.Perm.cons _ (List.Perm.append_right _ ((List.reverse_perm X).map _))
        exact hpc.mem_iff.2 hc
      · rw [f a ha]
    exact ⟨s', X.reverse, e, r.cells hL' fuel (by rw [List.length_reverse]; omega),
      List.reverse_perm X, b, hd, fun it => star_congr it (hd it.ptr)⟩
  · obtain ⟨s', e, hl, r1, r2, -, b, f⟩ := merge_state_spec lt hne hL hO hX hY hnd fuel hf
    have hp := mergeSeq_perm (ltVal lt) X Y
    have hL' : s'.lists this = some ⟨L.head, L.tail, L.count + O.count⟩ := by
      rw [hl, Function.update_noteq hne, Function.update_same]
    have hO' : s'.lists other = some ⟨O.head, O.tail, 0⟩ := by
      rw [hl, Function.update_same]
    have hd : ∀ a, (s'.heap.cells a).map node.data = (s.heap.cells a).map node.data := by
      intro a
      by_cases ha : a ∈ chainAddrs L X ++ chainAddrs O Y
      · rcases List.mem_append.1 ha with ha | ha
        · refine data_eq_on_chain hX (fun c hc => ?_) a ha
          rcases mem_chainOf.1 hc with h1 | ⟨x, hx, h1⟩ | h1
          · exact r1.chain_cell (mem_chainOf.2 (Or.inl h1))
          · exact r1.chain_cell (mem_chainOf.2 (Or.inr (Or.inl
              ⟨x, hp.mem_iff.2 (List.mem_append_left _ hx), h1⟩)))
          · exact r1.chain_cell (mem_chainOf.2 (Or.inr (Or.inr h1)))
        · refine data_eq_on_chain hY (fun c hc => ?_) a ha
          rcases mem_chainOf.1 hc with h1 | ⟨y, hy, h1⟩ | h1
          · exact r2.chain_cell (mem_chainOf.2 (Or.inl h1))
          · exact r1.chain_cell (mem_chainOf.2 (Or.inr (Or.inl
              ⟨y, hp.mem_iff.2 (List.mem_append_right _ hy), h1⟩)))
          · exact r2.chain_cell (mem_chainOf.2 (Or.inr (Or.inr h1)))
      · rw [f a ha]
    have hn : ((mergeSeq (ltVal lt) X Y).map Prod.fst).Nodup := by
      have := r1.2.1
      simp only [chainAddrs, List.nodup_cons, List.nodup_append] at this
      exact this.2.1
    have hdis : ∀ a ∈ X.map Prod.fst, a ∉ Y.map Prod.fst := by
      intro a hx hy
      have h1 : a ∈ chainAddrs L X := List.mem_cons_of_mem _ (List.mem_append_left _ hx)
      have h2 : a ∈ chainAddrs O Y := List.mem_cons_of_mem _ (List.mem_append_left _ hy)
      exact (List.nodup_append.1 hnd).2.2 h1 h2
    have hlen : (mergeSeq (ltVal lt) X Y).length = X.length + Y.length := by
      simpa using hp.length_eq
    exact ⟨s', _, e, r1.cells hL' fuel (by omega), r2.cells hO' fuel (by simp; omega), hp, hn,
      hdis, b, hd, fun it => star_congr it (hd it.ptr)⟩

theorem relink_reuses_nodes_witness :
    list.cells 7 exMerge 1 = .ok [(5, 1), (6, 3), (7, 5)] ∧
    list.cells 7 exMerge 2 = .ok [(8, 2), (9, 3), (10, 4)] ∧
    (∃ s' Z, list.sort ltNat exSort 7 exMerge 1 = .ok s' ∧ list.cells 7 s' 1 = .ok Z ∧
      Z.Perm [(5, 1), (6, 3), (7, 5)] ∧ s'.heap.brk = exMerge.heap.brk ∧
      (∀ a, (s'.heap.cells a).map node.data = (exMerge.heap.cells a).map node.data) ∧
      ∀ it, iterator.star s' it = iterator.star exMerge it) ∧
    (∃ s' Z, list.reverse 7 exMerge 1 = .ok s' ∧ list.cells 7 s' 1 = .ok Z ∧
      Z.Perm [(5, 1), (6, 3), (7, 5)] ∧ s'.heap.brk = exMerge.heap.brk ∧
      (∀ a, (s'.heap.cells a).map node.data = (exMerge.heap.cells a).map node.data) ∧
      ∀ it, iterator.star s' it = iterator.star exMerge it) ∧
    (∃ s' Z, list.merge ltNat 7 exMerge 1 2 = .ok s' ∧ list.cells 7 s' 1 = .ok Z ∧
      list.cells 7 s' 2 = .ok [] ∧
      Z.Perm ([(5, 1), (6, 3), (7, 5)] ++ [(8, 2), (9, 3), (10, 4)]) ∧
      (Z.map Prod.fst).Nodup ∧
      (∀ a ∈ [(5, 1), (6, 3), (7, 5)].map Prod.fst,
        a ∉ [(8, 2), (9, 3), (10, 4)].map Prod.fst) ∧
      s'.heap.brk = exMerge.heap.brk ∧
      (∀ a, (s'.heap.cells a).map node.data = (exMerge.heap.cells a).map node.data) ∧
      ∀ it, iterator.star s' it = iterator.star exMerge it) :=
  relink_reuses_nodes ltNat exSort exMerge 1 2 ⟨1, 2, 3⟩ ⟨3, 4, 3⟩ [(5, 1), (6, 3), (7, 5)]
    [(8, 2), (9, 3), (10, 4)] 7 (by decide) (by decide!) (by decide!) (by decide!) (by decide!)
    (by decide) (by decide!) (by decide)

/-! ## Runs: evaluation rules -/

theorem Run.bind_apply {σ α β : Type} (m : Run σ α) (f : α → Run σ β) (s : σ) :
    (m >>= f) s = Run.seq m f s := rfl

theorem Run.pure_apply {σ α : Type} (a : α) (s : σ) : (pure a : Run σ α) s = (s, .ok a) := rfl

theorem Run.seq_ok {σ α β : Type} {m : Run σ α} {f : α → Run σ β} {s s1 : σ} {a : α}
    (h : m s = (s1, .ok a)) : Run.seq m f s = f a s1 := by
  simp only [Run.seq, h]

theorem Run.seq_error {σ α β : Type} {m : Run σ α} {f : α → Run σ β} {s s1 : σ} {e : Error}
    (h : m s = (s1, .error e)) : Run.seq m f s = (s1, .error e) := by
  simp only [Run.seq, h]

theorem Run.heap_ok {f : Heap T → Except Error (Heap T)} {s : State T} {h : Heap T}
    (e : f s.heap = .ok h) : Run.heap f s = (⟨h, s.lists⟩, .ok ()) := by
  simp only [Run.heap, e]

theorem Run.heap_error {f : Heap T → Except Error (Heap T)} {s : State T} {e : Error}
    (h : f s.heap = .error e) : Run.heap f s = (s, .error e) := by
  simp only [Run.heap, h]

/-! ## The runs agree with the operations -/

theorem insert_node_run_ok {s : State T} {pos cur : Nat} {h : Heap T} {p : Nat}
    (e : list.insert_node s.heap pos cur = .ok (h, p)) :
    list.insert_node_run pos cur s = (⟨h, s.lists⟩, .ok p) := by
  rw [list.insert_node] at e
  obtain ⟨n1, e1, e⟩ := bind_eq_ok e
  obtain ⟨h1, e2, e⟩ := bind_eq_ok e
  obtain ⟨h2, e3, e⟩ := bind_eq_ok e
  obtain ⟨n2, e4, e⟩ := bind_eq_ok e
  obtain ⟨h3, e5, e⟩ := bind_eq_ok e
  obtain ⟨h4, e6, e⟩ := bind_eq_ok e
  cases e
  simp only [list.insert_node_run, Run.bind_apply, Run.seq, Run.read, Run.heap, e1, e2, e3, e4,
    e5, e6, Run.pure_apply]

theorem erase_node_run_ok {s : State T} {pos : Nat} {h : Heap T} {p : Nat}
    (e : list.erase_node s.heap pos = .ok (h, p)) :
    list.erase_node_run pos s = (⟨h, s.lists⟩, .ok p) := by
  rw [list.erase_node] at e
  obtain ⟨n1, e1, e⟩ := bind_eq_ok e
  obtain ⟨h1, e2, e⟩ := bind_eq_ok e
  obtain ⟨n2, e3, e⟩ := bind_eq_ok e
  obtain ⟨h2, e4, e⟩ := bind_eq_ok e
  cases e
  simp only [list.erase_node_run, Run.bind_apply, Run.seq, Run.read, Run.heap, e1, e2, e3, e4,
    Run.pure_apply]

theorem Run.seq_snd_error {σ α β : Type} {m : Run σ α} {f : α → Run σ β} {s : σ} {e : Error}
    (h : (m s).2 = .error e) : (Run.seq m f s).2 = .error e := by
  unfold Run.seq
  revert h
  cases m s with
  | mk s1 r =>
    cases r with
    | error x => intro h; cases h; rfl
    | ok a => intro h; cases h

theorem insert_node_run_error {s : State T} {pos cur : Nat} {e : Error}
    (h : list.insert_node s.heap pos cur = .error e) :
    (list.insert_node_run pos cur s).2 = .error e := by
  unfold list.insert_node at h
  unfold list.insert_node_run
  simp only [Run.bind_apply, Run.seq, Run.read, Run.heap, Run.pure_apply]
  revert h
  cases s.heap.get pos with
  | error x => intro h; cases h; rfl
  | ok n1 =>
    simp only [bind_ok]
    cases s.heap.setPrev cur n1.prev with
    | error x => intro h; cases h; rfl
    | ok h1 =>
      simp only [bind_ok]
      cases h1.setNext cur pos with
      | error x => intro h; cases h; rfl
      | ok h2 =>
        simp only [bind_ok]
        cases h2.get pos with
        | error x => intro h; cases h; rfl
        | ok n2 =>
          simp only [bind_ok]
          cases h2.setNext n2.prev cur with
          | error x => intro h; cases h; rfl
          | ok h3 =>
            simp only [bind_ok]
            cases h3.setPrev pos cur with
            | error x => intro h; cases h; rfl
            | ok h4 => intro h; cases h

theorem erase_node_run_error {s : State T} {pos : Nat} {e : Error}
    (h : list.erase_node s.heap pos = .error e) :
    (list.erase_node_run pos s).2 = .error e := by
  unfold list.erase_node at h
  unfold list.erase_node_run
  simp only [Run.bind_apply, Run.seq, Run.read, Run.heap, Run.pure_apply]
  revert h
  cases s.heap.get pos with
  | error x => intro h; cases h; rfl
  | ok n1 =>
    simp only [bind_ok]
    cases s.heap.setNext n1.prev n1.next with
    | error x => intro h; cases h; rfl
    | ok h1 =>
      simp only [bind_ok]
      cases h1.get pos with
      | error x => intro h; cases h; rfl
      | ok n2 =>
        simp only [bind_ok]
        cases h1.setPrev n2.next n2.prev with
        | error x => intro h; cases h; rfl
        | ok h2 => intro h; cases h

/-! ## Dereferencing a null or dead pointer is the only failure of the primitives -/

theorem Heap.get_only_ub {h : Heap T} {p : Nat} {e : Error} (he : h.get p = .error e) :
    e = .undefined_behaviour := by
  unfold Heap.get at he
  split at he
  · cases he
  · cases he; rfl

theorem Heap.setPrev_only_ub {h : Heap T} {p q : Nat} {e : Error}
    (he : h.setPrev p q = .error e) : e = .undefined_behaviour := by
  unfold Heap.setPrev at he
  split at he
  · cases he
  · cases he; rfl

theorem Heap.setNext_only_ub {h : Heap T} {p q : Nat} {e : Error}
    (he : h.setNext p q = .error e) : e = .undefined_behaviour := by
  unfold Heap.setNext at he
  split at he
  · cases he
  · cases he; rfl

theorem Heap.free_only_ub {h : Heap T} {p : Nat} {e : Error} (he : h.free p = .error e) :
    e = .undefined_behaviour := by
  unfold Heap.free at he
  split at he
  · cases he
  · cases he; rfl

theorem Heap.deref_only_ub {h : Heap T} {p : Nat} {e : Error} (he : h.deref p = .error e) :
    e = .undefined_behaviour := by
  unfold Heap.deref at he
  split at he
  · split at he
    · cases he
    · cases he; rfl
  · cases he; rfl

theorem State.getList_only_ub {s : State T} {this : Nat} {e : Error}
    (he : s.getList this = .error e) : e = .undefined_behaviour := by
  unfold State.getList at he
  split at he
  · cases he
  · cases he; rfl

theorem bind_eq_error {ε α β : Type} {x : Except ε α} {f : α → Except ε β} {e : ε}
    (h : (x >>= f) = .error e) : x = .error e ∨ ∃ a, x = .ok a ∧ f a = .error e := by
  cases x with
  | error x => left; cases h; rfl
  | ok a => right; exact ⟨a, rfl, h⟩

theorem insert_node_only_ub {h : Heap T} {pos cur : Nat} {e : Error}
    (he : list.insert_node h pos cur = .error e) : e = .undefined_behaviour := by
  unfold list.insert_node at he
  rcases bind_eq_error he with he | ⟨n1, -, he⟩
  · exact Heap.get_only_ub he
  rcases bind_eq_error he with he | ⟨h1, -, he⟩
  · exact Heap.setPrev_only_ub he
  rcases bind_eq_error he with he | ⟨h2, -, he⟩
  · exact Heap.setNext_only_ub he
  rcases bind_eq_error he with he | ⟨n2, -, he⟩
  · exact Heap.get_only_ub he
  rcases bind_eq_error he with he | ⟨h3, -, he⟩
  · exact Heap.setNext_only_ub he
  rcases bind_eq_error he with he | ⟨h4, -, he⟩
  · exact Heap.setPrev_only_ub he
  cases he

theorem erase_node_only_ub {h : Heap T} {pos : Nat} {e : Error}
    (he : list.erase_node h pos = .error e) : e = .undefined_behaviour := by
  unfold list.erase_node at he
  rcases bind_eq_error he with he | ⟨n1, -, he⟩
  · exact Heap.get_only_ub he
  rcases bind_eq_error he with he | ⟨h1, -, he⟩
  · exact Heap.setNext_only_ub he
  rcases bind_eq_error he with he | ⟨n2, -, he⟩
  · exact Heap.get_only_ub he
  rcases bind_eq_error he with he | ⟨h2, -, he⟩
  · exact Heap.setPrev_only_ub he
  cases he

/-! ## insert, erase, pop, front and back as runs -/

theorem insert_run_ok {s s' : State T} {this : Nat} {pos it : iterator} {v : T}
    (e : list.insert s this pos v = .ok (s', it)) :
    list.insert_run this pos v s = (s', .ok it) := by
  rw [list.insert] at e
  obtain ⟨L, e1, e⟩ := bind_eq_ok e
  split at e
  · cases e
  · rename_i hl
    obtain ⟨r, e2, e⟩ := bind_eq_ok e
    cases e
    have e3 := insert_node_run_ok (s := ⟨(s.heap.alloc (some v)).1, s.lists⟩) e2
    simp only [list.insert_run, Run.bind_apply, Run.seq, Run.read, e1, hl, if_false, Run.new,
      Heap.alloc_snd, e3, Run.members, Run.pure_apply]
    rfl

theorem insert_run_error {s : State T} {this : Nat} {pos : iterator} {v : T} {e : Error}
    (h : list.insert s this pos v = .error e) :
    (list.insert_run this pos v s).2 = .error e := by
  rw [list.insert] at h
  rcases bind_eq_error h with h | ⟨L, e1, h⟩
  · simp only [list.insert_run, Run.bind_apply, Run.seq, Run.read, h]
  split at h
  · rename_i hl
    cases h
    simp only [list.insert_run, Run.bind_apply, Run.seq, Run.read, e1]
    rw [if_pos hl]
    rfl
  · rename_i hl
    rcases bind_eq_error h with h | ⟨r, -, h⟩
    · have e3 := insert_node_run_error (s := ⟨(s.heap.alloc (some v)).1, s.lists⟩) h
      simp only [list.insert_run, Run.bind_apply, Run.seq, Run.read, e1, hl, if_false, Run.new,
        Heap.alloc_snd]
      revert e3
      generalize list.insert_node_run pos.ptr s.heap.brk _ = q
      obtain ⟨s1, r⟩ := q
      cases r with
      | error x => intro e3; cases e3; rfl
      | ok a => intro e3; cases e3
    · cases h

/-- A call of `insert` that raises one of the two exceptions has written nothing. -/
theorem insert_run_atomic {s : State T} {this : Nat} {pos : iterator} {v : T} {e : Error}
    (h : (list.insert_run this pos v s).2 = .error e) (hne : e ≠ .undefined_behaviour) :
    list.insert_run this pos v s = (s, .error e) ∧ list.insert s this pos v = .error e := by
  cases e0 : list.insert s this pos v with
  | ok r =>
    obtain ⟨s1, i1⟩ := r
    rw [insert_run_ok e0] at h
    cases h
  | error x =>
    have hx := insert_run_error e0
    rw [h] at hx
    cases hx
    refine ⟨?_, rfl⟩
    rw [list.insert] at e0
    rcases bind_eq_error e0 with h0 | ⟨L, e1, h0⟩
    · exact absurd (State.getList_only_ub h0) hne
    split at h0
    · rename_i hl
      cases h0
      simp only [list.insert_run, Run.bind_apply, Run.seq, Run.read, e1]
      rw [if_pos hl]
      rfl
    · rcases bind_eq_error h0 with h0 | ⟨r, -, h0⟩
      · exact absurd (insert_node_only_ub h0) hne
      · cases h0

theorem erase_run_ok {s s' : State T} {this : Nat} {pos it : iterator}
    (e : list.erase s this pos = .ok (s', it)) :
    list.erase_run this pos s = (s', .ok it) := by
  rw [list.erase] at e
  obtain ⟨L, e1, e⟩ := bind_eq_ok e
  split at e
  · cases e
  rename_i hc
  split at e
  · cases e
  rename_i hl
  split at e
  · cases e
  rename_i hz
  obtain ⟨n, e2, e⟩ := bind_eq_ok e
  split at e
  · cases e
  rename_i w hd
  obtain ⟨r, e3, e⟩ := bind_eq_ok e
  obtain ⟨h2, e4, e⟩ := bind_eq_ok e
  cases e
  have e5 := erase_node_run_ok (s := s) e3
  simp only [list.erase_run, Run.bind_apply, Run.seq, Run.read, e1, e2]
  rw [if_neg hc, if_neg hl, if_neg hz]
  simp only [Run.bind_apply, Run.seq, Run.read, e2, hd, e5, Run.heap, e4, Run.members,
    Run.pure_apply]
  rfl

theorem erase_run_error {s : State T} {this : Nat} {pos : iterator} {e : Error}
    (h : list.erase s this pos = .error e) :
    (list.erase_run this pos s).2 = .error e ∧
      (e ≠ .undefined_behaviour → list.erase_run this pos s = (s, .error e)) := by
  rw [list.erase] at h
  rcases bind_eq_error h with h | ⟨L, e1, h⟩
  · refine ⟨?_, fun hne => absurd (State.getList_only_ub h) hne⟩
    simp only [list.erase_run, Run.bind_apply, Run.seq, Run.read, h]
  simp only [list.erase_run, Run.bind_apply, Run.seq, Run.read, e1]
  split at h
  · rename_i hc
    cases h
    rw [if_pos hc]
    exact ⟨rfl, fun _ => rfl⟩
  rename_i hc
  rw [if_neg hc]
  split at h
  · rename_i hl
    cases h
    rw [if_pos hl]
    exact ⟨rfl, fun _ => rfl⟩
  rename_i hl
  rw [if_neg hl]
  split at h
  · rename_i hz
    cases h
    rw [if_pos hz]
    exact ⟨rfl, fun _ => rfl⟩
  rename_i hz
  rw [if_neg hz]
  rcases bind_eq_error h with h | ⟨n, e2, h⟩
  · refine ⟨?_, fun hne => absurd (Heap.get_only_ub h) hne⟩
    simp only [Run.bind_apply, Run.seq, Run.read, h]
  simp only [Run.bind_apply, Run.seq, Run.read, e2]
  split at h
  · rename_i hd
    cases h
    simp only [hd]
    exact ⟨rfl, fun _ => rfl⟩
  rename_i w hd
  simp only [hd, Run.bind_apply, Run.seq]
  rcases bind_eq_error h with h | ⟨r, e3, h⟩
  · refine ⟨?_, fun hne => absurd (erase_node_only_ub h) hne⟩
    have e5 := erase_node_run_error (s := s) h
    revert e5
    generalize list.erase_node_run pos.ptr s = q
    obtain ⟨s1, r⟩ := q
    cases r with
    | error x => intro e5; cases e5; rfl
    | ok a => intro e5; cases e5
  have e5 := erase_node_run_ok (s := s) e3
  simp only [e5, Run.heap]
  rcases bind_eq_error h with h | ⟨h2, e4, h⟩
  · refine ⟨?_, fun hne => absurd (Heap.free_only_ub h) hne⟩
    simp only [h]
  · cases h

/-- A call of `erase` that raises one of the two exceptions has written nothing. -/
theorem erase_run_atomic {s : State T} {this : Nat} {pos : iterator} {e : Error}
    (h : (list.erase_run this pos s).2 = .error e) (hne : e ≠ .undefined_behaviour) :
    list.erase_run this pos s = (s, .error e) ∧ list.erase s this pos = .error e := by
  cases e0 : list.erase s this pos with
  | ok r =>
    obtain ⟨s1, i1⟩ := r
    rw [erase_run_ok e0] at h
    cases h
  | error x =>
    have hx := (erase_run_error e0).1
    rw [h] at hx
    cases hx
    exact ⟨(erase_run_error e0).2 hne, rfl⟩

theorem pop_back_run_ok {s s' : State T} {this : Nat} (e : list.pop_back s this = .ok s') :
    list.pop_back_run this s = (s', .ok ()) := by
  rw [list.pop_back] at e
  obtain ⟨L, e1, e⟩ := bind_eq_ok e
  split at e
  · cases e
  rename_i hc
  obtain ⟨n, e2, e⟩ := bind_eq_ok e
  obtain ⟨r, e3, e⟩ := bind_eq_ok e
  obtain ⟨h2, e4, e⟩ := bind_eq_ok e
  cases e
  have e5 := erase_node_run_ok (s := s) e3
  simp only [list.pop_back_run, Run.bind_apply, Run.seq, Run.read, e1]
  rw [if_neg hc]
  simp only [Run.bind_apply, Run.seq, Run.read, e2, e5, Run.heap, e4, Run.members]
  rfl

theorem pop_back_run_error {s : State T} {this : Nat} {e : Error}
    (h : list.pop_back s this = .error e) :
    (list.pop_back_run this s).2 = .error e ∧
      (e ≠ .undefined_behaviour → list.pop_back_run this s = (s, .error e)) := by
  rw [list.pop_back] at h
  rcases bind_eq_error h with h | ⟨L, e1, h⟩
  · refine ⟨?_, fun hne => absurd (State.getList_only_ub h) hne⟩
    simp only [list.pop_back_run, Run.bind_apply, Run.seq, Run.read, h]
  simp only [list.pop_back_run, Run.bind_apply, Run.seq, Run.read, e1]
  split at h
  · rename_i hc
    cases h
    rw [if_pos hc]
    exact ⟨rfl, fun _ => rfl⟩
  rename_i hc
  rw [if_neg hc]
  rcases bind_eq_error h with h | ⟨n, e2, h⟩
  · refine ⟨?_, fun hne => absurd (Heap.get_only_ub h) hne⟩
    simp only [Run.bind_apply, Run.seq, Run.read, h]
  simp only [Run.bind_apply, Run.seq, Run.read, e2]
  rcases bind_eq_error h with h | ⟨r, e3, h⟩
  · refine ⟨?_, fun hne => absurd (erase_node_only_ub h) hne⟩
    have e5 := erase_node_run_error (s := s) h
    revert e5
    generalize list.erase_node_run n.prev s = q
    obtain ⟨s1, r⟩ := q
    cases r with
    | error x => intro e5; cases e5; rfl
    | ok a => intro e5; cases e5
  have e5 := erase_node_run_ok (s := s) e3
  simp only [e5, Run.heap]
  rcases bind_eq_error h with h | ⟨h2, e4, h⟩
  · refine ⟨?_, fun hne => absurd (Heap.free_only_ub h) hne⟩
    simp only [h]
  · cases h

/-- A call of `pop_back` that raises an exception has written nothing. -/
theorem pop_back_run_atomic {s : State T} {this : Nat} {e : Error}
    (h : (list.pop_back_run this s).2 = .error e) (hne : e ≠ .undefined_behaviour) :
    list.pop_back_run this s = (s, .error e) ∧ list.pop_back s this = .error e := by
  cases e0 : list.pop_back s this with
  | ok r =>
    rw [pop_back_run_ok e0] at h
    cases h
  | error x =>
    have hx := (pop_back_run_error e0).1
    rw [h] at hx
    cases hx
    exact ⟨(pop_back_run_error e0).2 hne, rfl⟩

theorem pop_front_run_ok {s s' : State T} {this : Nat} (e : list.pop_front s this = .ok s') :
    list.pop_front_run this s = (s', .ok ()) := by
  rw [list.pop_front] at e
  obtain ⟨L, e1, e⟩ := bind_eq_ok e
  split at e
  · cases e
  rename_i hc
  obtain ⟨n, e2, e⟩ := bind_eq_ok e
  obtain ⟨r, e3, e⟩ := bind_eq_ok e
  obtain ⟨h2, e4, e⟩ := bind_eq_ok e
  cases e
  have e5 := erase_node_run_ok (s := s) e3
  simp only [list.pop_front_run, Run.bind_apply, Run.seq, Run.read, e1]
  rw [if_neg hc]
  simp only [Run.bind_apply, Run.seq, Run.read, e2, e5, Run.heap, e4, Run.members]
  rfl

theorem pop_front_run_error {s : State T} {this : Nat} {e : Error}
    (h : list.pop_front s this = .error e) :
    (list.pop_front_run this s).2 = .error e ∧
      (e ≠ .undefined_behaviour → list.pop_front_run this s = (s, .error e)) := by
  rw [list.pop_front] at h
  rcases bind_eq_error h with h | ⟨L, e1, h⟩
  · refine ⟨?_, fun hne => absurd (State.getList_only_ub h) hne⟩
    simp only [list.pop_front_run, Run.bind_apply, Run.seq, Run.read, h]
  simp only [list.pop_front_run, Run.bind_apply, Run.seq, Run.read, e1]
  split at h
  · rename_i hc
    cases h
    rw [if_pos hc]
    exact ⟨rfl, fun _ => rfl⟩
  rename_i hc
  rw [if_neg hc]
  rcases bind_eq_error h with h | ⟨n, e2, h⟩
  · refine ⟨?_, fun hne => absurd (Heap.get_only_ub h) hne⟩
    simp only [Run.bind_apply, Run.seq, Run.read, h]
  simp only [Run.bind_apply, Run.seq, Run.read, e2]
  rcases bind_eq_error h with h | ⟨r, e3, h⟩
  · refine ⟨?_, fun hne => absurd (erase_node_only_ub h) hne⟩
    have e5 := erase_node_run_error (s := s) h
    revert e5
    generalize list.erase_node_run n.next s = q
    obtain ⟨s1, r⟩ := q
    cases r with
    | error x => intro e5; cases e5; rfl
    | ok a => intro e5; cases e5
  have e5 := erase_node_run_ok (s := s) e3
  simp only [e5, Run.heap]
  rcases bind_eq_error h with h | ⟨h2, e4, h⟩
  · refine ⟨?_, fun hne => absurd (Heap.free_only_ub h) hne⟩
    simp only [h]
  · cases h

/-- A call of `pop_front` that raises an exception has written nothing. -/
theorem pop_front_run_atomic {s : State T} {this : Nat} {e : Error}
    (h : (list.pop_front_run this s).2 = .error e) (hne : e ≠ .undefined_behaviour) :
    list.pop_front_run this s = (s, .error e) ∧ list.pop_front s this = .error e := by
  cases e0 : list.pop_front s this with
  | ok r =>
    rw [pop_front_run_ok e0] at h
    cases h
  | error x =>
    have hx := (pop_front_run_error e0).1
    rw [h] at hx
    cases hx
    exact ⟨(pop_front_run_error e0).2 hne, rfl⟩

theorem front_run_eq (s : State T) (this : Nat) :
    list.front_run this s = (s, list.front s this) := by
  unfold list.front_run list.front
  simp only [Run.bind_apply, Run.seq, Run.read]
  cases s.getList this with
  | error x => rfl
  | ok L =>
    simp only [bind_ok]
    by_cases hc : L.count = 0
    · rw [if_pos hc, if_pos hc]; rfl
    · rw [if_neg hc, if_neg hc]
      simp only [Run.bind_apply, Run.seq, Run.read]
      cases s.heap.get L.head with
      | error x => rfl
      | ok n => rfl

theorem back_run_eq (s : State T) (this : Nat) :
    list.back_run this s = (s, list.back s this) := by
  unfold list.back_run list.back
  simp only [Run.bind_apply, Run.seq, Run.read]
  cases s.getList this with
  | error x => rfl
  | ok L =>
    simp only [bind_ok]
    by_cases hc : L.count = 0
    · rw [if_pos hc, if_pos hc]; rfl
    · rw [if_neg hc, if_neg hc]
      simp only [Run.bind_apply, Run.seq, Run.read]
      cases s.heap.get L.tail with
      | error x => rfl
      | ok n => rfl

/-! ## A failing iterator operator leaves the iterator where it was -/

theorem iterator.pre_inc_fail (s : State T) (it : iterator) (e : Error) :
    (iterator.pre_inc s it).2 = .error e → (iterator.pre_inc s it).1 = it := by
  unfold iterator.pre_inc
  split
  · intro _; rfl
  · cases s.heap.get it.ptr with
    | error x => intro _; rfl
    | ok n =>
      simp only
      split
      · intro _; rfl
      · intro h; cases h

theorem iterator.post_inc_fail (s : State T) (it : iterator) (e : Error) :
    (iterator.post_inc s it).2 = .error e → (iterator.post_inc s it).1 = it := by
  unfold iterator.post_inc
  split
  · intro _; rfl
  · cases s.heap.get it.ptr with
    | error x => intro _; rfl
    | ok n =>
      simp only
      split
      · intro _; rfl
      · intro h; cases h

theorem iterator.pre_dec_fail (s : State T) (it : iterator) (e : Error) :
    (iterator.pre_dec s it).2 = .error e → (iterator.pre_dec s it).1 = it := by
  unfold iterator.pre_dec
  split
  · intro _; rfl
  · cases s.heap.get it.ptr with
    | error x => intro _; rfl
    | ok n =>
      simp only
      split
      · intro _; rfl
      · cases s.heap.get n.prev with
        | error x => intro _; rfl
        | ok np =>
          simp only
          cases np.data with
          | none => intro _; rfl
          | some w => intro h; cases h

theorem iterator.post_dec_fail (s : State T) (it : iterator) (e : Error) :
    (iterator.post_dec s it).2 = .error e → (iterator.post_dec s it).1 = it := by
  unfold iterator.post_dec
  split
  · intro _; rfl
  · cases s.heap.get it.ptr with
    | error x => intro _; rfl
    | ok n =>
      simp only
      split
      · intro _; rfl
      · cases s.heap.get n.prev with
        | error x => intro _; rfl
        | ok np =>
          simp only
          cases np.data with
          | none => intro _; rfl
          | some w => intro h; cases h

theorem iterator.star_run_fst (s : State T) (it : iterator) : (iterator.star_run s it).1 = it := by
  unfold iterator.star_run
  split
  · rfl
  · cases s.heap.get it.ptr with
    | error x => rfl
    | ok n =>
      simp only
      cases n.data with
      | none => rfl
      | some w => rfl

theorem const_iterator.pre_inc_fail_c (s : State T) (it : const_iterator) (e : Error) :
    (const_iterator.pre_inc s it).2 = .error e → (const_iterator.pre_inc s it).1 = it := by
  unfold const_iterator.pre_inc
  split
  · intro _; rfl
  · cases s.heap.get it.ptr with
    | error x => intro _; rfl
    | ok n =>
      simp only
      split
      · intro _; rfl
      · intro h; cases h

theorem const_iterator.post_inc_fail_c (s : State T) (it : const_iterator) (e : Error) :
    (const_iterator.post_inc s it).2 = .error e → (const_iterator.post_inc s it).1 = it := by
  unfold const_iterator.post_inc
  split
  · intro _; rfl
  · cases s.heap.get it.ptr with
    | error x => intro _; rfl
    | ok n =>
      simp only
      split
      · intro _; rfl
      · intro h; cases h

theorem const_iterator.pre_dec_fail_c (s : State T) (it : const_iterator) (e : Error) :
    (const_iterator.pre_dec s it).2 = .error e → (const_iterator.pre_dec s it).1 = it := by
  unfold const_iterator.pre_dec
  split
  · intro _; rfl
  · cases s.heap.get it.ptr with
    | error x => intro _; rfl
    | ok n =>
      simp only
      split
      · intro _; rfl
      · cases s.heap.get n.prev with
        | error x => intro _; rfl
        | ok np =>
          simp only
          cases np.data with
          | none => intro _; rfl
          | some w => intro h; cases h

theorem const_iterator.post_dec_fail_c (s : State T) (it : const_iterator) (e : Error) :
    (const_iterator.post_dec s it).2 = .error e → (const_iterator.post_dec s it).1 = it := by
  unfold const_iterator.post_dec
  split
  · intro _; rfl
  · cases s.heap.get it.ptr with
    | error x => intro _; rfl
    | ok n =>
      simp only
      split
      · intro _; rfl
      · cases s.heap.get n.prev with
        | error x => intro _; rfl
        | ok np =>
          simp only
          cases np.data with
          | none => intro _; rfl
          | some w => intro h; cases h

theorem const_iterator.star_run_fst_c (s : State T) (it : const_iterator) : (const_iterator.star_run s it).1 = it := by
  unfold const_iterator.star_run
  split
  · rfl
  · cases s.heap.get it.ptr with
    | error x => rfl
    | ok n =>
      simp only
      cases n.data with
      | none => rfl
      | some w => rfl

theorem iterator.pre_inc_snd (s : State T) (it : iterator) :
    (iterator.pre_inc s it).2 = iterator.inc s it := by
  unfold iterator.pre_inc iterator.inc
  split
  · rfl
  · cases s.heap.get it.ptr with
    | error x => rfl
    | ok n =>
      simp only [bind_ok]
      split
      · rfl
      · rfl

theorem iterator.pre_dec_snd (s : State T) (it : iterator) :
    (iterator.pre_dec s it).2 = iterator.dec s it := by
  unfold iterator.pre_dec iterator.dec
  split
  · rfl
  · cases s.heap.get it.ptr with
    | error x => rfl
    | ok n =>
      simp only [bind_ok]
      split
      · rfl
      · cases s.heap.get n.prev with
        | error x => rfl
        | ok np =>
          simp only [bind_ok]
          cases np.data with
          | none => rfl
          | some w => rfl

theorem iterator.star_run_snd (s : State T) (it : iterator) :
    (iterator.star_run s it).2 = iterator.star s it := by
  unfold iterator.star_run iterator.star
  split
  · rfl
  · cases s.heap.get it.ptr with
    | error x => rfl
    | ok n =>
      simp only [bind_ok]
      cases n.data with
      | none => rfl
      | some w => rfl

/-- C17: a call of `insert`, `erase`, `pop_front` or `pop_back` raises
`container_is_empty` or `invalid_iterator` exactly when the operation yields
that exception, and it then returns with the whole memory as it was before
the call, hence with every chain, value and count unchanged; `front` and
`back` never write; a `++`, `--` (prefix or postfix) or `*` of `iterator` or
`const_iterator` that fails leaves the iterator object as it was. -/
theorem failure_atomicity (s : State T) (this : Nat) (pos : iterator) (v : T) (it : iterator)
    (cit : const_iterator) (e : Error)
    (he : e = .container_is_empty ∨ e = .invalid_iterator) :
    ((list.insert_run this pos v s).2 = .error e ↔ list.insert s this pos v = .error e) ∧
    ((list.insert_run this pos v s).2 = .error e → (list.insert_run this pos v s).1 = s) ∧
    ((list.erase_run this pos s).2 = .error e ↔ list.erase s this pos = .error e) ∧
    ((list.erase_run this pos s).2 = .error e → (list.erase_run this pos s).1 = s) ∧
    ((list.pop_front_run this s).2 = .error e ↔ list.pop_front s this = .error e) ∧
    ((list.pop_front_run this s).2 = .error e → (list.pop_front_run this s).1 = s) ∧
    ((list.pop_back_run this s).2 = .error e ↔ list.pop_back s this = .error e) ∧
    ((list.pop_back_run this s).2 = .error e → (list.pop_back_run this s).1 = s) ∧
    list.front_run this s = (s, list.front s this) ∧
    list.back_run this s = (s, list.back s this) ∧
    ((iterator.pre_inc s it).2 = .error e → (iterator.pre_inc s it).1 = it) ∧
    ((iterator.post_inc s it).2 = .error e → (iterator.post_inc s it).1 = it) ∧
    ((iterator.pre_dec s it).2 = .error e → (iterator.pre_dec s it).1 = it) ∧
    ((iterator.post_dec s it).2 = .error e → (iterator.post_dec s it).1 = it) ∧
    (iterator.star_run s it).1 = it ∧
    ((const_iterator.pre_inc s cit).2 = .error e → (const_iterator.pre_inc s cit).1 = cit) ∧
    ((const_iterator.post_inc s cit).2 = .error e → (const_iterator.post_inc s cit).1 = cit) ∧
    ((const_iterator.pre_dec s cit).2 = .error e → (const_iterator.pre_dec s cit).1 = cit) ∧
    ((const_iterator.post_dec s cit).2 = .error e → (const_iterator.post_dec s cit).1 = cit) ∧
    (const_iterator.star_run s cit).1 = cit := by
  have hne : e ≠ .undefined_behaviour := by
    rcases he with rfl | rfl
    · exact fun h => by cases h
    · exact fun h => by cases h
  exact ⟨⟨fun h => (insert_run_atomic h hne).2, insert_run_error⟩,
    fun h => by rw [(insert_run_atomic h hne).1],
    ⟨fun h => (erase_run_atomic h hne).2, fun h => (erase_run_error h).1⟩,
    fun h => by rw [(erase_run_atomic h hne).1],
    ⟨fun h => (pop_front_run_atomic h hne).2, fun h => (pop_front_run_error h).1⟩,
    fun h => by rw [(pop_front_run_atomic h hne).1],
    ⟨fun h => (pop_back_run_atomic h hne).2, fun h => (pop_back_run_error h).1⟩,
    fun h => by rw [(pop_back_run_atomic h hne).1],
    front_run_eq s this, back_run_eq s this,
    iterator.pre_inc_fail s it e, iterator.post_inc_fail s it e, iterator.pre_dec_fail s it e,
    iterator.post_dec_fail s it e, iterator.star_run_fst s it,
    const_iterator.pre_inc_fail_c s cit e, const_iterator.post_inc_fail_c s cit e,
    const_iterator.pre_dec_fail_c s cit e, const_iterator.post_dec_fail_c s cit e,
    const_iterator.star_run_fst_c s cit⟩

theorem failure_atomicity_witness :
    ((list.insert_run 2 ⟨5, 1⟩ 9 exMerge).2 = .error .invalid_iterator ↔
      list.insert exMerge 2 ⟨5, 1⟩ 9 = .error .invalid_iterator) ∧
    ((list.insert_run 2 ⟨5, 1⟩ 9 exMerge).2 = .error .invalid_iterator →
      (list.insert_run 2 ⟨5, 1⟩ 9 exMerge).1 = exMerge) ∧
    ((list.erase_run 2 ⟨5, 1⟩ exMerge).2 = .error .invalid_iterator ↔
      list.erase exMerge 2 ⟨5, 1⟩ = .error .invalid_iterator) ∧
    ((list.erase_run 2 ⟨5, 1⟩ exMerge).2 = .error .invalid_iterator →
      (list.erase_run 2 ⟨5, 1⟩ exMerge).1 = exMerge) ∧
    ((list.pop_front_run 2 exMerge).2 = .error .invalid_iterator ↔
      list.pop_front exMerge 2 = .error .invalid_iterator) ∧
    ((list.pop_front_run 2 exMerge).2 = .error .invalid_iterator →
      (list.pop_front_run 2 exMerge).1 = exMerge) ∧
    ((list.pop_back_run 2 exMerge).2 = .error .invalid_iterator ↔
      list.pop_back exMerge 2 = .error .invalid_iterator) ∧
    ((list.pop_back_run 2 exMerge).2 = .error .invalid_iterator →
      (list.pop_back_run 2 exMerge).1 = exMerge) ∧
    list.front_run 2 exMerge = (exMerge, list.front exMerge 2) ∧
    list.back_run 2 exMerge = (exMerge, list.back exMerge 2) ∧
    ((iterator.pre_inc exMerge ⟨2, 1⟩).2 = .error .invalid_iterator →
      (iterator.pre_inc exMerge ⟨2, 1⟩).1 = ⟨2, 1⟩) ∧
    ((iterator.post_inc exMerge ⟨2, 1⟩).2 = .error .invalid_iterator →
      (iterator.post_inc exMerge ⟨2, 1⟩).1 = ⟨2, 1⟩) ∧
    ((iterator.pre_dec exMerge ⟨2, 1⟩).2 = .error .invalid_iterator →
      (iterator.pre_dec exMerge ⟨2, 1⟩).1 = ⟨2, 1⟩) ∧
    ((iterator.post_dec exMerge ⟨2, 1⟩).2 = .error .invalid_iterator →
      (iterator.post_dec exMerge ⟨2, 1⟩).1 = ⟨2, 1⟩) ∧
    (iterator.star_run exMerge ⟨2, 1⟩).1 = ⟨2, 1⟩ ∧
    ((const_iterator.pre_inc exMerge ⟨2, 1⟩).2 = .error .invalid_iterator →
      (const_iterator.pre_inc exMerge ⟨2, 1⟩).1 = ⟨2, 1⟩) ∧
    ((const_iterator.post_inc exMerge ⟨2, 1⟩).2 = .error .invalid_iterator →
      (const_iterator.post_inc exMerge ⟨2, 1⟩).1 = ⟨2, 1⟩) ∧
    ((const_iterator.pre_dec exMerge ⟨2, 1⟩).2 = .error .invalid_iterator →
      (const_iterator.pre_dec exMerge ⟨2, 1⟩).1 = ⟨2, 1⟩) ∧
    ((const_iterator.post_dec exMerge ⟨2, 1⟩).2 = .error .invalid_iterator →
      (const_iterator.post_dec exMerge ⟨2, 1⟩).1 = ⟨2, 1⟩) ∧
    (const_iterator.star_run exMerge ⟨2, 1⟩).1 = ⟨2, 1⟩ :=
  failure_atomicity exMerge 2 ⟨5, 1⟩ 9 ⟨2, 1⟩ ⟨2, 1⟩ .invalid_iterator (Or.inr rfl)

/-! ## Which iterators insert and erase reject -/

/-- C12 (counterexample): after `A.push_back(7); it = A.begin(); B.merge(A);
A.push_back(1)` the list `A` at address 1 is `[1]` (node 6), not empty, and
the node 5 of `it = (5, 1)` is not linked in its chain but in the chain of `B`
at address 2.  `A.erase(it)` and `A.insert(it, 9)` both succeed: the erase
empties the chain of `B` and leaves `B.size()` at 1 and `A.size()` at 0 over a
chain of one node; the insert puts the new node 7 in the chain of `B`. -/
theorem stale_iterator_accepted :
    (list.begin exB1 1).toOption = some ⟨5, 1⟩ ∧
    (list.size exStale 1).toOption = some 1 ∧
    (list.nodes 3 exStale 1).toOption = some [6] ∧
    (list.end_ exStale 1).toOption = some ⟨2, 1⟩ ∧
    (list.nodes 3 exStale 2).toOption = some [5] ∧
    ((list.erase exStale 1 ⟨5, 1⟩).map Prod.snd).toOption = some ⟨4, 1⟩ ∧
    ((list.erase exStale 1 ⟨5, 1⟩).map Prod.fst >>= fun s => list.nodes 3 s 2).toOption
      = some [] ∧
    ((list.erase exStale 1 ⟨5, 1⟩).map Prod.fst >>= fun s => list.size s 2).toOption
      = some 1 ∧
    ((list.erase exStale 1 ⟨5, 1⟩).map Prod.fst >>= fun s => list.nodes 3 s 1).toOption
      = some [6] ∧
    ((list.erase exStale 1 ⟨5, 1⟩).map Prod.fst >>= fun s => list.size s 1).toOption
      = some 0 ∧
    ((list.insert exStale 1 ⟨5, 1⟩ 9).map Prod.snd).toOption = some ⟨7, 1⟩ ∧
    ((list.insert exStale 1 ⟨5, 1⟩ 9).map Prod.fst >>= fun s => list.nodes 3 s 2).toOption
      = some [7, 5] ∧
    ((list.insert exStale 1 ⟨5, 1⟩ 9).map Prod.fst >>= fun s => list.size s 1).toOption
      = some 2 := by
  decide!

/-- C12 (amended): on a non-empty list, `insert(pos, v)` raises
`invalid_iterator` exactly when the owner of `pos` is not this list, and
`erase(pos)` raises `invalid_iterator` exactly when the owner of `pos` is not
this list, or `pos` references no node, or the node it references holds no
value (a sentinel); a call that raises it returns with the whole memory as it
was, so no chain and no count is changed. -/
theorem erase_insert_reject (s : State T) (this : Nat) (L : list) (pos : iterator) (v : T)
    (hL : s.lists this = some L) (hc : L.count ≠ 0) :
    (list.insert s this pos v = .error .invalid_iterator ↔ pos.lst ≠ this) ∧
    (list.erase s this pos = .error .invalid_iterator ↔
      (pos.lst ≠ this ∨ pos.ptr = 0 ∨ ∃ n, s.heap.cells pos.ptr = some n ∧ n.data = none)) ∧
    (list.insert s this pos v = .error .invalid_iterator →
      list.insert_run this pos v s = (s, .error .invalid_iterator)) ∧
    (list.erase s this pos = .error .invalid_iterator →
      list.erase_run this pos s = (s, .error .invalid_iterator)) := by
  have hne : Error.invalid_iterator ≠ Error.undefined_behaviour := fun h => by cases h
  refine ⟨⟨fun h => ?_, fun h => by simp [list.insert, State.getList, hL, h]⟩,
    ⟨fun h => ?_, fun h => ?_⟩,
    fun h => (insert_run_atomic (insert_run_error h) hne).1,
    fun h => (erase_run_error h).2 hne⟩
  · by_contra hl
    rw [list.insert] at h
    rcases bind_eq_error h with h | ⟨L', -, h⟩
    · exact hne (State.getList_only_ub h)
    · rw [if_neg (not_not.2 hl)] at h
      rcases bind_eq_error h with h | ⟨r, -, h⟩
      · exact hne (insert_node_only_ub h)
      · cases h
  · by_contra hn
    simp only [not_or, not_not, not_exists, not_and] at hn
    obtain ⟨hl, hz, hd⟩ := hn
    rw [list.erase] at h
    rcases bind_eq_error h with h | ⟨L', e1, h⟩
    · exact hne (State.getList_only_ub h)
    have hLL : L' = L := by
      have := getList_of_ok e1
      rw [hL] at this
      cases this; rfl
    subst hLL
    rw [if_neg hc, if_neg (not_not.2 hl), if_neg hz] at h
    rcases bind_eq_error h with h | ⟨n, e2, h⟩
    · exact hne (Heap.get_only_ub h)
    have hcell : s.heap.cells pos.ptr = some n := by
      unfold Heap.get at e2
      split at e2
      · rename_i m hm; cases e2; exact hm
      · cases e2
    cases hdat : n.data with
    | none => exact hd n hcell hdat
    | some w =>
      simp only [hdat] at h
      rcases bind_eq_error h with h | ⟨r, -, h⟩
      · exact hne (erase_node_only_ub h)
      rcases bind_eq_error h with h | ⟨h2, -, h⟩
      · exact hne (Heap.free_only_ub h)
      · cases h
  · by_cases hl : pos.lst = this
    swap
    · simp [list.erase, State.getList, hL, hc, hl]
    by_cases hz : pos.ptr = 0
    · simp [list.erase, State.getList, hL, hc, hl, hz]
    rcases h with h | h | ⟨n, hn, hd⟩
    · exact absurd hl h
    · exact absurd h hz
    · simp [list.erase, State.getList, hL, hc, hl, hz, Heap.get_of hn, hd]

theorem erase_insert_reject_witness :
    (list.insert exStale 1 ⟨2, 1⟩ 9 = .error .invalid_iterator ↔
      (⟨2, 1⟩ : iterator).lst ≠ 1) ∧
    (list.erase exStale 1 ⟨2, 1⟩ = .error .invalid_iterator ↔
      ((⟨2, 1⟩ : iterator).lst ≠ 1 ∨ (⟨2, 1⟩ : iterator).ptr = 0 ∨
        ∃ n, exStale.heap.cells (⟨2, 1⟩ : iterator).ptr = some n ∧ n.data = none)) ∧
    (list.insert exStale 1 ⟨2, 1⟩ 9 = .error .invalid_iterator →
      list.insert_run 1 ⟨2, 1⟩ 9 exStale = (exStale, .error .invalid_iterator)) ∧
    (list.erase exStale 1 ⟨2, 1⟩ = .error .invalid_iterator →
      list.erase_run 1 ⟨2, 1⟩ exStale = (exStale, .error .invalid_iterator)) :=
  erase_insert_reject exStale 1 ⟨1, 2, 1⟩ ⟨2, 1⟩ 9 (by decide!) (by decide)

/-! ## Iterators at the boundaries and inside the chain -/

/-- The node at `begin()`: its predecessor is the head sentinel. -/
theorem Repr.begin_cell {h : Heap T} {L : list} {X : List (Nat × T)} (hR : Repr h L X) :
    ∃ d n, h.cells (nextOf (dataCells X) L.tail) = some ⟨d, L.head, n⟩ := by
  cases X with
  | nil => exact ⟨none, 0, hR.tail_cell⟩
  | cons x post => exact ⟨some x.2, _, Repr.cell_at (show Repr h L ([] ++ x :: post) from hR)⟩

/-- The node after an element: its predecessor is that element. -/
theorem Repr.cell_after {h : Heap T} {L : list} {pre post : List (Nat × T)} {x : Nat × T}
    (hR : Repr h L (pre ++ x :: post)) :
    ∃ d n, h.cells (nextOf (dataCells post) L.tail) = some ⟨d, x.1, n⟩ := by
  cases post with
  | nil =>
    have ht := hR.tail_cell
    rw [dataCells_append, dataCells_cons, dataCells_nil, lastOf_concat] at ht
    exact ⟨none, 0, ht⟩
  | cons y rest =>
    have hR' : Repr h L ((pre ++ [x]) ++ y :: rest) := by
      rw [List.append_assoc]; exact hR
    have hc := Repr.cell_at hR'
    rw [dataCells_append, dataCells_cons, dataCells_nil, lastOf_concat] at hc
    exact ⟨some y.2, _, hc⟩

theorem Repr.next_ne_zero {h : Heap T} {L : list} {X : List (Nat × T)} (hR : Repr h L X) :
    nextOf (dataCells X) L.tail ≠ 0 := by
  cases X with
  | nil => exact hR.tail_ne_zero
  | cons x post =>
    intro e
    exact hR.zero_not_mem (by rw [← e]; simp [dataCells, nextOf])

theorem Repr.head_ne_zero {h : Heap T} {L : list} {X : List (Nat × T)} (hR : Repr h L X) :
    L.head ≠ 0 := by
  intro e
  exact hR.2.2.1 (by rw [← e]; exact List.mem_cons_self _ _)

theorem Repr.suffix_ne_zero {h : Heap T} {L : list} {pre post : List (Nat × T)}
    (hR : Repr h L (pre ++ post)) : nextOf (dataCells post) L.tail ≠ 0 := by
  cases post with
  | nil => exact hR.tail_ne_zero
  | cons x rest =>
    intro e
    exact hR.zero_not_mem (by rw [← e]; simp [dataCells, nextOf])

theorem Repr.elem_ne_zero {h : Heap T} {L : list} {pre post : List (Nat × T)} {x : Nat × T}
    (hR : Repr h L (pre ++ x :: post)) : x.1 ≠ 0 := by
  intro e
  exact hR.zero_not_mem (by rw [← e]; simp)

theorem iterator.at_end {s : State T} {L : list} {X : List (Nat × T)} (hR : Repr s.heap L X)
    (l : Nat) :
    iterator.pre_inc s ⟨L.tail, l⟩ = (⟨L.tail, l⟩, .error .invalid_iterator) ∧
    iterator.post_inc s ⟨L.tail, l⟩ = (⟨L.tail, l⟩, .error .invalid_iterator) ∧
    iterator.star_run s ⟨L.tail, l⟩ = (⟨L.tail, l⟩, .error .invalid_iterator) := by
  have ht := Heap.get_of hR.tail_cell
  have hz := hR.tail_ne_zero
  refine ⟨?_, ?_, ?_⟩
  · simp [iterator.pre_inc, hz, ht]
  · simp [iterator.post_inc, hz, ht]
  · simp [iterator.star_run, hz, ht]

theorem iterator.at_begin {s : State T} {L : list} {X : List (Nat × T)} (hR : Repr s.heap L X)
    (l : Nat) :
    iterator.pre_dec s ⟨nextOf (dataCells X) L.tail, l⟩ =
      (⟨nextOf (dataCells X) L.tail, l⟩, .error .invalid_iterator) ∧
    iterator.post_dec s ⟨nextOf (dataCells X) L.tail, l⟩ =
      (⟨nextOf (dataCells X) L.tail, l⟩, .error .invalid_iterator) := by
  obtain ⟨d, n, hc⟩ := hR.begin_cell
  have hb := Heap.get_of hc
  have hh := Heap.get_of hR.head_cell
  have hz := hR.next_ne_zero
  have hz' := hR.head_ne_zero
  refine ⟨?_, ?_⟩
  · simp [iterator.pre_dec, hz, hb, hz', hh]
  · simp [iterator.post_dec, hz, hb, hz', hh]

theorem iterator.at_elem {s : State T} {L : list} {pre post : List (Nat × T)} {x : Nat × T}
    (hR : Repr s.heap L (pre ++ x :: post)) (l : Nat) :
    iterator.pre_inc s ⟨x.1, l⟩ =
      (⟨nextOf (dataCells post) L.tail, l⟩, .ok ⟨nextOf (dataCells post) L.tail, l⟩) ∧
    iterator.post_inc s ⟨x.1, l⟩ = (⟨nextOf (dataCells post) L.tail, l⟩, .ok ⟨x.1, l⟩) ∧
    iterator.pre_dec s ⟨nextOf (dataCells post) L.tail, l⟩ = (⟨x.1, l⟩, .ok ⟨x.1, l⟩) ∧
    iterator.post_dec s ⟨nextOf (dataCells post) L.tail, l⟩ =
      (⟨x.1, l⟩, .ok ⟨nextOf (dataCells post) L.tail, l⟩) ∧
    iterator.star_run s ⟨x.1, l⟩ = (⟨x.1, l⟩, .ok x.2) := by
  have hx := Heap.get_of (Repr.cell_at hR)
  obtain ⟨d, n, hc⟩ := Repr.cell_after hR
  have ha := Heap.get_of hc
  have hz := Repr.elem_ne_zero hR
  have hR' : Repr s.heap L ((pre ++ [x]) ++ post) := by
    rw [List.append_assoc]; exact hR
  have hz' := Repr.suffix_ne_zero hR'
  refine ⟨?_, ?_, ?_, ?_, ?_⟩
  · simp [iterator.pre_inc, hz, hx, hz']
  · simp [iterator.post_inc, hz, hx, hz']
  · simp [iterator.pre_dec, hz, hx, hz', ha]
  · simp [iterator.post_dec, hz, hx, hz', ha]
  · simp [iterator.star_run, hz, hx]

theorem const_iterator.at_end_c {s : State T} {L : list} {X : List (Nat × T)} (hR : Repr s.heap L X)
    (l : Nat) :
    const_iterator.pre_inc s ⟨L.tail, l⟩ = (⟨L.tail, l⟩, .error .invalid_iterator) ∧
    const_iterator.post_inc s ⟨L.tail, l⟩ = (⟨L.tail, l⟩, .error .invalid_iterator) ∧
    const_iterator.star_run s ⟨L.tail, l⟩ = (⟨L.tail, l⟩, .error .invalid_iterator) := by
  have ht := Heap.get_of hR.tail_cell
  have hz := hR.tail_ne_zero
  refine ⟨?_, ?_, ?_⟩
  · simp [const_iterator.pre_inc, hz, ht]
  · simp [const_iterator.post_inc, hz, ht]
  · simp [const_iterator.star_run, hz, ht]

theorem const_iterator.at_begin_c {s : State T} {L : list} {X : List (Nat × T)} (hR : Repr s.heap L X)
    (l : Nat) :
    const_iterator.pre_dec s ⟨nextOf (dataCells X) L.tail, l⟩ =
      (⟨nextOf (dataCells X) L.tail, l⟩, .error .invalid_iterator) ∧
    const_iterator.post_dec s ⟨nextOf (dataCells X) L.tail, l⟩ =
      (⟨nextOf (dataCells X) L.tail, l⟩, .error .invalid_iterator) := by
  obtain ⟨d, n, hc⟩ := hR.begin_cell
  have hb := Heap.get_of hc
  have hh := Heap.get_of hR.head_cell
  have hz := hR.next_ne_zero
  have hz' := hR.head_ne_zero
  refine ⟨?_, ?_⟩
  · simp [const_iterator.pre_dec, hz, hb, hz', hh]
  · simp [const_iterator.post_dec, hz, hb, hz', hh]

theorem const_iterator.at_elem_c {s : State T} {L : list} {pre post : List (Nat × T)} {x : Nat × T}
    (hR : Repr s.heap L (pre ++ x :: post)) (l : Nat) :
    const_iterator.pre_inc s ⟨x.1, l⟩ =
      (⟨nextOf (dataCells post) L.tail, l⟩, .ok ⟨nextOf (dataCells post) L.tail, l⟩) ∧
    const_iterator.post_inc s ⟨x.1, l⟩ = (⟨nextOf (dataCells post) L.tail, l⟩, .ok ⟨x.1, l⟩) ∧
    const_iterator.pre_dec s ⟨nextOf (dataCells post) L.tail, l⟩ = (⟨x.1, l⟩, .ok ⟨x.1, l⟩) ∧
    const_iterator.post_dec s ⟨nextOf (dataCells post) L.tail, l⟩ =
      (⟨x.1, l⟩, .ok ⟨nextOf (dataCells post) L.tail, l⟩) ∧
    const_iterator.star_run s ⟨x.1, l⟩ = (⟨x.1, l⟩, .ok x.2) := by
  have hx := Heap.get_of (Repr.cell_at hR)
  obtain ⟨d, n, hc⟩ := Repr.cell_after hR
  have ha := Heap.get_of hc
  have hz := Repr.elem_ne_zero hR
  have hR' : Repr s.heap L ((pre ++ [x]) ++ post) := by
    rw [List.append_assoc]; exact hR
  have hz' := Repr.suffix_ne_zero hR'
  refine ⟨?_, ?_, ?_, ?_, ?_⟩
  · simp [const_iterator.pre_inc, hz, hx, hz']
  · simp [const_iterator.post_inc, hz, hx, hz']
  · simp [const_iterator.pre_dec, hz, hx, hz', ha]
  · simp [const_iterator.post_dec, hz, hx, hz', ha]
  · simp [const_iterator.star_run, hz, hx]

/-- C14: on every list, `++` (prefix or postfix) and `*` at `end()` and `--` at
`begin()` raise `invalid_iterator` and leave the iterator object as it was
(`begin()` is `end()` when the list is empty); at an element `x` followed by
`post`, `++` moves the iterator to the node after `x` (to `end()` when `x` is
the last element), `--` from that node (from `end()` when `x` is the last
element) moves it back to `x`, the prefix forms return the moved iterator and
the postfix forms the old one, and `*` at `x` returns its value.  The
`const_iterator` obtained from `cbegin`, `cend` or by conversion behaves the
same. -/
theorem iterator_boundaries (s : State T) (this : Nat) (L : list) (X : List (Nat × T))
    (hL : s.lists this = some L) (hX : Repr s.heap L X) :
    ∃ b e : iterator, list.begin s this = .ok b ∧ list.end_ s this = .ok e ∧
      list.cbegin s this = .ok (const_iterator.of_iterator b) ∧
      list.cend s this = .ok (const_iterator.of_iterator e) ∧
      (X = [] → b = e) ∧
      iterator.pre_inc s e = (e, .error .invalid_iterator) ∧
      iterator.post_inc s e = (e, .error .invalid_iterator) ∧
      iterator.star_run s e = (e, .error .invalid_iterator) ∧
      iterator.pre_dec s b = (b, .error .invalid_iterator) ∧
      iterator.post_dec s b = (b, .error .invalid_iterator) ∧
      const_iterator.pre_inc s (const_iterator.of_iterator e) =
        (const_iterator.of_iterator e, .error .invalid_iterator) ∧
      const_iterator.post_inc s (const_iterator.of_iterator e) =
        (const_iterator.of_iterator e, .error .invalid_iterator) ∧
      const_iterator.star_run s (const_iterator.of_iterator e) =
        (const_iterator.of_iterator e, .error .invalid_iterator) ∧
      const_iterator.pre_dec s (const_iterator.of_iterator b) =
        (const_iterator.of_iterator b, .error .invalid_iterator) ∧
      const_iterator.post_dec s (const_iterator.of_iterator b) =
        (const_iterator.of_iterator b, .error .invalid_iterator) ∧
      ∀ pre x post, X = pre ++ x :: post →
        ∃ cur nx : iterator, cur = ⟨x.1, this⟩ ∧ nx.lst = this ∧ (pre = [] → cur = b) ∧
          (post = [] → nx = e) ∧ (∀ y rest, post = y :: rest → nx.ptr = y.1) ∧
          iterator.pre_inc s cur = (nx, .ok nx) ∧ iterator.post_inc s cur = (nx, .ok cur) ∧
          iterator.pre_dec s nx = (cur, .ok cur) ∧ iterator.post_dec s nx = (cur, .ok nx) ∧
          iterator.star_run s cur = (cur, .ok x.2) ∧
          const_iterator.pre_inc s (const_iterator.of_iterator cur) =
            (const_iterator.of_iterator nx, .ok (const_iterator.of_iterator nx)) ∧
          const_iterator.post_inc s (const_iterator.of_iterator cur) =
            (const_iterator.of_iterator nx, .ok (const_iterator.of_iterator cur)) ∧
          const_iterator.pre_dec s (const_iterator.of_iterator nx) =
            (const_iterator.of_iterator cur, .ok (const_iterator.of_iterator cur)) ∧
          const_iterator.post_dec s (const_iterator.of_iterator nx) =
            (const_iterator.of_iterator cur, .ok (const_iterator.of_iterator nx)) ∧
          const_iterator.star_run s (const_iterator.of_iterator cur) =
            (const_iterator.of_iterator cur, .ok x.2) := by
  have hh := Heap.get_of hX.head_cell
  obtain ⟨i1, i2, i3⟩ := iterator.at_end hX this
  obtain ⟨i4, i5⟩ := iterator.at_begin hX this
  obtain ⟨c1, c2, c3⟩ := const_iterator.at_end_c hX this
  obtain ⟨c4, c5⟩ := const_iterator.at_begin_c hX this
  refine ⟨⟨nextOf (dataCells X) L.tail, this⟩, ⟨L.tail, this⟩, ?_, ?_, ?_, ?_, ?_, i1, i2, i3,
    i4, i5, c1, c2, c3, c4, c5, ?_⟩
  · simp [list.begin, State.getList, hL, hh]
  · simp [list.end_, State.getList, hL]
  · simp [list.cbegin, State.getList, hL, hh, const_iterator.of_iterator]
  · simp [list.cend, State.getList, hL, const_iterator.of_iterator]
  · intro h0; subst h0; rfl
  · intro pre x post hs
    subst hs
    obtain ⟨j1, j2, j3, j4, j5⟩ := iterator.at_elem hX this
    obtain ⟨d1, d2, d3, d4, d5⟩ := const_iterator.at_elem_c hX this
    refine ⟨⟨x.1, this⟩, ⟨nextOf (dataCells post) L.tail, this⟩, rfl, rfl, ?_, ?_, ?_, j1, j2,
      j3, j4, j5, d1, d2, d3, d4, d5⟩
    · intro h0; subst h0; rfl
    · intro h0; subst h0; rfl
    · intro y rest h0; subst h0; rfl

theorem iterator_boundaries_witness :
    ∃ b e : iterator, list.begin exMerge 1 = .ok b ∧ list.end_ exMerge 1 = .ok e ∧
      list.cbegin exMerge 1 = .ok (const_iterator.of_iterator b) ∧
      list.cend exMerge 1 = .ok (const_iterator.of_iterator e) ∧
      ([(5, 1), (6, 3), (7, 5)] = [] → b = e) ∧
      iterator.pre_inc exMerge e = (e, .error .invalid_iterator) ∧
      iterator.post_inc exMerge e = (e, .error .invalid_iterator) ∧
      iterator.star_run exMerge e = (e, .error .invalid_iterator) ∧
      iterator.pre_dec exMerge b = (b, .error .invalid_iterator) ∧
      iterator.post_dec exMerge b = (b, .error .invalid_iterator) ∧
      const_iterator.pre_inc exMerge (const_iterator.of_iterator e) =
        (const_iterator.of_iterator e, .error .invalid_iterator) ∧
      const_iterator.post_inc exMerge (const_iterator.of_iterator e) =
        (const_iterator.of_iterator e, .error .invalid_iterator) ∧
      const_iterator.star_run exMerge (const_iterator.of_iterator e) =
        (const_iterator.of_iterator e, .error .invalid_iterator) ∧
      const_iterator.pre_dec exMerge (const_iterator.of_iterator b) =
        (const_iterator.of_iterator b, .error .invalid_iterator) ∧
      const_iterator.post_dec exMerge (const_iterator.of_iterator b) =
        (const_iterator.of_iterator b, .error .invalid_iterator) ∧
      ∀ pre x post, [(5, 1), (6, 3), (7, 5)] = pre ++ x :: post →
        ∃ cur nx : iterator, cur = ⟨x.1, 1⟩ ∧ nx.lst = 1 ∧ (pre = [] → cur = b) ∧
          (post = [] → nx = e) ∧ (∀ y rest, post = y :: rest → nx.ptr = y.1) ∧
          iterator.pre_inc exMerge cur = (nx, .ok nx) ∧
          iterator.post_inc exMerge cur = (nx, .ok cur) ∧
          iterator.pre_dec exMerge nx = (cur, .ok cur) ∧
          iterator.post_dec exMerge nx = (cur, .ok nx) ∧
          iterator.star_run exMerge cur = (cur, .ok x.2) ∧
          const_iterator.pre_inc exMerge (const_iterator.of_iterator cur) =
            (const_iterator.of_iterator nx, .ok (const_iterator.of_iterator nx)) ∧
          const_iterator.post_inc exMerge (const_iterator.of_iterator cur) =
            (const_iterator.of_iterator nx, .ok (const_iterator.of_iterator cur)) ∧
          const_iterator.pre_dec exMerge (const_iterator.of_iterator nx) =
            (const_iterator.of_iterator cur, .ok (const_iterator.of_iterator cur)) ∧
          const_iterator.post_dec exMerge (const_iterator.of_iterator nx) =
            (const_iterator.of_iterator cur, .ok (const_iterator.of_iterator nx)) ∧
          const_iterator.star_run exMerge (const_iterator.of_iterator cur) =
            (const_iterator.of_iterator cur, .ok x.2) :=
  iterator_boundaries exMerge 1 ⟨1, 2, 3⟩ [(5, 1), (6, 3), (7, 5)] (by decide!) (by decide!)

/-! ## Operations on other lists leave a list as it is -/

/-- A run of operations none of which is applied to the list at `b` keeps the
invariant and leaves the list at `b` with the same members and the same chain. -/
theorem elsewhere_frame {b : Nat} {s s' : State T} (h : Elsewhere b s s') :
    ∀ M, InvM s M → ∃ M', InvM s' M' ∧ M' b = M b ∧ s'.lists b = s.lists b := by
  have step : ∀ {s1 s2 : State T} {M M1 : Nat → List (Nat × T)} {a : Nat} {L' : list}
      {X' : List (Nat × T)}, a ≠ b → M1 b = M b → s1.lists b = s.lists b →
      InvM s2 (Function.update M1 a X') → s2.lists = Function.update s1.lists a (some L') →
      ∃ M', InvM s2 M' ∧ M' b = M b ∧ s2.lists b = s.lists b := by
    intro s1 s2 M M1 a L' X' hab h1 h2 hI hl
    exact ⟨_, hI, by rw [Function.update_noteq (Ne.symm hab), h1],
      by rw [hl, Function.update_noteq (Ne.symm hab), h2]⟩
  induction h with
  | refl => intro M hM; exact ⟨M, hM, rfl, rfl⟩
  | ctor s1 s2 a _ hab _ e ih =>
    intro M hM
    obtain ⟨M1, hM1, h1, h2⟩ := ih M hM
    obtain ⟨hI, hl, -, -⟩ := invM_ctor hM1 e
    exact step hab h1 h2 hI hl
  | copy_ctor fuel s1 s2 a o _ hab _ e ih =>
    intro M hM
    obtain ⟨M1, hM1, h1, h2⟩ := ih M hM
    obtain ⟨L', X', hI, hl, -⟩ := invM_copy_ctor hM1 e
    exact step hab h1 h2 hI hl
  | assign fuel s1 s2 a o _ hab e ih =>
    intro M hM
    obtain ⟨M1, hM1, h1, h2⟩ := ih M hM
    obtain ⟨L', X', hI, hl, -⟩ := invM_assign hM1 e
    exact step hab h1 h2 hI hl
  | insert s1 s2 a pos it v _ hab hlk e ih =>
    intro M hM
    obtain ⟨M1, hM1, h1, h2⟩ := ih M hM
    obtain ⟨L', X', hI, hl⟩ := invM_insert hM1 hlk e
    exact step hab h1 h2 hI hl
  | erase s1 s2 a pos it _ hab hlk e ih =>
    intro M hM
    obtain ⟨M1, hM1, h1, h2⟩ := ih M hM
    obtain ⟨L', X', hI, hl⟩ := invM_erase hM1 hlk e
    exact step hab h1 h2 hI hl
  | push_back s1 s2 a v _ hab e ih =>
    intro M hM
    obtain ⟨M1, hM1, h1, h2⟩ := ih M hM
    obtain ⟨L', X', hI, hl⟩ := invM_push_back hM1 e
    exact step hab h1 h2 hI hl
  | push_front s1 s2 a v _ hab e ih =>
    intro M hM
    obtain ⟨M1, hM1, h1, h2⟩ := ih M hM
    obtain ⟨L', X', hI, hl⟩ := invM_push_front hM1 e
    exact step hab h1 h2 hI hl
  | pop_back s1 s2 a _ hab e ih =>
    intro M hM
    obtain ⟨M1, hM1, h1, h2⟩ := ih M hM
    obtain ⟨L', X', hI, hl⟩ := invM_pop_back hM1 e
    exact step hab h1 h2 hI hl
  | pop_front s1 s2 a _ hab e ih =>
    intro M hM
    obtain ⟨M1, hM1, h1, h2⟩ := ih M hM
    obtain ⟨L', X', hI, hl⟩ := invM_pop_front hM1 e
    exact step hab h1 h2 hI hl
  | clear fuel s1 s2 a _ hab e ih =>
    intro M hM
    obtain ⟨M1, hM1, h1, h2⟩ := ih M hM
    obtain ⟨L, e1, -⟩ := bind_eq_ok (by rw [list.clear] at e; exact e)
    obtain ⟨hI, hl, -, -⟩ := invM_clear hM1 (getList_of_ok e1) e
    exact step hab h1 h2 hI hl
  | sort lt srt fuel s1 s2 a _ hab hperm e ih =>
    intro M hM
    obtain ⟨M1, hM1, h1, h2⟩ := ih M hM
    obtain ⟨L', X', hI, hl⟩ := invM_sort hM1 hperm e
    exact step hab h1 h2 hI hl
  | merge lt fuel s1 s2 a o _ hab hob e ih =>
    intro M hM
    obtain ⟨M1, hM1, h1, h2⟩ := ih M hM
    obtain ⟨M2, hM2, hfr⟩ := invM_merge hM1 e
    obtain ⟨h3, h4⟩ := hfr b (Ne.symm hab) (Ne.symm hob)
    exact ⟨M2, hM2, h3.trans h1, h4.trans h2⟩
  | reverse fuel s1 s2 a _ hab e ih =>
    intro M hM
    obtain ⟨M1, hM1, h1, h2⟩ := ih M hM
    obtain ⟨L', X', hI, hl⟩ := invM_reverse hM1 e
    exact step hab h1 h2 hI hl
  | unique eq fuel s1 s2 a _ hab e ih =>
    intro M hM
    obtain ⟨M1, hM1, h1, h2⟩ := ih M hM
    obtain ⟨L', X', hI, hl⟩ := invM_unique hM1 e
    exact step hab h1 h2 hI hl

/-! ## Copies -/

theorem copy_tail_total {s : State T} {M : Nat → List (Nat × T)} {this other fuel : Nat}
    {L O : list} (hM : InvM s M) (hne : this ≠ other) (hL : s.lists this = some L)
    (hO : s.lists other = some O) (hf : (M other).length < fuel) :
    ∃ s', (s.getList other >>= fun O => s.heap.get O.head >>= fun ohd =>
      list.copy_loop fuel s this O.tail ohd.next) = .ok s' := by
  have hX := hM.2.1 this L hL
  have hY := hM.2.1 other O hO
  obtain ⟨s', X', e', -⟩ := copy_loop_spec (M other) s this L (M this) O.head 0 O.tail fuel hL
    hX hM.1 hY.data_seg hY.tail_not_mem
    (fun a ha hm => hM.2.2 this other L O hne hL hO a hm (List.mem_cons_of_mem _ ha)) hf
  refine ⟨s', ?_⟩
  simp only [State.getList, hO, bind_ok, Heap.get_of hY.head_cell, e']

theorem copy_ctor_total {s : State T} {M : Nat → List (Nat × T)} {this other : Nat}
    {O : list} (fuel : Nat) (hM : InvM s M) (hn : s.lists this = none) (hO : s.lists other = some O)
    (hf : (M other).length < fuel) : ∃ s', list.copy_ctor fuel s this other = .ok s' := by
  obtain ⟨s1, e1, -⟩ := ctor_state_spec (s := s) this hM.1.fresh.1
  obtain ⟨hM1, l1, -, -⟩ := invM_ctor hM e1
  have hne : this ≠ other := fun h => by rw [h, hO] at hn; cases hn
  have hO1 : s1.lists other = some O := by
    rw [l1, Function.update_noteq (Ne.symm hne)]; exact hO
  obtain ⟨s', e⟩ := copy_tail_total hM1 hne (by rw [l1, Function.update_same]) hO1
    (by rw [Function.update_noteq (Ne.symm hne)]; exact hf)
  refine ⟨s', ?_⟩
  rw [list.copy_ctor, e1]
  exact e

theorem assign_total {s : State T} {M : Nat → List (Nat × T)} {this other : Nat}
    {L O : list} (fuel : Nat) (hM : InvM s M) (hne : this ≠ other) (hL : s.lists this = some L)
    (hO : s.lists other = some O) (hf1 : (M this).length < fuel)
    (hf : (M other).length < fuel) : ∃ s', list.assign fuel s this other = .ok s' := by
  obtain ⟨s1, e1, -⟩ := clear_state_spec hL (hM.2.1 this L hL) fuel hf1
  obtain ⟨hM1, l1, -, -⟩ := invM_clear hM hL e1
  have hO1 : s1.lists other = some O := by
    rw [l1, Function.update_noteq (Ne.symm hne)]; exact hO
  obtain ⟨s', e⟩ := copy_tail_total hM1 hne (by rw [l1, Function.update_same]) hO1
    (by rw [Function.update_noteq (Ne.symm hne)]; exact hf)
  refine ⟨s', ?_⟩
  simp only [list.assign, State.getList, hL, bind_ok, if_neg hne, e1]
  exact e

/-- What an invariant memory in which `c` was just made a copy of `o` gives:
equal values, no shared node, and independence of the two lists. -/
theorem copy_facts {s1 : State T} {M : Nat → List (Nat × T)} {c o : Nat} {O Lc' : list}
    {C : List (Nat × T)} (hne : c ≠ o) (hI : InvM s1 (Function.update M c C))
    (hc : s1.lists c = some Lc') (ho : s1.lists o = some O)
    (hv : C.map Prod.snd = (M o).map Prod.snd) (fuel : Nat) (hf : (M o).length < fuel) :
    list.cells fuel s1 c = .ok C ∧ C.map Prod.snd = (M o).map Prod.snd ∧
      list.to_list fuel s1 c = .ok ((M o).map Prod.snd) ∧
      list.size s1 c = .ok (M o).length ∧
      s1.lists o = some O ∧ list.cells fuel s1 o = .ok (M o) ∧
      list.size s1 o = .ok (M o).length ∧
      (∀ a ∈ Lc'.head :: Lc'.tail :: C.map Prod.fst,
        a ∉ O.head :: O.tail :: (M o).map Prod.fst) ∧
      (∀ s2, Elsewhere o s1 s2 → ∀ f, (M o).length < f → list.cells f s2 o = .ok (M o)) ∧
      (∀ s2, Elsewhere c s1 s2 → ∀ f, (M o).length < f → list.cells f s2 c = .ok C) := by
  have hRc : Repr s1.heap Lc' C := by
    have := hI.2.1 c Lc' hc
    rwa [Function.update_same] at this
  have hRo : Repr s1.heap O (M o) := by
    have := hI.2.1 o O ho
    rwa [Function.update_noteq (Ne.symm hne)] at this
  have hlen : C.length = (M o).length := by
    have := congrArg List.length hv
    simpa using this
  refine ⟨hRc.cells hc fuel (by omega), hv, ?_, ?_, ho, hRo.cells ho fuel hf, hRo.size ho,
    ?_, ?_, ?_⟩
  · rw [← hv]; exact hRc.to_list hc fuel (by omega)
  · rw [← hlen]; exact hRc.size hc
  · intro a ha hb
    have h1 : a ∈ chainAddrs Lc' ((Function.update M c C) c) := by
      rw [Function.update_same]
      simp only [chainAddrs, List.mem_cons, List.mem_append, List.mem_singleton] at ha ⊢
      tauto
    have h2 : a ∈ chainAddrs O ((Function.update M c C) o) := by
      rw [Function.update_noteq (Ne.symm hne)]
      simp only [chainAddrs, List.mem_cons, List.mem_append, List.mem_singleton] at hb ⊢
      tauto
    exact hI.2.2 c o Lc' O hne hc ho a h1 h2
  · intro s2 hE f hf2
    obtain ⟨M2, hM2, h3, h4⟩ := elsewhere_frame hE _ hI
    rw [Function.update_noteq (Ne.symm hne)] at h3
    have ho2 : s2.lists o = some O := by rw [h4]; exact ho
    have := hM2.2.1 o O ho2
    rw [h3] at this
    exact this.cells ho2 f hf2
  · intro s2 hE f hf2
    obtain ⟨M2, hM2, h3, h4⟩ := elsewhere_frame hE _ hI
    rw [Function.update_same] at h3
    have hc2 : s2.lists c = some Lc' := by rw [h4]; exact hc
    have := hM2.2.1 c Lc' hc2
    rw [h3] at this
    exact this.cells hc2 f (by rw [hlen]; exact hf2)

/-- C16 (counterexample): after `A.push_back(7); it = A.begin(); B.merge(A)`
(a memory reached with linked iterators) the assignment `A = B` makes `A`
(address 1) a copy `[7]` of `B` (address 2) on a node of its own.  The later
mutation `A.erase(it)` of the copy, with the iterator `it = (5, 1)` taken from
`A` before the merge, succeeds and empties the chain of the source `B`, whose
`size()` stays 1.  A mutation of a copy that names the source changes it too:
after copy-constructing a list at address 3 from `A = [7]`, merging `A` into
the copy leaves `A` empty.  And in the memory left by `A.insert(it, 9)` on a
moved node, where `B.size()` is 1 over a chain of two nodes, a copy of `B` has
size 2. -/
theorem copy_mutation_reaches_source :
    Reach true exB2 ∧
    (list.begin exB1 1).toOption = some ⟨5, 1⟩ ∧
    (list.assign 3 exB2 1 2).toOption.isSome = true ∧
    (list.to_list 3 exCopy 1).toOption = some [7] ∧
    (list.to_list 3 exCopy 2).toOption = some [7] ∧
    (list.nodes 3 exCopy 1).toOption = some [6] ∧
    (list.nodes 3 exCopy 2).toOption = some [5] ∧
    ((list.erase exCopy 1 ⟨5, 1⟩).map Prod.snd).toOption = some ⟨4, 1⟩ ∧
    ((list.erase exCopy 1 ⟨5, 1⟩).map Prod.fst >>= fun s => list.to_list 3 s 2).toOption
      = some [] ∧
    ((list.erase exCopy 1 ⟨5, 1⟩).map Prod.fst >>= fun s => list.size s 2).toOption
      = some 1 ∧
    (list.to_list 3 exB1 1).toOption = some [7] ∧
    (list.copy_ctor 3 exB1 3 1 >>= fun s => list.to_list 3 s 3).toOption = some [7] ∧
    (list.copy_ctor 3 exB1 3 1 >>= fun s => list.merge ltNat 3 s 3 1 >>= fun s =>
      list.to_list 3 s 1).toOption = some [] ∧
    Reach false exBroken ∧
    (list.size exBroken 2).toOption = some 1 ∧
    (list.copy_ctor 4 exBroken 3 2 >>= fun s => list.size s 3).toOption = some 2 :=
  ⟨Reach.run_merge (reach_exB1 true) (by decide!), by decide!, by decide!, by decide!,
    by decide!, by decide!, by decide!, by decide!, by decide!, by decide!, by decide!,
    by decide!, by decide!,
    Reach.run_insert (Reach.run_merge (reach_exB1 false) (by decide!)) (by decide!),
    by decide!, by decide!⟩

/-- C16 (amended): in a memory reached by the public operations with every
iterator passed to `insert` or `erase` linked in the receiving list,
copy-constructing a list at an unused address `c` from the list at `o`, or
copy-assigning the list at `o` to another list at `c`, returns (with fuel
above the sizes) and leaves at `c` a list with the same values in the same
order and the same size as the list at `o`, which is itself unchanged; the two
chains, sentinels included, share no node; any later run of operations not
applied to `o` (as receiver or as the argument of `merge`), again with linked
iterators, leaves the chain of `o` as it is, and any such run not applied to
`c` leaves the chain of `c` as it is.  Assigning a list to itself returns the
memory unchanged. -/
theorem copy_independent (s : State T) (c o : Nat) (O : list) (fuel : Nat)
    (hr : Reach true s) (hO : s.lists o = some O) (hne : c ≠ o) (hf : O.count < fuel) :
    ∃ X : List (Nat × T), list.cells fuel s o = .ok X ∧ X.length = O.count ∧
      (s.lists c = none →
        ∃ s1 C Lc', list.copy_ctor fuel s c o = .ok s1 ∧ s1.lists c = some Lc' ∧
          list.cells fuel s1 c = .ok C ∧ C.map Prod.snd = X.map Prod.snd ∧
          list.to_list fuel s1 c = .ok (X.map Prod.snd) ∧
          list.size s1 c = .ok X.length ∧
          s1.lists o = some O ∧ list.cells fuel s1 o = .ok X ∧
          list.size s1 o = .ok X.length ∧
          (∀ a ∈ Lc'.head :: Lc'.tail :: C.map Prod.fst,
            a ∉ O.head :: O.tail :: X.map Prod.fst) ∧
          (∀ s2, Elsewhere o s1 s2 → ∀ f, X.length < f → list.cells f s2 o = .ok X) ∧
          (∀ s2, Elsewhere c s1 s2 → ∀ f, X.length < f → list.cells f s2 c = .ok C)) ∧
      (∀ Lc, s.lists c = some Lc → Lc.count < fuel →
        ∃ s1 C Lc', list.assign fuel s c o = .ok s1 ∧ s1.lists c = some Lc' ∧
          list.cells fuel s1 c = .ok C ∧ C.map Prod.snd = X.map Prod.snd ∧
          list.to_list fuel s1 c = .ok (X.map Prod.snd) ∧
          list.size s1 c = .ok X.length ∧
          s1.lists o = some O ∧ list.cells fuel s1 o = .ok X ∧
          list.size s1 o = .ok X.length ∧
          (∀ a ∈ Lc'.head :: Lc'.tail :: C.map Prod.fst,
            a ∉ O.head :: O.tail :: X.map Prod.fst) ∧
          (∀ s2, Elsewhere o s1 s2 → ∀ f, X.length < f → list.cells f s2 o = .ok X) ∧
          (∀ s2, Elsewhere c s1 s2 → ∀ f, X.length < f → list.cells f s2 c = .ok C)) ∧
      list.assign fuel s o o = .ok s := by
  obtain ⟨M, hM⟩ := reach_inv hr
  have hRo := hM.2.1 o O hO
  have hlen : (M o).length = O.count := hRo.2.2.2.symm
  refine ⟨M o, hRo.cells hO fuel (by omega), hlen, ?_, ?_, ?_⟩
  · intro hn
    obtain ⟨s1, e⟩ := copy_ctor_total fuel hM hn hO (by omega)
    obtain ⟨Lc', C, hI, hl, hv⟩ := invM_copy_ctor hM e
    have hc : s1.lists c = some Lc' := by rw [hl, Function.update_same]
    have ho : s1.lists o = some O := by
      rw [hl, Function.update_noteq (Ne.symm hne)]; exact hO
    exact ⟨s1, C, Lc', e, hc, copy_facts hne hI hc ho (hv hne) fuel (by omega)⟩
  · intro Lc hLc hfc
    have hfc' : (M c).length < fuel := by
      rw [← (hM.2.1 c Lc hLc).2.2.2]; exact hfc
    obtain ⟨s1, e⟩ := assign_total fuel hM hne hLc hO hfc' (by omega)
    obtain ⟨Lc', C, hI, hl, hv⟩ := invM_assign hM e
    have hc : s1.lists c = some Lc' := by rw [hl, Function.update_same]
    have ho : s1.lists o = some O := by
      rw [hl, Function.update_noteq (Ne.symm hne)]; exact hO
    exact ⟨s1, C, Lc', e, hc, copy_facts hne hI hc ho hv fuel (by omega)⟩
  · simp [list.assign, State.getList, hO]

theorem copy_independent_witness :
    ∃ X : List (Nat × Nat), list.cells 3 exB1 1 = .ok X ∧
      X.length = (⟨1, 2, 1⟩ : list).count ∧
      (exB1.lists 3 = none →
        ∃ s1 C Lc', list.copy_ctor 3 exB1 3 1 = .ok s1 ∧ s1.lists 3 = some Lc' ∧
          list.cells 3 s1 3 = .ok C ∧ C.map Prod.snd = X.map Prod.snd ∧
          list.to_list 3 s1 3 = .ok (X.map Prod.snd) ∧
          list.size s1 3 = .ok X.length ∧
          s1.lists 1 = some (⟨1, 2, 1⟩ : list) ∧ list.cells 3 s1 1 = .ok X ∧
          list.size s1 1 = .ok X.length ∧
          (∀ a ∈ Lc'.head :: Lc'.tail :: C.map Prod.fst,
            a ∉ (⟨1, 2, 1⟩ : list).head :: (⟨1, 2, 1⟩ : list).tail :: X.map Prod.fst) ∧
          (∀ s2, Elsewhere 1 s1 s2 → ∀ f, X.length < f → list.cells f s2 1 = .ok X) ∧
          (∀ s2, Elsewhere 3 s1 s2 → ∀ f, X.length < f → list.cells f s2 3 = .ok C)) ∧
      (∀ Lc, exB1.lists 3 = some Lc → Lc.count < 3 →
        ∃ s1 C Lc', list.assign 3 exB1 3 1 = .ok s1 ∧ s1.lists 3 = some Lc' ∧
          list.cells 3 s1 3 = .ok C ∧ C.map Prod.snd = X.map Prod.snd ∧
          list.to_list 3 s1 3 = .ok (X.map Prod.snd) ∧
          list.size s1 3 = .ok X.length ∧
          s1.lists 1 = some (⟨1, 2, 1⟩ : list) ∧ list.cells 3 s1 1 = .ok X ∧
          list.size s1 1 = .ok X.length ∧
          (∀ a ∈ Lc'.head :: Lc'.tail :: C.map Prod.fst,
            a ∉ (⟨1, 2, 1⟩ : list).head :: (⟨1, 2, 1⟩ : list).tail :: X.map Prod.fst) ∧
          (∀ s2, Elsewhere 1 s1 s2 → ∀ f, X.length < f → list.cells f s2 1 = .ok X) ∧
          (∀ s2, Elsewhere 3 s1 s2 → ∀ f, X.length < f → list.cells f s2 3 = .ok C)) ∧
      list.assign 3 exB1 1 1 = .ok exB1 :=
  copy_independent exB1 3 1 ⟨1, 2, 1⟩ 3 (reach_exB1 true) (by decide!) (by decide) (by decide)

end sjtu
